import Mathlib

/-!
# Verification of `test_sections` (src/1hmw/code/8.cpp)

A shallow embedding of the producer/consumer pipeline of `test_sections`.

* `double` values are modelled by exact rationals (`ℚ`): every statement about
  sums is a statement over exact arithmetic.  The accumulator as the machine
  computes it, with every product and sum rounded to the nearest double, is
  followed next to the exact state by `runD`.
* The two OpenMP sections are two sequential processes with explicit program
  counters; a run is any interleaving of their atomic steps.  The mutex `mtx`
  is modelled explicitly, so a section that wants the lock while the other one
  holds it has no step.
* The input stream is the list of numeric tokens that follows the two header
  integers; extracting past the end of the stream leaves the destination at
  its initial value `0.0`.  The header is given by the two integers written in
  the file; the pipeline is the code's behaviour when both are in the range of
  `int` (`FileFits`), and `readHeader` follows the extraction on any header.
* `N` and `D` are natural numbers (`buffer.reserve(N)` and
  `std::vector<double> vec(D)` throw on negative arguments).
* `main` of 8.cpp is a function of a `World` (directory, log, vector files,
  measured durations) that returns its exit code, its log entries and the
  invocations of `test_sections` it makes; the arithmetic of the reported
  figures, shared by the other harnesses, is `report`.
* The kernels of 4.cpp, 5.cpp, firsthw.cpp and sechw.cpp and the matrix
  generators of 5.cpp follow the pipeline, in the namespaces `Cpp4`, `Cpp5`,
  `FirstHw` and `SecHw`; their claims are in `Kernels`.
-/

namespace TestSections

/-- One record: a vector of `D` numbers. -/
abbrev Record := List ℚ

/-- Contents of a file that could be opened and that starts with two integer
literals: their values as written, then the remaining numeric tokens.  The
extraction `ifs >> total_vectors >> vector_dim` leaves these two values in the
variables when both are in the range of `int` (`HeaderFits`); what it does on
any header is `readHeader`. -/
structure VecFile where
  total_vectors : Int
  vector_dim : Int
  body : List ℚ
deriving DecidableEq

/-- Arguments of `test_sections`; `file = none` is a file that cannot be
opened.  `num_threads` only sets the OpenMP team size. -/
structure Input where
  N : Nat
  D : Nat
  file : Option VecFile
  num_threads : Nat
deriving DecidableEq

/-- Messages written to `std::cerr` by `test_sections`. -/
inductive ErrMsg where
  | cannotOpen
  | dimMismatch (vector_dim : Int) (D : Nat)
  | tooFew (total_vectors : Int) (N : Nat)
  | endedWithError
deriving DecidableEq

/-- Owner of the mutex `mtx`. -/
inductive Lock where
  | free
  | producer
  | consumer
deriving DecidableEq

/-- Program counter of the first section (lines 38-71). -/
inductive PPc where
  | start        -- line 38: about to open the file and validate the header
  | setError     -- about to execute `file_error = true`
  | setFinished  -- about to execute `finished = true`
  | loop         -- line 59: loop test `i < N`
  | acquire      -- line 65: waiting for `mtx`
  | push         -- line 66: `buffer.push_back(std::move(vec))`
  | release      -- line 67: end of the lock scope, then `++i`
  | done
deriving DecidableEq

/-- Program counter of the second section (lines 76-105). -/
inductive CPc where
  | condFinished  -- line 76: reads `finished`
  | condEmpty     -- line 76: reads `buffer.empty()` (only when `finished`)
  | checkError    -- line 77: reads `file_error`
  | acquire       -- line 84: waiting for `mtx`
  | swap          -- lines 85-87: test and `local_copy.swap(buffer)`
  | release       -- line 88: end of the lock scope
  | branch        -- line 90: `if (!local_copy.empty())`
  | reduce        -- lines 91-100: reduction and `scal += local_scal`
  | elseFinished  -- line 102: reads `finished`, yields when it is false
  | done
deriving DecidableEq

/-- `ifs >> x` for a `double` whose current value is `0.0`. -/
def readDouble (ifs : List ℚ) : ℚ × List ℚ :=
  match ifs with
  | [] => (0, [])
  | x :: rest => (x, rest)

/-- Lines 60-63: `vec(D)` filled by `D` successive extractions.  Returns the
vector and the remaining stream. -/
def readVec : Nat → List ℚ → Record × List ℚ
  | 0, ifs => ([], ifs)
  | d + 1, ifs =>
    let p := readDouble ifs
    let q := readVec d p.2
    (p.1 :: q.1, q.2)

/-- Lines 94-97: `sum += a[k] * b[k]` for `k = 0 .. D-1`, starting at `k`
with `fuel` iterations left. -/
def dotLoop (a b : Record) : Nat → Nat → ℚ → ℚ
  | 0, _, sum => sum
  | fuel + 1, k, sum => dotLoop a b fuel (k + 1) (sum + a.getD k 0 * b.getD k 0)

/-- Lines 93-99: the loop over `i = 0 .. size-2`, adding each pair sum to
`local_scal`, starting at `i` with `fuel` iterations left. -/
def pairLoop (D : Nat) (local_copy : List Record) : Nat → Nat → ℚ → ℚ
  | 0, _, local_scal => local_scal
  | fuel + 1, i, local_scal =>
    pairLoop D local_copy fuel (i + 1)
      (local_scal + dotLoop (local_copy.getD i []) (local_copy.getD (i + 1) []) D 0 0)

/-- Lines 91-99: the value of `local_scal` after the reduction loop.  The loop
bound is `(int)local_copy.size() - 1`, so there are `size - 1` iterations (none
for a batch of size `0` or `1`). -/
def reduceBatch (D : Nat) (local_copy : List Record) : ℚ :=
  pairLoop D local_copy (local_copy.length - 1) 0 0

/-- State of one call of `test_sections`.  The fields `appended`, `drained`
and `cerr` are history variables: the records pushed so far, the non-empty
batches swapped out so far, and the messages written so far. -/
structure State where
  buffer : List Record
  mtx : Lock
  finished : Bool
  file_error : Bool
  scal : ℚ
  ppc : PPc
  i : Nat
  ifs : List ℚ
  vec : Record
  cpc : CPc
  local_copy : List Record
  appended : List Record
  drained : List (List Record)
  cerr : List ErrMsg
deriving DecidableEq

/-- Lines 25-32: the state in which the two sections start. -/
def init : State :=
  { buffer := [], mtx := Lock.free, finished := false, file_error := false, scal := 0,
    ppc := PPc.start, i := 0, ifs := [], vec := [],
    cpc := CPc.condFinished, local_copy := [],
    appended := [], drained := [], cerr := [] }

/-- One atomic step of the first section; `none` when it has terminated or is
waiting for the mutex. -/
def pstep (inp : Input) (s : State) : Option State :=
  match s.ppc with
  | PPc.start =>
    match inp.file with
    | none => some { s with ppc := PPc.setError, cerr := s.cerr ++ [ErrMsg.cannotOpen] }
    | some f =>
      if f.vector_dim ≠ (inp.D : Int) then
        some { s with ppc := PPc.setError,
                      cerr := s.cerr ++ [ErrMsg.dimMismatch f.vector_dim inp.D] }
      else if f.total_vectors < (inp.N : Int) then
        some { s with ppc := PPc.setError,
                      cerr := s.cerr ++ [ErrMsg.tooFew f.total_vectors inp.N] }
      else
        some { s with ppc := PPc.loop, i := 0, ifs := f.body }
  | PPc.setError => some { s with file_error := true, ppc := PPc.setFinished }
  | PPc.setFinished => some { s with finished := true, ppc := PPc.done }
  | PPc.loop =>
    if s.i < inp.N then
      let r := readVec inp.D s.ifs
      some { s with vec := r.1, ifs := r.2, ppc := PPc.acquire }
    else
      some { s with ppc := PPc.setFinished }
  | PPc.acquire =>
    if s.mtx = Lock.free then some { s with mtx := Lock.producer, ppc := PPc.push }
    else none
  | PPc.push =>
    some { s with buffer := s.buffer ++ [s.vec], appended := s.appended ++ [s.vec],
                  ppc := PPc.release }
  | PPc.release => some { s with mtx := Lock.free, i := s.i + 1, ppc := PPc.loop }
  | PPc.done => none

/-- One atomic step of the second section; `none` when it has terminated or is
waiting for the mutex. -/
def cstep (inp : Input) (s : State) : Option State :=
  match s.cpc with
  | CPc.condFinished =>
    if s.finished then some { s with cpc := CPc.condEmpty }
    else some { s with cpc := CPc.checkError }
  | CPc.condEmpty =>
    if s.buffer.isEmpty then some { s with cpc := CPc.done }
    else some { s with cpc := CPc.checkError }
  | CPc.checkError =>
    if s.file_error then some { s with cpc := CPc.done }
    else some { s with local_copy := [], cpc := CPc.acquire }
  | CPc.acquire =>
    if s.mtx = Lock.free then some { s with mtx := Lock.consumer, cpc := CPc.swap }
    else none
  | CPc.swap =>
    if s.buffer.isEmpty then some { s with cpc := CPc.release }
    else some { s with local_copy := s.buffer, buffer := s.local_copy,
                       drained := s.drained ++ [s.buffer], cpc := CPc.release }
  | CPc.release => some { s with mtx := Lock.free, cpc := CPc.branch }
  | CPc.branch =>
    if s.local_copy.isEmpty then some { s with cpc := CPc.elseFinished }
    else some { s with cpc := CPc.reduce }
  | CPc.reduce =>
    some { s with scal := s.scal + reduceBatch inp.D s.local_copy, cpc := CPc.condFinished }
  | CPc.elseFinished => some { s with cpc := CPc.condFinished }
  | CPc.done => none

/-- One step of the run: a step of either section. -/
def Step (inp : Input) (s t : State) : Prop :=
  pstep inp s = some t ∨ cstep inp s = some t

/-- States reachable from `init` under some interleaving. -/
inductive Reachable (inp : Input) : State → Prop where
  | init : Reachable inp init
  | step {s t : State} : Reachable inp s → Step inp s t → Reachable inp t

/-- Scheduler choice: which section moves next. -/
inductive Tid where
  | P
  | C
deriving DecidableEq

/-- Run a schedule; a choice whose section has no step is skipped. -/
def run (inp : Input) : List Tid → State → State
  | [], s => s
  | Tid.P :: sched, s => run inp sched ((pstep inp s).getD s)
  | Tid.C :: sched, s => run inp sched ((cstep inp s).getD s)

/-- Both sections have terminated (the implicit barrier at line 107). -/
def Terminated (s : State) : Prop := s.ppc = PPc.done ∧ s.cpc = CPc.done

instance (s : State) : Decidable (Terminated s) := by
  unfold Terminated; infer_instance

/-- Lines 109-111: the epilogue after the sections; the function returns
`void`, the only effect is a message on `std::cerr`. -/
def epilogue (s : State) : List ErrMsg :=
  if s.file_error then s.cerr ++ [ErrMsg.endedWithError] else s.cerr

/-- The example file of the specification: `N = 4`, `D = 2`. -/
def exFile : VecFile :=
  { total_vectors := 4, vector_dim := 2, body := [1, 2, 3, 4, 5, 6, 7, 8] }

/-- The call of the specification's example: `N = 4`, `D = 2` on `exFile`. -/
def exInput : Input := { N := 4, D := 2, file := some exFile, num_threads := 1 }

/-- Schedule in which the producer runs to completion before the consumer
starts. -/
def producerFirst : List Tid :=
  List.replicate 19 Tid.P ++ List.replicate 10 Tid.C

/-- Schedule in which the consumer drains after the second record and again
after the fourth. -/
def twoBatches : List Tid :=
  List.replicate 9 Tid.P ++ List.replicate 7 Tid.C ++ List.replicate 10 Tid.P ++
    List.replicate 11 Tid.C

/-- Schedule that stops while the third record is being pushed, after one
drain of two records. -/
def midRun : List Tid :=
  List.replicate 9 Tid.P ++ List.replicate 5 Tid.C ++ List.replicate 3 Tid.P

/-- Schedule that stops when the consumer is about to reduce its first batch,
the first record alone. -/
def atReduce : List Tid :=
  List.replicate 5 Tid.P ++ List.replicate 6 Tid.C

/-- The records produced by `n` consecutive passes of the read loop body on
the stream `ifs` (no interleaving involved: the stream is private to the
producer). -/
def readRecords (D : Nat) : Nat → List ℚ → List Record
  | 0, _ => []
  | n + 1, ifs => (readVec D ifs).1 :: readRecords D n (readVec D ifs).2

/-- The stream left after `n` consecutive passes of the read loop body. -/
def dropRecords (D : Nat) : Nat → List ℚ → List ℚ
  | 0, ifs => ifs
  | n + 1, ifs => dropRecords D n (readVec D ifs).2

/-- The header check of lines 39-58 passes: the file opens, the declared
dimension is `D` and the declared count is at least `N`. -/
def headerOk (inp : Input) : Bool :=
  match inp.file with
  | none => false
  | some f => decide (f.vector_dim = (inp.D : Int)) && decide ((inp.N : Int) ≤ f.total_vectors)

/-- The numeric tokens after the header (empty for an unopenable file). -/
def bodyOf (inp : Input) : List ℚ :=
  match inp.file with
  | none => []
  | some f => f.body

/-- A valid input: the header check passes and the body holds at least
`N * D` numbers. -/
def Valid (inp : Input) : Prop :=
  headerOk inp = true ∧ inp.N * inp.D ≤ (bodyOf inp).length

instance (inp : Input) : Decidable (Valid inp) := by
  unfold Valid; infer_instance

/-- Row `i` of a row-major body of dimension `D`. -/
def fileRow (D : Nat) (body : List ℚ) (i : Nat) : Record :=
  (body.drop (i * D)).take D

/-- The first `n` rows of the body, in file order. -/
def fileRows (D n : Nat) (body : List ℚ) : List Record :=
  (List.range n).map (fileRow D body)

/-- Dot product of two records. -/
def dot (a b : Record) : ℚ :=
  (List.zipWith (fun x y => x * y) a b).sum

/-- The adjacent-pair sum of a batch as the specification writes it:
`sum_{i=0}^{M-2} dot(batch[i], batch[i+1])`. -/
def pairSum (batch : List Record) : ℚ :=
  ∑ i in Finset.range (batch.length - 1), dot (batch.getD i []) (batch.getD (i + 1) [])

/-- Contribution of the batch the consumer holds but has not yet added to
`scal`. -/
def pending (inp : Input) (s : State) : ℚ :=
  match s.cpc with
  | CPc.release => reduceBatch inp.D s.local_copy
  | CPc.branch => reduceBatch inp.D s.local_copy
  | CPc.reduce => reduceBatch inp.D s.local_copy
  | _ => 0

/-- `k` consecutive steps of the consumer section. -/
def csteps (inp : Input) : Nat → State → Option State
  | 0, s => some s
  | k + 1, s => (cstep inp s).bind (csteps inp k)

/-- The header check fails, in the words of the specification: the file
cannot be opened, or the declared dimension differs from `D`, or the declared
record count is less than `N`. -/
def HeaderFails (inp : Input) : Prop :=
  inp.file = none ∨
    ∃ f, inp.file = some f ∧ (f.vector_dim ≠ (inp.D : Int) ∨ f.total_vectors < (inp.N : Int))

/-- `k` consecutive steps of the producer section. -/
def psteps (inp : Input) : Nat → State → Option State
  | 0, s => some s
  | k + 1, s => (pstep inp s).bind (psteps inp k)

/-- Number of consumer steps still needed to leave the loop once `finished`
is set and the buffer is empty. -/
def crank : CPc → Nat
  | CPc.done => 0
  | CPc.condEmpty => 1
  | CPc.condFinished => 2
  | CPc.elseFinished => 3
  | CPc.reduce => 3
  | CPc.branch => 4
  | CPc.release => 5
  | CPc.swap => 6
  | CPc.acquire => 7
  | CPc.checkError => 8

/-- A file whose header declares three records while five are requested. -/
def shortInput : Input :=
  { N := 5, D := 2,
    file := some { total_vectors := 3, vector_dim := 2, body := [1, 2, 3, 4, 5, 6] },
    num_threads := 1 }

/-- The example file with the last record changed. -/
def exInputAlt : Input :=
  { N := 4, D := 2,
    file := some { total_vectors := 4, vector_dim := 2, body := [1, 2, 3, 4, 5, 6, 7, 9] },
    num_threads := 1 }

/-- Schedule for a failing input: the consumer polls once, then the producer
fails, then the consumer leaves. -/
def failRun : List Tid :=
  List.replicate 7 Tid.C ++ List.replicate 3 Tid.P ++ List.replicate 3 Tid.C

/-! ## Further definitions: buffer accesses, the parallel reduction, calls -/

/-- The producer statement at this program point reads or writes `buffer`:
only `buffer.push_back` of line 66. -/
def producerTouchesBuffer : PPc → Bool
  | PPc.push => true
  | _ => false

/-- The consumer statement at this program point reads or writes `buffer`:
`buffer.empty()` in the loop condition of line 76, and the test and swap of
lines 85-86. -/
def consumerTouchesBuffer : CPc → Bool
  | CPc.condEmpty => true
  | CPc.swap => true
  | _ => false

/-- Lines 94-98 for one index `i`: the value added to `local_scal`. -/
def pairTerm (D : Nat) (local_copy : List Record) (i : Nat) : ℚ :=
  dotLoop (local_copy.getD i []) (local_copy.getD (i + 1) []) D 0 0

/-- Line 92, one worker of the `parallel for`: its private `local_scal`
starts at `0` and receives the terms of the indices of its slice. -/
def sliceSum (D : Nat) (local_copy : List Record) (slice : List Nat) : ℚ :=
  slice.foldl (fun local_scal i => local_scal + pairTerm D local_copy i) 0

/-- Line 92, `reduction(+:local_scal)`: the private copies of the workers are
added to the original value `0.0`, one after the other. -/
def reduceParallel (D : Nat) (local_copy : List Record) (slices : List (List Nat)) : ℚ :=
  slices.foldl (fun local_scal slice => local_scal + sliceSum D local_copy slice) 0

/-- The slices split the `M - 1` pair indices among the workers: every index
`0 .. M-2` is in exactly one slice, in any order. -/
def IsSplit (M : Nat) (slices : List (List Nat)) : Prop :=
  slices.flatten.Perm (List.range (M - 1))

/-- The example call with a team of two threads. -/
def exInputPar : Input := { N := 4, D := 2, file := some exFile, num_threads := 2 }

/-- Schedule that ends when the consumer, having read `finished = true`, is
about to evaluate `buffer.empty()` in its loop condition. -/
def atCondEmpty : List Tid :=
  List.replicate 19 Tid.P ++ [Tid.C]

/-- Schedule that ends when the producer, holding `mtx`, is about to push its
first record. -/
def atPush : List Tid :=
  List.replicate 3 Tid.P

/-- Schedule that ends when the consumer, holding `mtx`, is about to swap out
a buffer of two records. -/
def atSwap : List Tid :=
  List.replicate 9 Tid.P ++ List.replicate 3 Tid.C

/-- Schedule on a failing input that ends when the consumer is about to read
the error flag, which the producer has just set. -/
def atErrorCheck : List Tid :=
  [Tid.C, Tid.P, Tid.P]

/-! ## The harness: `main` of 8.cpp and the figures every harness reports -/

/-- Lines 202-208 and 218-224 of 8.cpp (and the same loops of 3.cpp, 4.cpp,
5.cpp, 6.cpp, 7.cpp, sechw.cpp, firsthw.cpp): `total_time` starts at `0.0` and
receives every measured duration. -/
def totalTime (timings : List ℚ) : ℚ :=
  timings.foldl (fun total_time x => total_time + x) 0

/-- The average `total_time / num_tests` (line 209 and line 225 of 8.cpp). -/
def averageTime (num_tests : Nat) (timings : List ℚ) : ℚ :=
  totalTime timings / num_tests

/-- Lines 225-227 of 8.cpp, and the same three lines of 3.cpp (131-133),
4.cpp (157-159), 5.cpp (189-191), 6.cpp (147-149), 7.cpp (158-160) and
sechw.cpp (127-129): the triple `(avg_time, speedup, efficiency)` logged for a
thread count. -/
def report (num_tests : Nat) (base_time : ℚ) (timings : List ℚ) (threads : Nat) :
    ℚ × ℚ × ℚ :=
  let avg_time := averageTime num_tests timings
  let speedup := base_time / avg_time
  let efficiency := speedup / threads
  (avg_time, speedup, efficiency)

/-- Lines 151-153 and 166-168 of firsthw.cpp: as `report`, with the guard
`(base_time > 0) ? base_time / time : 0.0` on the speedup. -/
def reportGuarded (num_tests : Nat) (base_time : ℚ) (timings : List ℚ) (threads : Nat) :
    ℚ × ℚ × ℚ :=
  let time := averageTime num_tests timings
  let speedup := if base_time > 0 then base_time / time else 0
  let efficiency := speedup / threads
  (time, speedup, efficiency)

/-- Lines 111-112 and 131-132 of firsthw.cpp: the speedup and efficiency logged
with the one-thread entry. -/
def baselineGuarded (base_time : ℚ) : ℚ × ℚ :=
  let speedup_one := if base_time > 0 then base_time / base_time else 1
  let efficiency_one := speedup_one / 1
  (speedup_one, efficiency_one)

/-- What `main` of 8.cpp finds around it: whether `./Results` exists, whether
it can be created, whether the log file opens, the vector files by name (in the
form `VecFile`, `none` for a file that does not open), and the duration in
milliseconds measured around repetition `t` of the calls
`test_sections(N, D, filename, threads)`. -/
structure World where
  directory_exists : Bool
  create_directory : Bool
  log_is_open : Bool
  files : String → Option VecFile
  elapsed : Nat → Nat → Nat → Nat → ℚ

/-- One entry written to `log_file`. -/
inductive LogLine where
  | fileNotFound (N D : Nat) (filename : String)
  | insufficientData (N D : Nat) (filename : String) (file_N : Int)
  | dimensionMismatch (N D : Nat) (filename : String) (file_D : Int)
  | size (N D : Nat) (filename : String)
  | threads (threads : Nat)
  | time (time speedup efficiency : ℚ)
  | separator
deriving DecidableEq

/-- One invocation of `test_sections` made by `main`. -/
structure Call where
  N : Nat
  D : Nat
  filename : String
  num_threads : Nat
deriving DecidableEq

/-- Lines 117-123. -/
def thread_counts_all : List Nat := [1, 2, 4, 6, 8, 12, 16]

/-- Lines 118-123: the thread counts not above twelve. -/
def thread_counts : List Nat := thread_counts_all.filter (fun t => decide (t ≤ 12))

/-- Lines 126-131. -/
def size_pairs : List (Nat × Nat) := [(500, 100), (1000, 50), (5000, 50), (1000, 1000)]

/-- Line 155. -/
def num_tests : Nat := 3

/-- Line 161: the name of the vector file of a configuration. -/
def fileName (N D : Nat) : String :=
  "vectors_" ++ toString N ++ "_" ++ toString D ++ ".txt"

/-- The durations of the `num_tests` timed calls made for a thread count. -/
def measured (w : World) (N D threads : Nat) : List ℚ :=
  (List.range num_tests).map (w.elapsed N D threads)

/-- Lines 214-233: the log entries of one pass of the loop over
`thread_counts`. -/
def threadEntry (w : World) (N D : Nat) (base_time : ℚ) (threads : Nat) : List LogLine :=
  if threads = 1 then []
  else
    let r := report num_tests base_time (measured w N D threads) threads
    [LogLine.threads threads, LogLine.time r.1 r.2.1 r.2.2]

/-- Lines 203-208 and 214-224: the invocations of `test_sections` of one pass
of the loop over `thread_counts`. -/
def threadCalls (N D : Nat) (threads : Nat) : List Call :=
  if threads = 1 then []
  else List.replicate num_tests { N := N, D := D, filename := fileName N D, num_threads := threads }

/-- Lines 158-235: the body of the loop over `size_pairs` for one
configuration: the log entries written and the invocations made. -/
def runConfig (w : World) (N D : Nat) : List LogLine × List Call :=
  match w.files (fileName N D) with
  | none => ([LogLine.fileNotFound N D (fileName N D), LogLine.separator], [])
  | some f =>
    if f.total_vectors < (N : Int) then
      ([LogLine.insufficientData N D (fileName N D) f.total_vectors, LogLine.separator], [])
    else if f.vector_dim ≠ (D : Int) then
      ([LogLine.dimensionMismatch N D (fileName N D) f.vector_dim, LogLine.separator], [])
    else
      let base_time := averageTime num_tests (measured w N D 1)
      ([LogLine.size N D (fileName N D), LogLine.threads 1, LogLine.time base_time 1 1]
          ++ thread_counts.flatMap (threadEntry w N D base_time)
          ++ [LogLine.separator],
        List.replicate num_tests
            { N := N, D := D, filename := fileName N D, num_threads := 1 }
          ++ thread_counts.flatMap (threadCalls N D))

/-- Lines 157-236: the loop over the configurations. -/
def sweep (w : World) : List (Nat × Nat) → List LogLine × List Call
  | [] => ([], [])
  | p :: rest =>
    let r := runConfig w p.1 p.2
    let q := sweep w rest
    (r.1 ++ q.1, r.2 ++ q.2)

/-- Lines 114-244, `main` of 8.cpp: the return value, the log and the
invocations of `test_sections`. -/
def main (w : World) : Nat × List LogLine × List Call :=
  if w.directory_exists = false ∧ w.create_directory = false then (1, [], [])
  else if w.log_is_open = false then (1, [], [])
  else (0, sweep w size_pairs)

/-- The arguments with which `main` would call `test_sections` for a
configuration. -/
def configInput (w : World) (N D threads : Nat) : Input :=
  { N := N, D := D, file := w.files (fileName N D), num_threads := threads }

/-- A world in which `./Results` exists and the log opens; the file of the
first configuration declares too few records, that of the second is in order,
that of the third declares another dimension and that of the fourth is
missing; a call with `threads` threads takes `12 / threads` milliseconds. -/
def exWorld : World :=
  { directory_exists := true, create_directory := false, log_is_open := true,
    files := fun name =>
      if name = "vectors_500_100.txt" then
        some { total_vectors := 3, vector_dim := 100, body := [] }
      else if name = "vectors_1000_50.txt" then
        some { total_vectors := 1000, vector_dim := 50, body := [] }
      else if name = "vectors_5000_50.txt" then
        some { total_vectors := 5000, vector_dim := 49, body := [] }
      else none,
    elapsed := fun _ _ threads _ => 12 / threads }

/-! ## Further definitions: short bodies and the pre-check of `main` -/

/-- Row `i` of a body that may be too short: the numbers the file holds, and
`0` for every component with no number in the file. -/
def paddedRow (D : Nat) (body : List ℚ) (i : Nat) : Record :=
  (List.range D).map (fun k => body.getD (i * D + k) 0)

/-- An input whose header is in order and whose body holds three numbers where
`N * D = 4` are needed. -/
def shortBodyInput : Input :=
  { N := 2, D := 2, file := some { total_vectors := 2, vector_dim := 2, body := [1, 2, 3] },
    num_threads := 2 }

/-- Lines 166-196 of 8.cpp: the header pre-check of `main` lets the
configuration through to the timed calls. -/
def preCheckAccepts (w : World) (N D : Nat) : Bool :=
  match w.files (fileName N D) with
  | none => false
  | some f =>
    if f.total_vectors < (N : Int) then false
    else if f.vector_dim ≠ (D : Int) then false
    else true

/-- The arguments of an invocation made by `main`, on the files of the world
`w` (the file is the one `main` looked at). -/
def callInput (w : World) (c : Call) : Input :=
  { N := c.N, D := c.D, file := w.files c.filename, num_threads := c.num_threads }

/-- A world whose one vector file fails both conditions: it declares three
records of dimension seven where five hundred of dimension one hundred are
asked for. -/
def bothFailWorld : World :=
  { directory_exists := true, create_directory := false, log_is_open := true,
    files := fun name =>
      if name = "vectors_500_100.txt" then
        some { total_vectors := 3, vector_dim := 7, body := [] }
      else none,
    elapsed := fun _ _ _ _ => 1 }

end TestSections

/-! # The kernels of 4.cpp, 5.cpp, firsthw.cpp and sechw.cpp

`int` values are integers of the range `INT_MIN .. INT_MAX`; an `int` addition,
subtraction or multiplication whose result leaves that range is undefined
behaviour and is modelled by `none`.  Container sizes are taken below `2^31`,
so the `int` loop counters over them are exact.  An OpenMP `parallel for` is
modelled by the slices of iterations the workers execute.  The OpenMP runtime
is a parameter `omp` that gives, for a thread count (and a schedule) and an
iteration count, the slices, or for a loop of critical sections the order in
which the iterations take effect.  The random generator of 5.cpp, seeded, is
the stream `gen` of its successive outputs. -/

namespace Omp

/-- `std::numeric_limits<int>::min()`. -/
def INT_MIN : Int := -2147483648

/-- `std::numeric_limits<int>::max()`. -/
def INT_MAX : Int := 2147483647

/-- The value is representable as an `int`. -/
def InIntRange (x : Int) : Prop := INT_MIN ≤ x ∧ x ≤ INT_MAX

instance (x : Int) : Decidable (InIntRange x) := by
  unfold InIntRange; infer_instance

/-- The slices split the iterations `0 .. n-1` among the workers: every
iteration is in exactly one slice, in any order. -/
def IsSplitOf (n : Nat) (slices : List (List Nat)) : Prop :=
  slices.flatten.Perm (List.range n)

/-- A static distribution in contiguous blocks of `n / num_threads` iterations
(rounded up), one per thread. -/
def staticBlocks (num_threads n : Nat) : List (List Nat) :=
  (List.range num_threads).map
    (fun t => (List.range n).filter
      (fun i => decide (t * ((n + num_threads - 1) / num_threads) ≤ i ∧
        i < (t + 1) * ((n + num_threads - 1) / num_threads))))

/-- A distribution that hands the iterations out one by one, round robin, and
combines the threads from the last to the first. -/
def roundRobin (num_threads n : Nat) : List (List Nat) :=
  ((List.range (num_threads + 1)).map
    (fun t => (List.range n).filter (fun i => decide (i % (num_threads + 1) = t)))).reverse

/-- The minimum element of a row; `INT_MAX` for an empty row. -/
def minOfRow (row : List Int) : Int :=
  match row with
  | [] => INT_MAX
  | v :: rest => rest.foldl min v

/-- The maximum over all rows of the minimum element of the row; `INT_MIN` for
an empty matrix. -/
def maxOfMins (matrix : List (List Int)) : Int :=
  match matrix.map minOfRow with
  | [] => INT_MIN
  | m :: rest => rest.foldl max m

/-- The maximum element of a vector; `INT_MIN` for an empty vector. -/
def maxOf (vec : List Int) : Int :=
  match vec with
  | [] => INT_MIN
  | v :: rest => rest.foldl max v

/-- The minimum element of a vector; `INT_MAX` for an empty vector. -/
def minOf (vec : List Int) : Int :=
  match vec with
  | [] => INT_MAX
  | v :: rest => rest.foldl min v

/-- `int` addition; `none` on overflow. -/
def addInt (x y : Int) : Option Int :=
  if InIntRange (x + y) then some (x + y) else none

/-- `int` subtraction; `none` on overflow. -/
def subInt (x y : Int) : Option Int :=
  if InIntRange (x - y) then some (x - y) else none

/-- `int` multiplication; `none` on overflow. -/
def mulInt (x y : Int) : Option Int :=
  if InIntRange (x * y) then some (x * y) else none

/-- `static_cast<int>` of a `size_t`: the value modulo `2^32`, as a signed
number. -/
def toInt32 (x : Nat) : Int :=
  ((x : Int) + 2147483648) % 4294967296 - 2147483648

end Omp

namespace Cpp4

open Omp

/-- Lines 17-20 of 4.cpp: `min_in_row` after the loop over the row. -/
def minInRow (row : List Int) : Int :=
  row.foldl (fun min_in_row val => if val < min_in_row then val else min_in_row) INT_MAX

/-- Lines 17-21 of 4.cpp: one iteration of the loop over the rows, acting on
the worker's copy of `max_of_mins`. -/
def rowStep (matrix : List (List Int)) (max_of_mins : Int) (i : Nat) : Int :=
  let min_in_row := minInRow (matrix.getD i [])
  if min_in_row > max_of_mins then min_in_row else max_of_mins

/-- Lines 10-23 of 4.cpp: the final value of `max_of_mins`.  Each worker runs
its slice of iterations on a private copy that starts at `INT_MIN`, the
identity of `max`; `reduction(max:max_of_mins)` combines the copies with the
original value `INT_MIN` by `max`. -/
def compute_max_of_mins (matrix : List (List Int)) (num_threads : Nat)
    (omp : Nat → Nat → List (List Nat)) : Int :=
  (omp num_threads matrix.length).foldl
    (fun max_of_mins slice => max max_of_mins (slice.foldl (rowStep matrix) INT_MIN))
    INT_MIN

end Cpp4

namespace Cpp5

open Omp

/-- The kinds of `omp_sched_t` that 5.cpp uses. -/
inductive omp_sched_t where
  | omp_sched_static
  | omp_sched_dynamic
  | omp_sched_guided
deriving DecidableEq

/-- Lines 26-38 of 5.cpp: the schedule kind and chunk size passed to
`omp_set_schedule`. -/
def scheduleOf (schedule_str : String) : omp_sched_t × Nat :=
  if schedule_str = "dynamic" then (omp_sched_t.omp_sched_dynamic, 10)
  else if schedule_str = "guided" then (omp_sched_t.omp_sched_guided, 0)
  else (omp_sched_t.omp_sched_static, 0)

/-- Lines 44-47 of 5.cpp: `min_in_row` after the loop over the row. -/
def minInRow (row : List Int) : Int :=
  row.foldl (fun min_in_row val => if val < min_in_row then val else min_in_row) INT_MAX

/-- Lines 44-48 of 5.cpp: one iteration of the loop over the rows, acting on
the worker's copy of `max_of_mins`. -/
def rowStep (matrix : List (List Int)) (max_of_mins : Int) (i : Nat) : Int :=
  let min_in_row := minInRow (matrix.getD i [])
  if min_in_row > max_of_mins then min_in_row else max_of_mins

/-- Lines 22-50 of 5.cpp: the final value of `max_of_mins`; the schedule set
from `schedule_str` decides the slices, the reduction is that of 4.cpp. -/
def compute_max_of_mins (matrix : List (List Int)) (num_threads : Nat)
    (schedule_str : String) (omp : omp_sched_t × Nat → Nat → Nat → List (List Nat)) : Int :=
  (omp (scheduleOf schedule_str) num_threads matrix.length).foldl
    (fun max_of_mins slice => max max_of_mins (slice.foldl (rowStep matrix) INT_MIN))
    INT_MIN

/-- Lines 60-62 and 74-76 of 5.cpp: the loop over the columns of one row.  It
runs `count` times; its iteration `t` stores the next output of the generator
in column `first + t`.  `gen t` is the output of draw number `t` of
`dist(rng)` for the given seed, `drawn` the number of draws made before the
loop. -/
def fillRow (gen : Nat → Int) (row : List Int) (first count drawn : Nat) : List Int :=
  (List.range count).foldl (fun r t => r.set (first + t) (gen (drawn + t))) row

/-- Lines 57-63 of 5.cpp: iteration `i` of the loop over the rows, on the
matrix and the number of draws made so far; `none` once an `int` operation has
overflowed.  The loop `for (int j = start; j <= end; ++j)` runs
`end - start + 1` times, or not at all when `end < start`. -/
def bandedRow (n : Nat) (k : Int) (gen : Nat → Int) (st : Option (List (List Int) × Nat))
    (i : Nat) : Option (List (List Int) × Nat) :=
  match st with
  | none => none
  | some (mat, drawn) =>
    (subInt (toInt32 i) k).bind (fun lo =>
      (subInt (toInt32 n) 1).bind (fun nm1 =>
        (addInt (toInt32 i) k).bind (fun hi =>
          some (mat.set i
              (fillRow gen (mat.getD i []) (max 0 lo).toNat
                (min nm1 hi - max 0 lo + 1).toNat drawn),
            drawn + (min nm1 hi - max 0 lo + 1).toNat))))

/-- Lines 52-65 of 5.cpp: the matrix returned, or `none` when an `int`
operation overflows.  The generator seeded with `seed` is the stream `gen`. -/
def generate_banded (n : Nat) (k : Int) (gen : Nat → Int) : Option (List (List Int)) :=
  ((List.range n).foldl (bandedRow n k gen)
    (some (List.replicate n (List.replicate n INT_MAX), 0))).map Prod.fst

/-- Lines 73-77 of 5.cpp: iteration `i` of the loop over the rows; the loop
`for (size_t j = 0; j <= i; ++j)` runs `i + 1` times. -/
def lowerRow (gen : Nat → Int) (st : List (List Int) × Nat) (i : Nat) :
    List (List Int) × Nat :=
  (st.1.set i (fillRow gen (st.1.getD i []) 0 (i + 1) st.2), st.2 + (i + 1))

/-- Lines 67-78 of 5.cpp: the matrix returned. -/
def generate_lower_triangular (n : Nat) (gen : Nat → Int) : List (List Int) :=
  ((List.range n).foldl (lowerRow gen) (List.replicate n (List.replicate n INT_MAX), 0)).1

/-- A stream of generator outputs within `[-10000, 10000]`, for the examples. -/
def exGen (t : Nat) : Int := ((t * 7919 % 20001 : Nat) : Int) - 10000

end Cpp5

namespace FirstHw

open Omp

end FirstHw

namespace SecHw

open Omp

/-- Line 16 of sechw.cpp: `result += a[i] * b[i]` on a worker's copy of
`result`; `none` once an `int` operation has overflowed. -/
def accumulate (a b : List Int) (result : Option Int) (i : Nat) : Option Int :=
  match result with
  | none => none
  | some r =>
    match mulInt (a.getD i 0) (b.getD i 0) with
    | none => none
    | some p => addInt r p

/-- Lines 10-18 of sechw.cpp: the final value of `result`.  Each worker runs
its slice on a private copy that starts at `0`; `reduction(+:result)` adds the
copies to the original value `0`. -/
def scalar_production (a b : List Int) (num_threads : Nat)
    (omp : Nat → Nat → List (List Nat)) : Option Int :=
  (omp num_threads a.length).foldl
    (fun result slice =>
      match result, slice.foldl (accumulate a b) (some 0) with
      | some r, some p => addInt r p
      | _, _ => none)
    (some 0)

/-- The exact dot product of `a` with the first `a.size()` entries of `b`. -/
def exactDot (a b : List Int) : Int :=
  (List.zipWith (fun x y => x * y) a (b.take a.length)).sum

end SecHw

namespace TestSections

/-! ## The header as the stream holds it

`VecFile` gives the header by the values written in the file.  The code reads
it with two unchecked extractions into `int` variables that have no
initialiser (lines 44-46 of `test_sections`, lines 176-177 of `main`).  The
definitions below follow the extraction on any header; a test that reads a
variable which no extraction has written has no defined behaviour, rendered by
`none`. -/

/-- What the stream holds where an extraction expects an integer. -/
inductive HeaderTok where
  | number (v : Int)  -- an integer literal, of any size
  | junk              -- characters that do not start an integer
  | missing           -- the end of the file
deriving DecidableEq

/-- `ifs >> x` for an `int x` whose content is `cur` (`none`: never written),
on a stream whose failbit is `failed`: the new content of `x` and the new
failbit.  A stream that has failed or is at its end stores nothing; a literal
outside the range of `int` stores the nearest bound and sets the failbit;
characters that are no number store `0` and set the failbit. -/
def extractInt (failed : Bool) (tok : HeaderTok) (cur : Option Int) : Option Int × Bool :=
  if failed then (cur, true)
  else
    match tok with
    | HeaderTok.number v =>
      if v < Omp.INT_MIN then (some Omp.INT_MIN, true)
      else if Omp.INT_MAX < v then (some Omp.INT_MAX, true)
      else (some v, false)
    | HeaderTok.junk => (some 0, true)
    | HeaderTok.missing => (cur, true)

/-- Lines 44-46 of `test_sections` and lines 176-177 of `main`: two `int`
variables without initialiser and the two extractions.  Returned are the
contents of the first and of the second variable and the failbit. -/
def readHeader (first second : HeaderTok) : Option Int × Option Int × Bool :=
  ((extractInt false first none).1,
    (extractInt (extractInt false first none).2 second none).1,
    (extractInt (extractInt false first none).2 second none).2)

/-- The branch that the validation of lines 48-58 takes. -/
inductive Verdict where
  | dimMismatch (vector_dim : Int)   -- lines 49-52
  | tooFew (total_vectors : Int)     -- lines 54-57
  | read (failed : Bool)             -- lines 59-69, on a stream with this failbit
deriving DecidableEq

/-- Lines 44-58 of `test_sections` on any header: line 48 reads `vector_dim`,
then line 53 reads `total_vectors`. -/
def validateHeader (N D : Nat) (first second : HeaderTok) : Option Verdict :=
  match (readHeader first second).2.1 with
  | none => none
  | some vector_dim =>
    if vector_dim ≠ (D : Int) then some (Verdict.dimMismatch vector_dim)
    else
      match (readHeader first second).1 with
      | none => none
      | some total_vectors =>
        if total_vectors < (N : Int) then some (Verdict.tooFew total_vectors)
        else some (Verdict.read (readHeader first second).2.2)

/-- The branch that the pre-check of `main` takes (lines 179-196). -/
inductive PreCheck where
  | insufficient (file_N : Int)   -- lines 179-186
  | mismatch (file_D : Int)       -- lines 188-195
  | accepted
deriving DecidableEq

/-- Lines 176-196 of `main` on any header: line 179 reads `file_N`, then line
188 reads `file_D`. -/
def preCheckHeader (N D : Nat) (first second : HeaderTok) : Option PreCheck :=
  match (readHeader first second).1 with
  | none => none
  | some file_N =>
    if file_N < (N : Int) then some (PreCheck.insufficient file_N)
    else
      match (readHeader first second).2.1 with
      | none => none
      | some file_D =>
        if file_D ≠ (D : Int) then some (PreCheck.mismatch file_D)
        else some PreCheck.accepted

/-- Both header integers of the file are in the range of `int`. -/
def HeaderFits (f : VecFile) : Prop :=
  Omp.InIntRange f.total_vectors ∧ Omp.InIntRange f.vector_dim

instance (f : VecFile) : Decidable (HeaderFits f) := by
  unfold HeaderFits; infer_instance

/-- The file of the call, if it opens, has a header within the range of
`int`. -/
def FileFits (inp : Input) : Prop :=
  match inp.file with
  | none => True
  | some f => HeaderFits f

instance (inp : Input) : Decidable (FileFits inp) := by
  unfold FileFits
  cases inp.file <;> infer_instance

/-- Every vector file of the world has a header within the range of `int`. -/
def WorldFits (w : World) : Prop :=
  ∀ name f, w.files name = some f → HeaderFits f

/-- A file that declares `99999999999` records of dimension `2`: more than an
`int` holds. -/
def hugeCountFile : VecFile :=
  { total_vectors := 99999999999, vector_dim := 2, body := [1, 2, 3, 4] }

/-- A call with `N = 2`, `D = 2` on `hugeCountFile`. -/
def hugeCountInput : Input := { N := 2, D := 2, file := some hugeCountFile, num_threads := 2 }

/-- A world whose file for `(1000, 50)` declares `99999999999` records of
dimension `50`. -/
def hugeCountWorld : World :=
  { directory_exists := true, create_directory := false, log_is_open := true,
    files := fun name =>
      if name = "vectors_1000_50.txt" then
        some { total_vectors := 99999999999, vector_dim := 50, body := [] }
      else none,
    elapsed := fun _ _ _ _ => 1 }

/-! ## The accumulator in `double` arithmetic

The pipeline above computes with exact rationals.  The code computes with
`double`: every product and every sum is rounded to the nearest double, ties to
even.  Neither section reads `scal` or a sum to decide what to do next, so a run
in `double` arithmetic takes the steps of the exact run; only the accumulator
differs.  A value that is not finite (an infinity or a NaN) stays not finite
under `+` and `*` and is not told apart further.  Products and sums are rounded
one by one (no fused multiply-add). -/

/-- A `double`: finite, with its exact value, or not finite. -/
inductive Dbl where
  | finite (q : ℚ)
  | notFinite
deriving DecidableEq

/-- The power `2 ^ e` for an integer exponent. -/
def pow2 (e : Int) : ℚ :=
  if 0 ≤ e then ((2 ^ e.toNat : Nat) : ℚ) else 1 / ((2 ^ (-e).toNat : Nat) : ℚ)

/-- The number of halvings that bring `n` below `2`, with `fuel` halvings
allowed. -/
def bitLoop : Nat → Nat → Nat
  | 0, _ => 0
  | fuel + 1, n => if n < 2 then 0 else bitLoop fuel (n / 2) + 1

/-- The integer part of the binary logarithm of `n ≥ 1`. -/
def natLog2 (n : Nat) : Nat := bitLoop n n

/-- The integer part of the binary logarithm of a positive rational. -/
def ilog2 (a : ℚ) : Int :=
  if pow2 ((natLog2 a.num.natAbs : Int) - (natLog2 a.den : Int)) ≤ a then
    (natLog2 a.num.natAbs : Int) - (natLog2 a.den : Int)
  else (natLog2 a.num.natAbs : Int) - (natLog2 a.den : Int) - 1

/-- The integer nearest to `m ≥ 0`, the even one of two that are equally
near. -/
def roundHalfEven (m : ℚ) : Nat :=
  if m - ((m.num.toNat / m.den : Nat) : ℚ) < 1 / 2 then m.num.toNat / m.den
  else if 1 / 2 < m - ((m.num.toNat / m.den : Nat) : ℚ) then m.num.toNat / m.den + 1
  else if (m.num.toNat / m.den) % 2 = 0 then m.num.toNat / m.den
  else m.num.toNat / m.den + 1

/-- The `double` nearest to `q` (binary64: 53 significant bits, least exponent
`-1022`, ties to even); not finite when the rounded magnitude reaches
`2 ^ 1024`. -/
def roundDouble (q : ℚ) : Dbl :=
  if q = 0 then Dbl.finite 0
  else if pow2 1024 ≤
      (roundHalfEven ((if q < 0 then -q else q)
        / pow2 (max (ilog2 (if q < 0 then -q else q)) (-1022) - 52)) : ℚ)
        * pow2 (max (ilog2 (if q < 0 then -q else q)) (-1022) - 52) then Dbl.notFinite
  else if q < 0 then
    Dbl.finite (-((roundHalfEven ((-q) / pow2 (max (ilog2 (-q)) (-1022) - 52)) : ℚ)
      * pow2 (max (ilog2 (-q)) (-1022) - 52)))
  else
    Dbl.finite ((roundHalfEven (q / pow2 (max (ilog2 q) (-1022) - 52)) : ℚ)
      * pow2 (max (ilog2 q) (-1022) - 52))

/-- The sum of two doubles. -/
def Dbl.add : Dbl → Dbl → Dbl
  | Dbl.finite a, Dbl.finite b => roundDouble (a + b)
  | _, _ => Dbl.notFinite

/-- The product of two doubles. -/
def Dbl.mul : Dbl → Dbl → Dbl
  | Dbl.finite a, Dbl.finite b => roundDouble (a * b)
  | _, _ => Dbl.notFinite

/-- Lines 94-97 in `double` arithmetic: `sum += a[k] * b[k]` for
`k = 0 .. D-1`; a component is the double that `ifs >> vec[j]` stored for its
number. -/
def dotLoopD (a b : Record) : Nat → Nat → Dbl → Dbl
  | 0, _, sum => sum
  | fuel + 1, k, sum =>
    dotLoopD a b fuel (k + 1)
      (sum.add ((roundDouble (a.getD k 0)).mul (roundDouble (b.getD k 0))))

/-- Lines 94-98 for one index `i` in `double` arithmetic: the value added to
`local_scal`. -/
def pairTermD (D : Nat) (local_copy : List Record) (i : Nat) : Dbl :=
  dotLoopD (local_copy.getD i []) (local_copy.getD (i + 1) []) D 0 (Dbl.finite 0)

/-- Line 92, one worker of the `parallel for`, in `double` arithmetic. -/
def sliceSumD (D : Nat) (local_copy : List Record) (slice : List Nat) : Dbl :=
  slice.foldl (fun local_scal i => local_scal.add (pairTermD D local_copy i)) (Dbl.finite 0)

/-- Lines 91-99 in `double` arithmetic: the private copies of the workers are
added to the original value `0.0`, one after the other. -/
def reduceParallelD (D : Nat) (local_copy : List Record) (slices : List (List Nat)) : Dbl :=
  slices.foldl (fun local_scal slice => local_scal.add (sliceSumD D local_copy slice))
    (Dbl.finite 0)

/-- One step of the second section together with the accumulator as the
machine holds it: the step of `cstep`, and at line 100 `scal += local_scal` in
`double` arithmetic.  `omp M` gives the slices into which the runtime splits the
reduction loop over a batch of `M` records. -/
def cstepD (omp : Nat → List (List Nat)) (inp : Input) (p : State × Dbl) :
    Option (State × Dbl) :=
  (cstep inp p.1).map (fun t =>
    (t, if p.1.cpc = CPc.reduce then
          p.2.add (reduceParallelD inp.D p.1.local_copy (omp p.1.local_copy.length))
        else p.2))

/-- Run a schedule with the accumulator in `double` arithmetic next to the
exact state; line 32 sets it to `0.0`. -/
def runD (omp : Nat → List (List Nat)) (inp : Input) : List Tid → State × Dbl → State × Dbl
  | [], p => p
  | Tid.P :: sched, p => runD omp inp sched ((pstep inp p.1).getD p.1, p.2)
  | Tid.C :: sched, p => runD omp inp sched ((cstepD omp inp p).getD p)

/-- The reduction loop split between two threads, even and odd indices. -/
def twoThreads (M : Nat) : List (List Nat) :=
  [(List.range (M - 1)).filter (fun i => decide (i % 2 = 0)),
   (List.range (M - 1)).filter (fun i => decide (i % 2 = 1))]

/-- A valid file with three records, `(10^16, 1)`, `(1, 1)` and `(1, 1)`. -/
def bigTripleInput : Input :=
  { N := 3, D := 2,
    file := some { total_vectors := 3, vector_dim := 2,
                   body := [10000000000000000, 1, 1, 1, 1, 1] },
    num_threads := 2 }

/-- Schedule on three records: the consumer drains after the second record
and again after the third. -/
def tripleRun : List Tid :=
  List.replicate 9 Tid.P ++ List.replicate 7 Tid.C ++ List.replicate 6 Tid.P ++
    List.replicate 11 Tid.C

/-! ## The invariant of a run -/

/-- What holds of the producer's variables at each of its program points. -/
def PInv (inp : Input) (s : State) : Prop :=
  match s.ppc with
  | PPc.start =>
    s.finished = false ∧ s.file_error = false ∧ s.appended = [] ∧ s.cerr = [] ∧
      s.ifs = [] ∧ s.vec = []
  | PPc.setError =>
    s.finished = false ∧ s.file_error = false ∧ s.appended = [] ∧ headerOk inp = false ∧
      s.ifs = [] ∧ s.vec = [] ∧ s.cerr.length = 1 ∧ ErrMsg.endedWithError ∉ s.cerr
  | PPc.setFinished =>
    s.finished = false ∧
      ((s.file_error = true ∧ headerOk inp = false ∧ s.appended = [] ∧ s.ifs = [] ∧
          s.vec = [] ∧ s.cerr.length = 1 ∧ ErrMsg.endedWithError ∉ s.cerr) ∨
       (s.file_error = false ∧ headerOk inp = true ∧ s.cerr = [] ∧
          s.appended = readRecords inp.D inp.N (bodyOf inp)))
  | PPc.loop =>
    s.finished = false ∧ s.file_error = false ∧ headerOk inp = true ∧ s.cerr = [] ∧
      s.i ≤ inp.N ∧
      s.appended = readRecords inp.D s.i (bodyOf inp) ∧
      s.ifs = dropRecords inp.D s.i (bodyOf inp)
  | PPc.acquire =>
    s.finished = false ∧ s.file_error = false ∧ headerOk inp = true ∧ s.cerr = [] ∧
      s.i < inp.N ∧
      s.appended = readRecords inp.D s.i (bodyOf inp) ∧
      s.ifs = dropRecords inp.D (s.i + 1) (bodyOf inp) ∧
      s.vec = (readVec inp.D (dropRecords inp.D s.i (bodyOf inp))).1
  | PPc.push =>
    s.finished = false ∧ s.file_error = false ∧ headerOk inp = true ∧ s.cerr = [] ∧
      s.i < inp.N ∧
      s.appended = readRecords inp.D s.i (bodyOf inp) ∧
      s.ifs = dropRecords inp.D (s.i + 1) (bodyOf inp) ∧
      s.vec = (readVec inp.D (dropRecords inp.D s.i (bodyOf inp))).1
  | PPc.release =>
    s.finished = false ∧ s.file_error = false ∧ headerOk inp = true ∧ s.cerr = [] ∧
      s.i < inp.N ∧
      s.appended = readRecords inp.D (s.i + 1) (bodyOf inp) ∧
      s.ifs = dropRecords inp.D (s.i + 1) (bodyOf inp)
  | PPc.done =>
    s.finished = true ∧
      ((s.file_error = true ∧ headerOk inp = false ∧ s.appended = [] ∧ s.ifs = [] ∧
          s.vec = [] ∧ s.cerr.length = 1 ∧ ErrMsg.endedWithError ∉ s.cerr) ∨
       (s.file_error = false ∧ headerOk inp = true ∧ s.cerr = [] ∧
          s.appended = readRecords inp.D inp.N (bodyOf inp)))

/-- The invariant of every reachable state. -/
structure Inv (inp : Input) (s : State) : Prop where
  mtxP : s.mtx = Lock.producer ↔ (s.ppc = PPc.push ∨ s.ppc = PPc.release)
  mtxC : s.mtx = Lock.consumer ↔ (s.cpc = CPc.swap ∨ s.cpc = CPc.release)
  conc : s.drained.flatten ++ s.buffer = s.appended
  acc : s.scal + pending inp s = (s.drained.map (reduceBatch inp.D)).sum
  lcEmpty : (s.cpc = CPc.acquire ∨ s.cpc = CPc.swap ∨ s.cpc = CPc.elseFinished) →
    s.local_copy = []
  lcNonempty : s.cpc = CPc.reduce → s.local_copy ≠ []
  lcDrained : s.local_copy ≠ [] → s.local_copy ∈ s.drained
  drNonempty : ∀ b ∈ s.drained, b ≠ []
  condEmpty : s.cpc = CPc.condEmpty → s.finished = true
  cdone : s.cpc = CPc.done → s.file_error = true ∨ (s.finished = true ∧ s.buffer = [])
  prod : PInv inp s

/-! ## Stream lemmas -/

theorem readVec_length (D : Nat) (ifs : List ℚ) : (readVec D ifs).1.length = D := by
  induction D generalizing ifs with
  | zero => rfl
  | succ d ih => simp [readVec, ih]

theorem readVec_of_le (D : Nat) (ifs : List ℚ) (h : D ≤ ifs.length) :
    readVec D ifs = (ifs.take D, ifs.drop D) := by
  induction D generalizing ifs with
  | zero => simp [readVec]
  | succ d ih =>
    cases ifs with
    | nil => simp at h
    | cons x rest =>
      have hr : d ≤ rest.length := by simpa using h
      simp [readVec, readDouble, ih rest hr]

theorem readRecords_length (D n : Nat) (ifs : List ℚ) : (readRecords D n ifs).length = n := by
  induction n generalizing ifs with
  | zero => rfl
  | succ n ih => simp [readRecords, ih]

theorem readRecords_snoc (D n : Nat) (ifs : List ℚ) :
    readRecords D (n + 1) ifs
      = readRecords D n ifs ++ [(readVec D (dropRecords D n ifs)).1] := by
  induction n generalizing ifs with
  | zero => simp [readRecords, dropRecords]
  | succ n ih =>
    rw [readRecords, ih (readVec D ifs).2]
    simp [readRecords, dropRecords]

theorem dropRecords_snoc (D n : Nat) (ifs : List ℚ) :
    dropRecords D (n + 1) ifs = (readVec D (dropRecords D n ifs)).2 := by
  induction n generalizing ifs with
  | zero => simp [dropRecords]
  | succ n ih =>
    rw [dropRecords, ih (readVec D ifs).2]
    simp [dropRecords]

theorem readRecords_mem_length (D n : Nat) (ifs : List ℚ) (r : Record)
    (h : r ∈ readRecords D n ifs) : r.length = D := by
  induction n generalizing ifs with
  | zero => simp [readRecords] at h
  | succ n ih =>
    simp only [readRecords, List.mem_cons] at h
    rcases h with h | h
    · rw [h]; exact readVec_length D ifs
    · exact ih _ h

theorem fileRows_succ (D n : Nat) (body : List ℚ) :
    fileRows D (n + 1) body = body.take D :: fileRows D n (body.drop D) := by
  unfold fileRows
  rw [List.range_succ_eq_map, List.map_cons, List.map_map]
  congr 1
  · simp [fileRow]
  · apply List.map_congr_left
    intro i _
    simp [fileRow, List.drop_drop, Nat.succ_mul, Nat.add_comm]

theorem readRecords_eq_fileRows (D n : Nat) (body : List ℚ) (h : n * D ≤ body.length) :
    readRecords D n body = fileRows D n body := by
  induction n generalizing body with
  | zero => simp [readRecords, fileRows]
  | succ n ih =>
    have hD : D ≤ body.length := by
      have : D ≤ (n + 1) * D := Nat.le_mul_of_pos_left D (Nat.succ_pos n)
      omega
    have hrest : n * D ≤ (body.drop D).length := by
      rw [List.length_drop, Nat.succ_mul] at *
      omega
    rw [readRecords, readVec_of_le D body hD, fileRows_succ, ih _ hrest]

/-! ## Preservation of the invariant -/

theorem headerOk_none {inp : Input} (h : inp.file = none) : headerOk inp = false := by
  simp [headerOk, h]

theorem headerOk_some {inp : Input} {f : VecFile} (h : inp.file = some f) :
    headerOk inp = (decide (f.vector_dim = (inp.D : Int)) &&
      decide ((inp.N : Int) ≤ f.total_vectors)) := by
  simp [headerOk, h]

theorem bodyOf_some {inp : Input} {f : VecFile} (h : inp.file = some f) :
    bodyOf inp = f.body := by
  simp [bodyOf, h]

theorem inv_init (inp : Input) : Inv inp init := by
  constructor <;> simp [init, pending, PInv]


set_option maxHeartbeats 4000000 in
theorem inv_pstep {inp : Input} {s t : State} (h : Inv inp s) (hs : pstep inp s = some t) :
    Inv inp t := by
  obtain ⟨mtxP, mtxC, conc, acc, lcEmpty, lcNonempty, lcDrained, drNonempty, condEmpty, cdone,
    prod⟩ := h
  unfold pstep at hs
  split at hs
  next hpc =>
    simp only [PInv, hpc] at prod
    obtain ⟨p1, p2, p3, p4, p5, p6⟩ := prod
    split at hs
    next hf =>
      cases hs
      constructor <;> simp_all [pending, PInv, headerOk_none hf]
    next f hf =>
      split at hs
      next hd =>
        cases hs
        constructor <;> simp_all [pending, PInv, headerOk_some hf]
      next hd =>
        split at hs
        next hn =>
          cases hs
          constructor <;> simp_all [pending, PInv, headerOk_some hf]
        next hn =>
          cases hs
          constructor <;> simp_all [pending, PInv, headerOk_some hf, bodyOf_some hf, readRecords, dropRecords]
  next hpc =>
    simp only [PInv, hpc] at prod
    cases hs
    constructor <;> simp_all [pending, PInv]
  next hpc =>
    simp only [PInv, hpc] at prod
    cases hs
    constructor <;> simp_all [pending, PInv]
  next hpc =>
    simp only [PInv, hpc] at prod
    obtain ⟨p1, p2, p3, p4, p5, p6, p7⟩ := prod
    split at hs
    next hi =>
      cases hs
      constructor <;> simp_all [pending, PInv, dropRecords_snoc]
    next hi =>
      cases hs
      have hiN : s.i = inp.N := by omega
      constructor <;> simp_all [pending, PInv]
  next hpc =>
    simp only [PInv, hpc] at prod
    split at hs
    next hm =>
      cases hs
      constructor <;> simp_all [pending, PInv]
    next hm => cases hs
  next hpc =>
    simp only [PInv, hpc] at prod
    cases hs
    constructor <;> simp_all [pending, PInv, readRecords_snoc]
    rw [← List.append_assoc, conc]
  next hpc =>
    simp only [PInv, hpc] at prod
    cases hs
    constructor <;> simp_all [pending, PInv]
    omega
  next hpc => cases hs

theorem reduceBatch_nil (D : Nat) : reduceBatch D [] = 0 := by
  simp [reduceBatch, pairLoop]

set_option maxHeartbeats 4000000 in
theorem inv_cstep {inp : Input} {s t : State} (h : Inv inp s) (hs : cstep inp s = some t) :
    Inv inp t := by
  obtain ⟨mtxP, mtxC, conc, acc, lcEmpty, lcNonempty, lcDrained, drNonempty, condEmpty, cdone,
    prod⟩ := h
  unfold cstep at hs
  split at hs
  next hpc =>
    split at hs
    next hf =>
      cases hs
      refine ⟨?_, ?_, ?_, ?_, ?_, ?_, ?_, ?_, ?_, ?_, prod⟩ <;> clear prod <;>
        simp_all [pending, reduceBatch_nil]
    next hf =>
      cases hs
      refine ⟨?_, ?_, ?_, ?_, ?_, ?_, ?_, ?_, ?_, ?_, prod⟩ <;> clear prod <;>
        simp_all [pending, reduceBatch_nil]
  next hpc =>
    split at hs
    next hb =>
      cases hs
      refine ⟨?_, ?_, ?_, ?_, ?_, ?_, ?_, ?_, ?_, ?_, prod⟩ <;> clear prod <;>
        simp_all [pending, reduceBatch_nil]
    next hb =>
      cases hs
      refine ⟨?_, ?_, ?_, ?_, ?_, ?_, ?_, ?_, ?_, ?_, prod⟩ <;> clear prod <;>
        simp_all [pending, reduceBatch_nil]
  next hpc =>
    split at hs
    next he =>
      cases hs
      refine ⟨?_, ?_, ?_, ?_, ?_, ?_, ?_, ?_, ?_, ?_, prod⟩ <;> clear prod <;>
        simp_all [pending, reduceBatch_nil]
    next he =>
      cases hs
      refine ⟨?_, ?_, ?_, ?_, ?_, ?_, ?_, ?_, ?_, ?_, prod⟩ <;> clear prod <;>
        simp_all [pending, reduceBatch_nil]
  next hpc =>
    split at hs
    next hm =>
      cases hs
      refine ⟨?_, ?_, ?_, ?_, ?_, ?_, ?_, ?_, ?_, ?_, prod⟩ <;> clear prod <;>
        simp_all [pending, reduceBatch_nil]
    next hm => cases hs
  next hpc =>
    split at hs
    next hb =>
      cases hs
      refine ⟨?_, ?_, ?_, ?_, ?_, ?_, ?_, ?_, ?_, ?_, prod⟩ <;> clear prod <;>
        simp_all [pending, reduceBatch_nil]
    next hb =>
      cases hs
      refine ⟨?_, ?_, ?_, ?_, ?_, ?_, ?_, ?_, ?_, ?_, prod⟩ <;> clear prod <;>
        simp_all [pending, reduceBatch_nil]
      rintro b (hb1 | hb1)
      · exact drNonempty b hb1
      · rw [hb1]; exact hb
  next hpc =>
    cases hs
    refine ⟨?_, ?_, ?_, ?_, ?_, ?_, ?_, ?_, ?_, ?_, prod⟩ <;> clear prod <;>
        simp_all [pending, reduceBatch_nil]
  next hpc =>
    split at hs
    next hb =>
      cases hs
      refine ⟨?_, ?_, ?_, ?_, ?_, ?_, ?_, ?_, ?_, ?_, prod⟩ <;> clear prod <;>
        simp_all [pending, reduceBatch_nil]
    next hb =>
      cases hs
      refine ⟨?_, ?_, ?_, ?_, ?_, ?_, ?_, ?_, ?_, ?_, prod⟩ <;> clear prod <;>
        simp_all [pending, reduceBatch_nil]
  next hpc =>
    cases hs
    refine ⟨?_, ?_, ?_, ?_, ?_, ?_, ?_, ?_, ?_, ?_, prod⟩ <;> clear prod <;>
        simp_all [pending, reduceBatch_nil]
  next hpc =>
    cases hs
    refine ⟨?_, ?_, ?_, ?_, ?_, ?_, ?_, ?_, ?_, ?_, prod⟩ <;> clear prod <;>
        simp_all [pending, reduceBatch_nil]
  next hpc => cases hs

theorem inv_step {inp : Input} {s t : State} (h : Inv inp s) (hs : Step inp s t) :
    Inv inp t := by
  rcases hs with hs | hs
  · exact inv_pstep h hs
  · exact inv_cstep h hs

theorem inv_reachable {inp : Input} {s : State} (h : Reachable inp s) : Inv inp s := by
  induction h with
  | init => exact inv_init inp
  | step _ hs ih => exact inv_step ih hs

theorem reachable_run (inp : Input) (sched : List Tid) (s : State) (h : Reachable inp s) :
    Reachable inp (run inp sched s) := by
  induction sched generalizing s with
  | nil => exact h
  | cons c sched ih =>
    cases c with
    | P =>
      simp only [run]
      cases hp : pstep inp s with
      | none => exact ih s h
      | some t => exact ih t (Reachable.step h (Or.inl hp))
    | C =>
      simp only [run]
      cases hc : cstep inp s with
      | none => exact ih s h
      | some t => exact ih t (Reachable.step h (Or.inr hc))

/-! ## The reduction loop computes the adjacent-pair sum -/

theorem dotLoop_acc (a b : Record) (fuel k : Nat) (sum : ℚ) :
    dotLoop a b fuel k sum = sum + dotLoop a b fuel k 0 := by
  induction fuel generalizing k sum with
  | zero => simp [dotLoop]
  | succ n ih =>
    simp only [dotLoop]
    rw [ih (k + 1) (sum + a.getD k 0 * b.getD k 0), ih (k + 1) (0 + a.getD k 0 * b.getD k 0)]
    ring

theorem dotLoop_cons (x y : ℚ) (a b : Record) (fuel k : Nat) (sum : ℚ) :
    dotLoop (x :: a) (y :: b) fuel (k + 1) sum = dotLoop a b fuel k sum := by
  induction fuel generalizing k sum with
  | zero => simp [dotLoop]
  | succ n ih => simp [dotLoop, ih]

theorem dotLoop_eq_dot (D : Nat) (a b : Record) (ha : a.length = D) (hb : b.length = D) :
    dotLoop a b D 0 0 = dot a b := by
  induction a generalizing b D with
  | nil =>
    simp at ha
    subst ha
    simp [dotLoop, dot]
  | cons x a ih =>
    cases b with
    | nil =>
      simp at hb
      subst hb
      simp at ha
    | cons y b =>
      cases D with
      | zero => simp at ha
      | succ d =>
        have ha1 : a.length = d := by simpa using ha
        have hb1 : b.length = d := by simpa using hb
        simp only [dotLoop]
        rw [dotLoop_cons, dotLoop_acc, ih d b ha1 hb1]
        simp [dot]

theorem pairLoop_eq_sum (D : Nat) (batch : List Record) (fuel i : Nat) (acc : ℚ) :
    pairLoop D batch fuel i acc
      = acc + ∑ j in Finset.range fuel,
          dotLoop (batch.getD (i + j) []) (batch.getD (i + j + 1) []) D 0 0 := by
  induction fuel generalizing i acc with
  | zero => simp [pairLoop]
  | succ n ih =>
    simp only [pairLoop]
    rw [ih (i + 1), Finset.sum_range_succ']
    have : ∀ j, i + 1 + j = i + (j + 1) := fun j => by omega
    simp only [this, Nat.add_zero]
    ring

theorem getD_mem_of_lt {α : Type} (l : List α) (d : α) (i : Nat) (h : i < l.length) :
    l.getD i d ∈ l := by
  rw [List.getD_eq_getElem l d h]
  exact List.getElem_mem h

theorem reduceBatch_eq_pairSum (D : Nat) (batch : List Record)
    (hdim : ∀ r ∈ batch, r.length = D) : reduceBatch D batch = pairSum batch := by
  unfold reduceBatch pairSum
  rw [pairLoop_eq_sum, zero_add]
  apply Finset.sum_congr rfl
  intro j hj
  have hj1 : j < batch.length - 1 := Finset.mem_range.mp hj
  simp only [Nat.zero_add]
  apply dotLoop_eq_dot
  · exact hdim _ (getD_mem_of_lt batch [] j (by omega))
  · exact hdim _ (getD_mem_of_lt batch [] (j + 1) (by omega))

theorem reduceBatch_singleton (D : Nat) (r : Record) : reduceBatch D [r] = 0 := by
  simp [reduceBatch, pairLoop]

/-! ## Consequences of the invariant -/

theorem inv_appended_rows {inp : Input} {s : State} (h : Inv inp s) :
    ∃ k, k ≤ inp.N ∧ s.appended = readRecords inp.D k (bodyOf inp) := by
  have hp := h.prod
  unfold PInv at hp
  split at hp
  · exact ⟨0, Nat.zero_le _, by simp [readRecords, hp.2.2.1]⟩
  · exact ⟨0, Nat.zero_le _, by simp [readRecords, hp.2.2.1]⟩
  · rcases hp.2 with he | hv
    · exact ⟨0, Nat.zero_le _, by simp [readRecords, he.2.2.1]⟩
    · exact ⟨inp.N, Nat.le_refl _, hv.2.2.2⟩
  · exact ⟨s.i, hp.2.2.2.2.1, hp.2.2.2.2.2.1⟩
  · exact ⟨s.i, Nat.le_of_lt hp.2.2.2.2.1, hp.2.2.2.2.2.1⟩
  · exact ⟨s.i, Nat.le_of_lt hp.2.2.2.2.1, hp.2.2.2.2.2.1⟩
  · exact ⟨s.i + 1, hp.2.2.2.2.1, hp.2.2.2.2.2.1⟩
  · rcases hp.2 with he | hv
    · exact ⟨0, Nat.zero_le _, by simp [readRecords, he.2.2.1]⟩
    · exact ⟨inp.N, Nat.le_refl _, hv.2.2.2⟩

theorem inv_appended_dim {inp : Input} {s : State} (h : Inv inp s) :
    ∀ r ∈ s.appended, r.length = inp.D := by
  obtain ⟨k, _, hk⟩ := inv_appended_rows h
  intro r hr
  rw [hk] at hr
  exact readRecords_mem_length _ _ _ _ hr

theorem inv_drained_dim {inp : Input} {s : State} (h : Inv inp s) :
    ∀ b ∈ s.drained, ∀ r ∈ b, r.length = inp.D := by
  intro b hb r hr
  apply inv_appended_dim h
  rw [← h.conc]
  exact List.mem_append_left _ (List.mem_flatten.mpr ⟨b, hb, hr⟩)

theorem inv_finished {inp : Input} {s : State} (h : Inv inp s) (hf : s.finished = true) :
    s.ppc = PPc.done ∧
      ((s.file_error = true ∧ headerOk inp = false ∧ s.appended = []) ∨
       (s.file_error = false ∧ headerOk inp = true ∧
          s.appended = readRecords inp.D inp.N (bodyOf inp))) := by
  have hp := h.prod
  unfold PInv at hp
  split at hp
  all_goals first
    | (exfalso; have h1 := hp.1; rw [hf] at h1; exact Bool.noConfusion h1)
    | skip
  rename_i hpc
  refine ⟨hpc, ?_⟩
  rcases hp.2 with he | hv
  · exact Or.inl ⟨he.1, he.2.1, he.2.2.1⟩
  · exact Or.inr ⟨hv.1, hv.2.1, hv.2.2.2⟩

theorem inv_error {inp : Input} {s : State} (h : Inv inp s) (he : s.file_error = true) :
    headerOk inp = false ∧ (s.ppc = PPc.setFinished ∨ s.ppc = PPc.done) := by
  have hp := h.prod
  unfold PInv at hp
  split at hp
  case h_3 hpc =>
    rcases hp.2 with h1 | h1
    · exact ⟨h1.2.1, Or.inl hpc⟩
    · rw [he] at h1; exact Bool.noConfusion h1.1
  case h_8 hpc =>
    rcases hp.2 with h1 | h1
    · exact ⟨h1.2.1, Or.inr hpc⟩
    · rw [he] at h1; exact Bool.noConfusion h1.1
  all_goals (exfalso; have h1 := hp.2.1; rw [he] at h1; exact Bool.noConfusion h1)

theorem inv_scal_done {inp : Input} {s : State} (h : Inv inp s) (hc : s.cpc = CPc.done) :
    s.scal = (s.drained.map pairSum).sum := by
  have hacc := h.acc
  simp only [pending, hc, add_zero] at hacc
  rw [hacc]
  congr 1
  apply List.map_congr_left
  intro b hb
  exact reduceBatch_eq_pairSum _ _ (inv_drained_dim h b hb)

theorem valid_rows {inp : Input} (hv : Valid inp) (k : Nat) (hk : k ≤ inp.N) :
    readRecords inp.D k (bodyOf inp) = fileRows inp.D k (bodyOf inp) := by
  apply readRecords_eq_fileRows
  exact Nat.le_trans (Nat.mul_le_mul_right _ hk) hv.2

theorem inv_done_valid {inp : Input} {s : State} (h : Inv inp s) (hok : headerOk inp = true)
    (hc : s.cpc = CPc.done) :
    s.file_error = false ∧ s.finished = true ∧ s.buffer = [] ∧
      s.drained.flatten = readRecords inp.D inp.N (bodyOf inp) := by
  have hne : s.file_error = false := by
    cases hfe : s.file_error with
    | false => rfl
    | true =>
      have := (inv_error h hfe).1
      rw [hok] at this
      exact Bool.noConfusion this
  rcases h.cdone hc with he | ⟨hf, hb⟩
  · rw [hne] at he; exact Bool.noConfusion he
  · refine ⟨hne, hf, hb, ?_⟩
    have hconc := h.conc
    rw [hb, List.append_nil] at hconc
    rcases (inv_finished h hf).2 with h1 | h1
    · rw [hok] at h1; exact Bool.noConfusion h1.2.1
    · rw [hconc, h1.2.2]

theorem headerOk_false_iff (inp : Input) : headerOk inp = false ↔ HeaderFails inp := by
  unfold headerOk HeaderFails
  cases hf : inp.file with
  | none => simp
  | some f =>
    simp only [Bool.and_eq_false_imp, decide_eq_true_eq, decide_eq_false_iff_not,
      Option.some.injEq, exists_eq_left', false_or, reduceCtorEq]
    constructor
    · intro h
      by_cases hd : f.vector_dim = (inp.D : Int)
      · exact Or.inr (by have := h hd; omega)
      · exact Or.inl hd
    · rintro (h | h) hd
      · exact absurd hd h
      · omega

theorem headerOk_true_file {inp : Input} (h : headerOk inp = true) :
    ∃ f, inp.file = some f ∧ f.vector_dim = (inp.D : Int) ∧ ¬ f.total_vectors < (inp.N : Int) := by
  unfold headerOk at h
  cases hf : inp.file with
  | none => rw [hf] at h; exact Bool.noConfusion h
  | some f =>
    rw [hf] at h
    simp only [Bool.and_eq_true, decide_eq_true_eq] at h
    exact ⟨f, rfl, h.1, by omega⟩

theorem inv_fail {inp : Input} {s : State} (h : Inv inp s) (hf : headerOk inp = false) :
    s.appended = [] ∧ s.ifs = [] ∧ s.vec = [] ∧
      (s.ppc = PPc.start ∨ s.ppc = PPc.setError ∨ s.ppc = PPc.setFinished ∨
        s.ppc = PPc.done) := by
  have hp := h.prod
  unfold PInv at hp
  split at hp
  case h_1 hpc => exact ⟨hp.2.2.1, hp.2.2.2.2.1, hp.2.2.2.2.2, Or.inl hpc⟩
  case h_2 hpc => exact ⟨hp.2.2.1, hp.2.2.2.2.1, hp.2.2.2.2.2.1, Or.inr (Or.inl hpc)⟩
  case h_3 hpc =>
    rcases hp.2 with h1 | h1
    · exact ⟨h1.2.2.1, h1.2.2.2.1, h1.2.2.2.2.1, Or.inr (Or.inr (Or.inl hpc))⟩
    · rw [hf] at h1; exact Bool.noConfusion h1.2.1
  case h_8 hpc =>
    rcases hp.2 with h1 | h1
    · exact ⟨h1.2.2.1, h1.2.2.2.1, h1.2.2.2.2.1, Or.inr (Or.inr (Or.inr hpc))⟩
    · rw [hf] at h1; exact Bool.noConfusion h1.2.1
  all_goals (exfalso; have h1 := hp.2.2.1; rw [hf] at h1; exact Bool.noConfusion h1)

theorem psteps_add (inp : Input) (a b : Nat) (s : State) :
    psteps inp (a + b) s = (psteps inp a s).bind (psteps inp b) := by
  induction a generalizing s with
  | zero => simp [psteps]
  | succ n ih =>
    rw [Nat.succ_add]
    simp only [psteps]
    cases pstep inp s with
    | none => rfl
    | some t => simpa using ih t

theorem psteps_reachable {inp : Input} (k : Nat) {s t : State} (hr : Reachable inp s)
    (hk : psteps inp k s = some t) : Reachable inp t := by
  induction k generalizing s with
  | zero =>
    simp only [psteps, Option.some.injEq] at hk
    rw [← hk]; exact hr
  | succ n ih =>
    simp only [psteps] at hk
    cases hp : pstep inp s with
    | none => rw [hp] at hk; cases hk
    | some u =>
      rw [hp] at hk
      exact ih (Reachable.step hr (Or.inl hp)) hk

theorem producer_loop_completes (inp : Input) (m : Nat) (s : State)
    (hpc : s.ppc = PPc.loop) (hm : s.mtx = Lock.free) (hi : s.i + m = inp.N) :
    ∃ t, psteps inp (4 * m + 2) s = some t ∧ t.finished = true := by
  induction m generalizing s with
  | zero =>
    have hlt : ¬ s.i < inp.N := by omega
    refine ⟨{ s with finished := true, ppc := PPc.done }, ?_, rfl⟩
    simp [psteps, pstep, hpc, hlt]
  | succ n ih =>
    have hlt : s.i < inp.N := by omega
    have h4 : 4 * (n + 1) + 2 = 4 + (4 * n + 2) := by ring
    rw [h4, psteps_add]
    have hu : psteps inp 4 s = some
        { s with vec := (readVec inp.D s.ifs).1, ifs := (readVec inp.D s.ifs).2,
                 buffer := s.buffer ++ [(readVec inp.D s.ifs).1],
                 appended := s.appended ++ [(readVec inp.D s.ifs).1],
                 mtx := Lock.free, i := s.i + 1, ppc := PPc.loop } := by
      simp [psteps, pstep, hpc, hlt, hm]
    rw [hu]
    exact ih _ rfl rfl (by simp only; omega)

theorem producer_completes (inp : Input) (hok : headerOk inp = true) :
    ∃ t, psteps inp (4 * inp.N + 3) init = some t ∧ t.finished = true := by
  obtain ⟨f, hf, hd, hn⟩ := headerOk_true_file hok
  have hu : psteps inp 1 init = some { init with ppc := PPc.loop, i := 0, ifs := f.body } := by
    simp [psteps, pstep, init, hf, hd, hn]
  have h4 : 4 * inp.N + 3 = 1 + (4 * inp.N + 2) := by ring
  rw [h4, psteps_add, hu]
  exact producer_loop_completes inp inp.N _ rfl rfl (by simp)

theorem pstep_start_fail {inp : Input} {s : State} (hpc : s.ppc = PPc.start)
    (hf : headerOk inp = false) :
    ∃ m, pstep inp s = some { s with ppc := PPc.setError, cerr := s.cerr ++ [m] } := by
  rcases (headerOk_false_iff inp).mp hf with h | ⟨f, h, hd | hn⟩
  · exact ⟨ErrMsg.cannotOpen, by simp [pstep, hpc, h]⟩
  · exact ⟨ErrMsg.dimMismatch f.vector_dim inp.D, by simp [pstep, hpc, h, hd]⟩
  · by_cases hd : f.vector_dim = (inp.D : Int)
    · exact ⟨ErrMsg.tooFew f.total_vectors inp.N, by simp [pstep, hpc, h, hd, hn]⟩
    · exact ⟨ErrMsg.dimMismatch f.vector_dim inp.D, by simp [pstep, hpc, h, hd]⟩

theorem producer_fails_completes {inp : Input} {s : State} (h : Inv inp s)
    (hf : headerOk inp = false) :
    ∃ k, k ≤ 3 ∧ ∃ t, psteps inp k s = some t ∧ t.ppc = PPc.done ∧ t.file_error = true ∧
      t.finished = true ∧ t.buffer = s.buffer := by
  have hp := h.prod
  rcases (inv_fail h hf).2.2.2 with hpc | hpc | hpc | hpc
  · obtain ⟨m, hm⟩ := pstep_start_fail hpc hf
    have h3 : psteps inp 3 s = some
        { s with cerr := s.cerr ++ [m], file_error := true, finished := true,
                 ppc := PPc.done } := by
      simp only [psteps]
      rw [hm]
      simp [pstep]
    exact ⟨3, Nat.le_refl _, _, h3, rfl, rfl, rfl, rfl⟩
  · have h2 : psteps inp 2 s = some
        { s with file_error := true, finished := true, ppc := PPc.done } := by
      simp [psteps, pstep, hpc]
    exact ⟨2, by omega, _, h2, rfl, rfl, rfl, rfl⟩
  · simp only [PInv, hpc] at hp
    rcases hp.2 with h1 | h1
    · have h1s : psteps inp 1 s = some { s with finished := true, ppc := PPc.done } := by
        simp [psteps, pstep, hpc]
      exact ⟨1, by omega, _, h1s, rfl, h1.1, rfl, rfl⟩
    · rw [hf] at h1; exact Bool.noConfusion h1.2.1
  · simp only [PInv, hpc] at hp
    rcases hp.2 with h1 | h1
    · exact ⟨0, by omega, s, rfl, hpc, h1.1, hp.1, rfl⟩
    · rw [hf] at h1; exact Bool.noConfusion h1.2.1

theorem inv_error_iff {inp : Input} {s : State} (h : Inv inp s)
    (h1 : s.ppc ≠ PPc.start) (h2 : s.ppc ≠ PPc.setError) :
    s.file_error = true ↔ headerOk inp = false := by
  constructor
  · exact fun he => (inv_error h he).1
  · intro hf
    have hp := h.prod
    rcases (inv_fail h hf).2.2.2 with hpc | hpc | hpc | hpc
    · exact absurd hpc h1
    · exact absurd hpc h2
    · simp only [PInv, hpc] at hp
      rcases hp.2 with h3 | h3
      · exact h3.1
      · rw [hf] at h3; exact Bool.noConfusion h3.2.1
    · simp only [PInv, hpc] at hp
      rcases hp.2 with h3 | h3
      · exact h3.1
      · rw [hf] at h3; exact Bool.noConfusion h3.2.1

theorem lock_free_of {inp : Input} {s : State} (h : Inv inp s) (hp : s.ppc = PPc.done)
    (hc : s.cpc = CPc.acquire) : s.mtx = Lock.free := by
  cases hm : s.mtx with
  | free => rfl
  | producer =>
    rcases h.mtxP.mp hm with h1 | h1 <;> rw [hp] at h1 <;> exact PPc.noConfusion h1
  | consumer =>
    rcases h.mtxC.mp hm with h1 | h1 <;> rw [hc] at h1 <;> exact CPc.noConfusion h1

theorem cstep_progress {inp : Input} {s : State} (h : Inv inp s) (hf : s.finished = true)
    (hb : s.buffer = []) (hc : s.cpc ≠ CPc.done) :
    ∃ t, cstep inp s = some t ∧ crank t.cpc < crank s.cpc ∧ t.finished = true ∧
      t.buffer = [] := by
  have hp := (inv_finished h hf).1
  cases hpc : s.cpc with
  | condFinished =>
    exact ⟨{ s with cpc := CPc.condEmpty }, by simp [cstep, hpc, hf], by simp [crank], hf, hb⟩
  | condEmpty =>
    exact ⟨{ s with cpc := CPc.done }, by simp [cstep, hpc, hb], by simp [crank], hf, hb⟩
  | checkError =>
    cases he : s.file_error with
    | true =>
      exact ⟨{ s with cpc := CPc.done }, by simp [cstep, hpc, he], by simp [crank], hf, hb⟩
    | false =>
      exact ⟨{ s with local_copy := [], cpc := CPc.acquire }, by simp [cstep, hpc, he],
        by simp [crank], hf, hb⟩
  | acquire =>
    have hm := lock_free_of h hp hpc
    exact ⟨{ s with mtx := Lock.consumer, cpc := CPc.swap }, by simp [cstep, hpc, hm],
      by simp [crank], hf, hb⟩
  | swap =>
    exact ⟨{ s with cpc := CPc.release }, by simp [cstep, hpc, hb], by simp [crank], hf, hb⟩
  | release =>
    exact ⟨{ s with mtx := Lock.free, cpc := CPc.branch }, by simp [cstep, hpc],
      by simp [crank], hf, hb⟩
  | branch =>
    cases hl : s.local_copy with
    | nil =>
      exact ⟨{ s with cpc := CPc.elseFinished }, by simp [cstep, hpc, hl], by simp [crank],
        hf, hb⟩
    | cons x rest =>
      exact ⟨{ s with cpc := CPc.reduce }, by simp [cstep, hpc, hl], by simp [crank], hf, hb⟩
  | reduce =>
    exact ⟨{ s with scal := s.scal + reduceBatch inp.D s.local_copy, cpc := CPc.condFinished },
      by simp [cstep, hpc], by simp [crank], hf, hb⟩
  | elseFinished =>
    exact ⟨{ s with cpc := CPc.condFinished }, by simp [cstep, hpc], by simp [crank], hf, hb⟩
  | done => exact absurd hpc hc

theorem consumer_leaves_within (inp : Input) (n : Nat) (s : State) (h : Inv inp s)
    (hf : s.finished = true) (hb : s.buffer = []) (hn : crank s.cpc ≤ n) :
    ∃ k, k ≤ n ∧ ∃ t, csteps inp k s = some t ∧ t.cpc = CPc.done := by
  induction n generalizing s with
  | zero =>
    refine ⟨0, Nat.le_refl _, s, rfl, ?_⟩
    cases hpc : s.cpc <;> rw [hpc] at hn <;> simp [crank] at hn
  | succ n ih =>
    by_cases hc : s.cpc = CPc.done
    · exact ⟨0, Nat.zero_le _, s, rfl, hc⟩
    · obtain ⟨t, ht, hlt, htf, htb⟩ := cstep_progress h hf hb hc
      obtain ⟨k, hk, u, hu, hud⟩ := ih t (inv_cstep h ht) htf htb (by omega)
      exact ⟨k + 1, by omega, u, by simp [csteps, ht, hu], hud⟩

theorem crank_le (c : CPc) : crank c ≤ 8 := by
  cases c <;> simp [crank]

theorem readHeader_fits (f : VecFile) (hf : HeaderFits f) :
    readHeader (HeaderTok.number f.total_vectors) (HeaderTok.number f.vector_dim)
      = (some f.total_vectors, some f.vector_dim, false) := by
  obtain ⟨⟨h1, h2⟩, ⟨h3, h4⟩⟩ := hf
  unfold readHeader extractInt
  simp [not_lt.mpr h1, not_lt.mpr h2, not_lt.mpr h3, not_lt.mpr h4]

theorem validateHeader_fits (N D : Nat) (f : VecFile) (hf : HeaderFits f) :
    validateHeader N D (HeaderTok.number f.total_vectors) (HeaderTok.number f.vector_dim)
      = some (if f.vector_dim ≠ (D : Int) then Verdict.dimMismatch f.vector_dim
              else if f.total_vectors < (N : Int) then Verdict.tooFew f.total_vectors
              else Verdict.read false) := by
  unfold validateHeader
  rw [readHeader_fits f hf]
  by_cases hd : f.vector_dim ≠ (D : Int)
  · simp [hd]
  · by_cases hn : f.total_vectors < (N : Int) <;> simp [hd, hn]

theorem preCheckHeader_fits (N D : Nat) (f : VecFile) (hf : HeaderFits f) :
    preCheckHeader N D (HeaderTok.number f.total_vectors) (HeaderTok.number f.vector_dim)
      = some (if f.total_vectors < (N : Int) then PreCheck.insufficient f.total_vectors
              else if f.vector_dim ≠ (D : Int) then PreCheck.mismatch f.vector_dim
              else PreCheck.accepted) := by
  unfold preCheckHeader
  rw [readHeader_fits f hf]
  by_cases hn : f.total_vectors < (N : Int)
  · simp [hn]
  · by_cases hd : f.vector_dim ≠ (D : Int) <;> simp [hd, hn]

theorem fileFits_some {inp : Input} {f : VecFile} (hfit : FileFits inp) (hf : inp.file = some f) :
    HeaderFits f := by
  unfold FileFits at hfit
  rw [hf] at hfit
  exact hfit

theorem validate_read_iff {inp : Input} {f : VecFile} (hf : inp.file = some f)
    (hfit : HeaderFits f) :
    validateHeader inp.N inp.D (HeaderTok.number f.total_vectors)
        (HeaderTok.number f.vector_dim) = some (Verdict.read false)
      ↔ headerOk inp = true := by
  rw [validateHeader_fits inp.N inp.D f hfit, headerOk_some hf]
  by_cases hd : f.vector_dim = (inp.D : Int)
  · by_cases hn : f.total_vectors < (inp.N : Int)
    · have : ¬ ((inp.N : Int) ≤ f.total_vectors) := by omega
      simp [hd, hn, this]
    · have : (inp.N : Int) ≤ f.total_vectors := by omega
      simp [hd, hn, this]
  · simp [hd]

theorem preCheck_accepted_iff (w : World) (N D : Nat) {f : VecFile}
    (hf : w.files (fileName N D) = some f) (hfit : HeaderFits f) :
    preCheckHeader N D (HeaderTok.number f.total_vectors) (HeaderTok.number f.vector_dim)
        = some PreCheck.accepted
      ↔ preCheckAccepts w N D = true := by
  rw [preCheckHeader_fits N D f hfit]
  unfold preCheckAccepts
  rw [hf]
  by_cases hn : f.total_vectors < (N : Int)
  · simp [hn]
  · by_cases hd : f.vector_dim = (D : Int) <;> simp [hd, hn]

theorem exWorld_fits : WorldFits exWorld := by
  intro name f h
  unfold exWorld at h
  dsimp only at h
  split_ifs at h <;> (cases h; decide)

/-! ## Claims -/

/-- C2: applied to a batch of `M` records of dimension `D`, the reduction loop
yields `sum_{i=0}^{M-2} dot(batch[i], batch[i+1])`; it yields `0` when `M = 1`;
and whenever the consumer is at the reduction its batch is non-empty, has
records of dimension `D`, and so reduces to its adjacent-pair sum. -/
theorem reduceBatch_is_pairSum (D : Nat) (batch : List Record)
    (hdim : ∀ r ∈ batch, r.length = D) :
    reduceBatch D batch = pairSum batch ∧
      (batch.length = 1 → reduceBatch D batch = 0) ∧
      (∀ (inp : Input) (s : State), Reachable inp s → s.cpc = CPc.reduce →
        s.local_copy ≠ [] ∧ (∀ r ∈ s.local_copy, r.length = inp.D) ∧
          reduceBatch inp.D s.local_copy = pairSum s.local_copy) := by
  refine ⟨reduceBatch_eq_pairSum D batch hdim, ?_, ?_⟩
  · intro h1
    match batch, h1 with
    | [r], _ => exact reduceBatch_singleton D r
  · intro inp s hr hpc
    have h := inv_reachable hr
    have hne := h.lcNonempty hpc
    have hd := inv_drained_dim h _ (h.lcDrained hne)
    exact ⟨hne, hd, reduceBatch_eq_pairSum _ _ hd⟩

theorem reduceBatch_is_pairSum_witness :
    (∀ r ∈ [[1, 2], [3, 4], [5, 6]], r.length = 2) ∧
      reduceBatch 2 [[1, 2], [3, 4], [5, 6]] = 50 ∧
      pairSum [[1, 2], [3, 4], [5, 6]] = 50 ∧
      (run exInput atReduce init).cpc = CPc.reduce ∧
      (run exInput atReduce init).local_copy = [[1, 2]] ∧
      reduceBatch 2 (run exInput atReduce init).local_copy = 0 :=
  have h := reduceBatch_is_pairSum 2 [[1, 2], [3, 4], [5, 6]] (by decide)
  ⟨by decide, by decide!, h.1 ▸ (by decide!), by decide, by decide!,
    (reduceBatch_is_pairSum 2 (run exInput atReduce init).local_copy (by decide)).2.1
      (by decide)⟩

/-- C4: at every reachable state the drained batches, concatenated in drain
order, followed by the current buffer contents are the sequence of records the
producer has appended so far; hence when a run without error has terminated the
concatenation of the drained batches is exactly the appended sequence. -/
theorem drained_then_buffer_is_appended (inp : Input) (s : State) (hr : Reachable inp s) :
    s.drained.flatten ++ s.buffer = s.appended ∧
      (Terminated s → s.file_error = false → s.drained.flatten = s.appended) := by
  have h := inv_reachable hr
  refine ⟨h.conc, ?_⟩
  intro ht he
  rcases h.cdone ht.2 with h1 | ⟨_, hb⟩
  · rw [he] at h1; exact Bool.noConfusion h1
  · have hconc := h.conc
    rwa [hb, List.append_nil] at hconc

theorem drained_then_buffer_is_appended_witness :
    (run exInput midRun init).drained = [[[1, 2], [3, 4]]] ∧
      (run exInput midRun init).buffer = [[5, 6]] ∧
      (run exInput midRun init).appended = [[1, 2], [3, 4], [5, 6]] ∧
      (run exInput midRun init).drained.flatten ++ (run exInput midRun init).buffer
        = (run exInput midRun init).appended :=
  ⟨by decide!, by decide!, by decide!,
    (drained_then_buffer_is_appended exInput _
      (reachable_run exInput midRun init Reachable.init)).1⟩

/-- C5: in a run whose error flag is not set, the consumer is out of its loop
only in states where `finished` is true and the buffer is empty; the drained
batches then hold `N` records in total and their concatenation is the appended
sequence (no record twice, none left undrained). -/
theorem consumer_exit_complete (inp : Input) (s : State) (hr : Reachable inp s)
    (he : s.file_error = false) (hc : s.cpc = CPc.done) :
    s.finished = true ∧ s.buffer = [] ∧
      (s.drained.map List.length).sum = inp.N ∧
      s.appended.length = inp.N ∧
      s.drained.flatten = s.appended := by
  have h := inv_reachable hr
  rcases h.cdone hc with h1 | ⟨hf, hb⟩
  · rw [he] at h1; exact Bool.noConfusion h1
  · have hconc := h.conc
    rw [hb, List.append_nil] at hconc
    have hlen : s.appended.length = inp.N := by
      rcases (inv_finished h hf).2 with h1 | h1
      · rw [he] at h1; exact Bool.noConfusion h1.1
      · rw [h1.2.2, readRecords_length]
    refine ⟨hf, hb, ?_, hlen, hconc⟩
    rw [← hlen, ← hconc, List.length_flatten]

theorem consumer_exit_complete_witness :
    (run exInput twoBatches init).file_error = false ∧
      (run exInput twoBatches init).cpc = CPc.done ∧
      (run exInput twoBatches init).finished = true ∧
      (run exInput twoBatches init).buffer = [] ∧
      ((run exInput twoBatches init).drained.map List.length).sum = exInput.N ∧
      (run exInput twoBatches init).appended.length = exInput.N ∧
      (run exInput twoBatches init).drained.flatten = (run exInput twoBatches init).appended :=
  ⟨by decide, by decide,
    consumer_exit_complete exInput _ (reachable_run exInput twoBatches init Reachable.init)
      (by decide) (by decide)⟩

/-- C6 as stated is false.  On a file that opens and whose header is
`99999999999 2`, with `N = 2` and `D = 2`, none of the three conditions holds:
the declared dimension is `D` and the declared count is not less than `N`.  But
the count is more than an `int` holds: its extraction stores `INT_MAX` and sets
the failbit, the extraction of the dimension is skipped, and line 48 compares a
variable that was never written with `D`.  Whether the error flag is set is not
settled by the three conditions. -/
theorem error_flag_not_settled_by_declared_header :
    hugeCountInput.file = some hugeCountFile ∧ ¬ HeaderFails hugeCountInput ∧
      ¬ HeaderFits hugeCountFile ∧
      extractInt false (HeaderTok.number hugeCountFile.total_vectors) none
        = (some 2147483647, true) ∧
      extractInt true (HeaderTok.number hugeCountFile.vector_dim) none = (none, true) ∧
      validateHeader hugeCountInput.N hugeCountInput.D
        (HeaderTok.number hugeCountFile.total_vectors)
        (HeaderTok.number hugeCountFile.vector_dim) = none := by
  refine ⟨rfl, ?_, by decide, by decide, by decide, by decide⟩
  rw [← headerOk_false_iff]
  decide

/-- C6 amended: on a file whose header integers are in the range of `int`
(or that cannot be opened) the validation of the code has a defined outcome,
and the producer sets the error flag if and only if the file cannot be opened,
or the declared dimension differs from `D`, or the declared count is less than
`N`: the flag is never set otherwise, and once the producer is past its
validation the flag is set exactly when one of the three holds.  When the flag
is set the producer is either done with the completion flag set, or its next
step sets the completion flag and ends it; on a failing input it ends within
three of its own steps. -/
theorem error_flag_iff_header_fails (inp : Input) (hfit : FileFits inp) (s : State)
    (hr : Reachable inp s) :
    (∀ f, inp.file = some f →
        ∃ v, validateHeader inp.N inp.D (HeaderTok.number f.total_vectors)
            (HeaderTok.number f.vector_dim) = some v ∧
          (v = Verdict.read false ↔ ¬ HeaderFails inp)) ∧
      (s.file_error = true → HeaderFails inp) ∧
      (s.ppc ≠ PPc.start → s.ppc ≠ PPc.setError →
        (s.file_error = true ↔ HeaderFails inp)) ∧
      (s.file_error = true →
        (s.ppc = PPc.done ∧ s.finished = true) ∨
        (s.ppc = PPc.setFinished ∧
          pstep inp s = some { s with finished := true, ppc := PPc.done })) ∧
      (HeaderFails inp →
        ∃ k, k ≤ 3 ∧ ∃ t, psteps inp k s = some t ∧ t.ppc = PPc.done ∧
          t.file_error = true ∧ t.finished = true ∧ t.buffer = s.buffer) := by
  have h := inv_reachable hr
  refine ⟨?_, ?_, ?_, ?_, ?_⟩
  · intro f hf
    have hfit2 := fileFits_some hfit hf
    have hiff := validate_read_iff hf hfit2
    rw [validateHeader_fits inp.N inp.D f hfit2] at hiff ⊢
    refine ⟨_, rfl, ?_⟩
    rw [← headerOk_false_iff]
    constructor
    · intro hv
      have := hiff.mp (by rw [hv])
      rw [this]
      decide
    · intro hn
      have hok : headerOk inp = true := by
        cases hh : headerOk inp with
        | false => exact absurd hh hn
        | true => rfl
      exact Option.some.inj (hiff.mpr hok)
  · exact fun he => (headerOk_false_iff inp).mp (inv_error h he).1
  · intro h1 h2
    rw [← headerOk_false_iff]
    exact inv_error_iff h h1 h2
  · intro he
    rcases (inv_error h he).2 with hpc | hpc
    · exact Or.inr ⟨hpc, by simp [pstep, hpc]⟩
    · have hp := h.prod
      simp only [PInv, hpc] at hp
      exact Or.inl ⟨hpc, hp.1⟩
  · exact fun hf => producer_fails_completes h ((headerOk_false_iff inp).mpr hf)

theorem error_flag_iff_header_fails_witness :
    FileFits shortInput ∧ FileFits exInput ∧
      (run shortInput failRun init).ppc = PPc.done ∧
      (run shortInput failRun init).file_error = true ∧
      (run shortInput failRun init).finished = true ∧
      HeaderFails shortInput ∧
      validateHeader shortInput.N shortInput.D (HeaderTok.number 3) (HeaderTok.number 2)
        = some (Verdict.tooFew 3) ∧
      ((run exInput producerFirst init).file_error = true ↔ HeaderFails exInput) :=
  have h := error_flag_iff_header_fails shortInput (by decide) _
    (reachable_run shortInput failRun init Reachable.init)
  have hf : HeaderFails shortInput := h.2.1 (by decide)
  ⟨by decide, by decide, by decide, (h.2.2.1 (by decide) (by decide)).mpr hf, by decide, hf,
    by decide,
    (error_flag_iff_header_fails exInput (by decide) _
      (reachable_run exInput producerFirst init Reachable.init)).2.2.1 (by decide) (by decide)⟩

/-- C9 as stated is false: the accumulator is not a function of what a call of
`test_sections` leaves behind.  The function returns `void` and its variables
are locals, so what remains is the text on `std::cerr`; two terminated runs on
files that differ in one number leave the same (empty) text and end with
different accumulators. -/
theorem accumulator_not_exposed :
    ¬ ∃ f : List ErrMsg → ℚ, ∀ (inp : Input) (s : State),
        Reachable inp s → Terminated s → f (epilogue s) = s.scal := by
  rintro ⟨f, hf⟩
  have h1 := hf exInput _ (reachable_run exInput producerFirst init Reachable.init) (by decide)
  have h2 := hf exInputAlt _ (reachable_run exInputAlt producerFirst init Reachable.init)
    (by decide)
  have e1 : epilogue (run exInput producerFirst init) = [] := by decide
  have e2 : epilogue (run exInputAlt producerFirst init) = [] := by decide
  have s1 : (run exInput producerFirst init).scal = 133 := by decide!
  have s2 : (run exInputAlt producerFirst init).scal = 139 := by decide!
  rw [e1, s1] at h1
  rw [e2, s2] at h2
  rw [h1] at h2
  exact absurd h2 (by decide!)

/-- C9 amended: after both sections have terminated, what a call leaves behind
is the text on `std::cerr` only: nothing when the error flag is not set, and
one validation message followed by the closing error line when it is set; the
closing error line is written exactly when the error flag is set. -/
theorem outcome_is_error_text (inp : Input) (s : State) (hr : Reachable inp s)
    (ht : Terminated s) :
    (s.file_error = false → epilogue s = []) ∧
      (s.file_error = true →
        ∃ m, m ≠ ErrMsg.endedWithError ∧ epilogue s = [m, ErrMsg.endedWithError]) ∧
      (ErrMsg.endedWithError ∈ epilogue s ↔ s.file_error = true) := by
  have hp := (inv_reachable hr).prod
  simp only [PInv, ht.1] at hp
  rcases hp.2 with h1 | h1
  · obtain ⟨he, _, _, _, _, hlen, hnot⟩ := h1
    have hcerr : ∃ m, s.cerr = [m] := List.length_eq_one.mp hlen
    obtain ⟨m, hm⟩ := hcerr
    have hne : m ≠ ErrMsg.endedWithError := by
      intro hmm
      apply hnot
      rw [hm, hmm]
      exact List.mem_singleton.mpr rfl
    refine ⟨?_, ?_, ?_⟩
    · intro h; rw [he] at h; exact Bool.noConfusion h
    · intro _; exact ⟨m, hne, by simp [epilogue, he, hm]⟩
    · simp [epilogue, he]
  · obtain ⟨he, _, hc, _⟩ := h1
    refine ⟨?_, ?_, ?_⟩
    · intro _; simp [epilogue, he, hc]
    · intro h; rw [he] at h; exact Bool.noConfusion h
    · simp [epilogue, he, hc]

theorem outcome_is_error_text_witness :
    Terminated (run shortInput failRun init) ∧
      epilogue (run shortInput failRun init) = [ErrMsg.tooFew 3 5, ErrMsg.endedWithError] ∧
      (ErrMsg.endedWithError ∈ epilogue (run shortInput failRun init) ↔
        (run shortInput failRun init).file_error = true) ∧
      Terminated (run exInput producerFirst init) ∧
      epilogue (run exInput producerFirst init) = [] :=
  ⟨by decide, by decide,
    (outcome_is_error_text shortInput _
      (reachable_run shortInput failRun init Reachable.init) (by decide)).2.2,
    by decide,
    (outcome_is_error_text exInput _
      (reachable_run exInput producerFirst init Reachable.init) (by decide)).1 (by decide)⟩

/-- C10: from any reachable state in which the completion flag is true and the
buffer is empty, the producer has ended and has no further step, and the
consumer reaches its terminal state within `crank` (at most eight) of its own
steps, none of them blocked; at the loop condition it leaves in two steps,
without starting another iteration. -/
theorem consumer_terminates_after_completion (inp : Input) (s : State)
    (hr : Reachable inp s) (hf : s.finished = true) (hb : s.buffer = []) :
    s.ppc = PPc.done ∧ pstep inp s = none ∧
      (∃ k, k ≤ crank s.cpc ∧ k ≤ 8 ∧ ∃ t, csteps inp k s = some t ∧ t.cpc = CPc.done) ∧
      (s.cpc = CPc.condFinished → csteps inp 2 s = some { s with cpc := CPc.done }) := by
  have h := inv_reachable hr
  have hp := (inv_finished h hf).1
  refine ⟨hp, by simp [pstep, hp], ?_, ?_⟩
  · obtain ⟨k, hk, t, ht, htd⟩ := consumer_leaves_within inp (crank s.cpc) s h hf hb
      (Nat.le_refl _)
    exact ⟨k, hk, Nat.le_trans hk (crank_le _), t, ht, htd⟩
  · intro hc
    simp [csteps, cstep, hc, hf, hb]

theorem consumer_terminates_after_completion_witness :
    (run exInput (List.replicate 19 Tid.P ++ List.replicate 8 Tid.C) init).finished = true ∧
      (run exInput (List.replicate 19 Tid.P ++ List.replicate 8 Tid.C) init).buffer = [] ∧
      (run exInput (List.replicate 19 Tid.P ++ List.replicate 8 Tid.C) init).cpc
        = CPc.condFinished ∧
      csteps exInput 2 (run exInput (List.replicate 19 Tid.P ++ List.replicate 8 Tid.C) init)
        = some { run exInput (List.replicate 19 Tid.P ++ List.replicate 8 Tid.C) init with
                 cpc := CPc.done } :=
  ⟨by decide, by decide, by decide,
    (consumer_terminates_after_completion exInput _
      (reachable_run exInput (List.replicate 19 Tid.P ++ List.replicate 8 Tid.C) init
        Reachable.init) (by decide) (by decide)).2.2.2 (by decide)⟩

/-! ## Buffer accesses and the mutex -/

theorem pstep_buffer_frame {inp : Input} {s t : State} (hs : pstep inp s = some t)
    (hn : producerTouchesBuffer s.ppc = false) : t.buffer = s.buffer := by
  unfold pstep at hs
  split at hs <;> (try split at hs) <;> (try split at hs) <;> (try split at hs) <;>
    first
      | (cases hs; rfl)
      | (rename_i hpc; rw [hpc] at hn; exact Bool.noConfusion hn)
      | cases hs

theorem cstep_buffer_frame {inp : Input} {s t : State} (hs : cstep inp s = some t)
    (hn : consumerTouchesBuffer s.cpc = false) : t.buffer = s.buffer := by
  unfold cstep at hs
  split at hs <;> (try split at hs) <;>
    first
      | (cases hs; rfl)
      | (rename_i hpc _; rw [hpc] at hn; exact Bool.noConfusion hn)
      | cases hs

theorem pstep_buffer_change {inp : Input} {s t : State} (hs : pstep inp s = some t) :
    t.buffer = s.buffer ∨ (s.ppc = PPc.push ∧ t.buffer = s.buffer ++ [s.vec]) := by
  unfold pstep at hs
  split at hs <;> (try split at hs) <;> (try split at hs) <;> (try split at hs) <;>
    first
      | (cases hs; exact Or.inl rfl)
      | (rename_i hpc; cases hs; exact Or.inr ⟨hpc, rfl⟩)
      | cases hs

theorem cstep_buffer_change {inp : Input} {s t : State} (hs : cstep inp s = some t) :
    t.buffer = s.buffer ∨
      (s.cpc = CPc.swap ∧ t.buffer = s.local_copy ∧ t.local_copy = s.buffer) := by
  unfold cstep at hs
  split at hs <;> (try split at hs) <;>
    first
      | (cases hs; exact Or.inl rfl)
      | (rename_i hpc _; cases hs; exact Or.inr ⟨hpc, rfl, rfl⟩)
      | cases hs

theorem pstep_flags {inp : Input} {s t : State} (hs : pstep inp s = some t) :
    (s.finished = true → t.finished = true) ∧ (s.file_error = true → t.file_error = true) := by
  unfold pstep at hs
  split at hs <;> (try split at hs) <;> (try split at hs) <;> (try split at hs) <;>
    first
      | (cases hs; exact ⟨fun h => h, fun h => h⟩)
      | (cases hs; exact ⟨fun h => h, fun _ => rfl⟩)
      | (cases hs; exact ⟨fun _ => rfl, fun h => h⟩)
      | cases hs

theorem cstep_flags {inp : Input} {s t : State} (hs : cstep inp s = some t) :
    t.finished = s.finished ∧ t.file_error = s.file_error := by
  unfold cstep at hs
  split at hs <;> (try split at hs) <;>
    first
      | (cases hs; exact ⟨rfl, rfl⟩)
      | cases hs

theorem pstep_consumer_frame {inp : Input} {s t : State} (hs : pstep inp s = some t) :
    t.cpc = s.cpc ∧ t.scal = s.scal ∧ t.drained = s.drained ∧ t.local_copy = s.local_copy := by
  unfold pstep at hs
  split at hs <;> (try split at hs) <;> (try split at hs) <;> (try split at hs) <;>
    first
      | (cases hs; exact ⟨rfl, rfl, rfl, rfl⟩)
      | cases hs

theorem consumer_done_stable {inp : Input} {s u : State}
    (h : Relation.ReflTransGen (Step inp) s u) (hc : s.cpc = CPc.done) :
    u.cpc = CPc.done ∧ u.scal = s.scal ∧ u.drained = s.drained ∧
      u.local_copy = s.local_copy := by
  induction h with
  | refl => exact ⟨hc, rfl, rfl, rfl⟩
  | tail _ hstep ih =>
    rcases hstep with hp | hcs
    · obtain ⟨h1, h2, h3, h4⟩ := pstep_consumer_frame hp
      exact ⟨h1.trans ih.1, h2.trans ih.2.1, h3.trans ih.2.2.1, h4.trans ih.2.2.2⟩
    · simp [cstep, ih.1] at hcs

/-! ## Claims C11 to C15 -/

/-- C11 as stated is false: on the example input, once the producer has ended
and the consumer has read `finished = true`, the consumer evaluates
`buffer.empty()` in its loop condition (line 76) while nobody holds `mtx`. -/
theorem emptiness_check_without_mutex :
    Reachable exInputPar (run exInputPar atCondEmpty init) ∧
      (run exInputPar atCondEmpty init).cpc = CPc.condEmpty ∧
      consumerTouchesBuffer (run exInputPar atCondEmpty init).cpc = true ∧
      (run exInputPar atCondEmpty init).mtx = Lock.free ∧
      (run exInputPar atCondEmpty init).buffer = [[1, 2], [3, 4], [5, 6], [7, 8]] ∧
      (cstep exInputPar (run exInputPar atCondEmpty init)).map (fun t => t.cpc)
        = some CPc.checkError :=
  ⟨reachable_run exInputPar atCondEmpty init Reachable.init, by decide, by decide, by decide,
    by decide!, by decide⟩

/-- C11 amended: the producer's `push_back` and the consumer's test and swap
are performed while the section holds `mtx`, and the two sections are never
both inside their lock scopes.  The one access outside the mutex is the
consumer's `buffer.empty()` in its loop condition: it is evaluated only after
`finished` was read true, in states where the producer has ended and nobody
holds `mtx`.  Every other statement leaves the buffer as it is. -/
theorem buffer_access_discipline (inp : Input) (s : State) (hr : Reachable inp s) :
    (producerTouchesBuffer s.ppc = true → s.mtx = Lock.producer) ∧
      (consumerTouchesBuffer s.cpc = true → s.cpc = CPc.swap ∨ s.cpc = CPc.condEmpty) ∧
      (s.cpc = CPc.swap → s.mtx = Lock.consumer) ∧
      (s.cpc = CPc.condEmpty →
        s.mtx = Lock.free ∧ s.finished = true ∧ s.ppc = PPc.done) ∧
      ¬ ((s.ppc = PPc.push ∨ s.ppc = PPc.release) ∧
          (s.cpc = CPc.swap ∨ s.cpc = CPc.release)) ∧
      (∀ t, pstep inp s = some t → producerTouchesBuffer s.ppc = false →
        t.buffer = s.buffer) ∧
      (∀ t, cstep inp s = some t → consumerTouchesBuffer s.cpc = false →
        t.buffer = s.buffer) := by
  have h := inv_reachable hr
  refine ⟨?_, ?_, ?_, ?_, ?_, fun t ht hn => pstep_buffer_frame ht hn,
    fun t ht hn => cstep_buffer_frame ht hn⟩
  · intro hp
    apply h.mtxP.mpr
    cases hpc : s.ppc <;> rw [hpc] at hp <;> simp [producerTouchesBuffer] at hp
    exact Or.inl rfl
  · intro hc
    cases hpc : s.cpc <;> rw [hpc] at hc <;> simp [consumerTouchesBuffer] at hc
    · exact Or.inr rfl
    · exact Or.inl rfl
  · exact fun hc => h.mtxC.mpr (Or.inl hc)
  · intro hc
    have hf := h.condEmpty hc
    have hp := (inv_finished h hf).1
    refine ⟨?_, hf, hp⟩
    cases hm : s.mtx with
    | free => rfl
    | producer =>
      rcases h.mtxP.mp hm with h1 | h1 <;> rw [hp] at h1 <;> exact PPc.noConfusion h1
    | consumer =>
      rcases h.mtxC.mp hm with h1 | h1 <;> rw [hc] at h1 <;> exact CPc.noConfusion h1
  · rintro ⟨hp, hc⟩
    have h1 := h.mtxP.mpr hp
    have h2 := h.mtxC.mpr hc
    rw [h1] at h2
    exact Lock.noConfusion h2

theorem buffer_access_discipline_witness :
    (run exInputPar atPush init).ppc = PPc.push ∧
      (run exInputPar atPush init).mtx = Lock.producer ∧
      (run exInputPar atCondEmpty init).cpc = CPc.condEmpty ∧
      ((run exInputPar atCondEmpty init).mtx = Lock.free ∧
        (run exInputPar atCondEmpty init).finished = true ∧
        (run exInputPar atCondEmpty init).ppc = PPc.done) :=
  ⟨by decide,
    (buffer_access_discipline exInputPar _
      (reachable_run exInputPar atPush init Reachable.init)).1 (by decide),
    by decide,
    (buffer_access_discipline exInputPar _
      (reachable_run exInputPar atCondEmpty init Reachable.init)).2.2.2.1 (by decide)⟩

/-- C13: the consumer's drain step, made while it holds `mtx`, moves the whole
buffer into its batch and leaves the buffer empty in that one step, still
inside the lock scope; the producer's append step, made while it holds `mtx`,
adds the new record at the back of the buffer.  No other step of either
section changes the buffer. -/
theorem drain_and_append_steps (inp : Input) (s : State) (hr : Reachable inp s) :
    (s.cpc = CPc.swap →
      ∃ t, cstep inp s = some t ∧ t.local_copy = s.buffer ∧ t.buffer = [] ∧
        s.mtx = Lock.consumer ∧ t.mtx = Lock.consumer ∧ t.cpc = CPc.release) ∧
      (s.ppc = PPc.push →
        ∃ t, pstep inp s = some t ∧ t.buffer = s.buffer ++ [s.vec] ∧
          s.mtx = Lock.producer ∧ t.mtx = Lock.producer ∧ t.ppc = PPc.release) ∧
      (∀ t, pstep inp s = some t →
        t.buffer = s.buffer ∨ (s.ppc = PPc.push ∧ t.buffer = s.buffer ++ [s.vec])) ∧
      (∀ t, cstep inp s = some t →
        t.buffer = s.buffer ∨
          (s.cpc = CPc.swap ∧ t.buffer = [] ∧ t.local_copy = s.buffer)) := by
  have h := inv_reachable hr
  refine ⟨?_, ?_, fun t ht => pstep_buffer_change ht, ?_⟩
  · intro hc
    have hl := h.lcEmpty (Or.inr (Or.inl hc))
    have hm := h.mtxC.mpr (Or.inl hc)
    cases hb : s.buffer with
    | nil =>
      exact ⟨{ s with cpc := CPc.release }, by simp [cstep, hc, hb], by simp [hl, hb], hb,
        hm, hm, rfl⟩
    | cons x rest =>
      exact ⟨{ s with local_copy := s.buffer, buffer := s.local_copy,
                      drained := s.drained ++ [s.buffer], cpc := CPc.release },
        by simp [cstep, hc, hb], by simp [hb], hl, hm, hm, rfl⟩
  · intro hp
    have hm := h.mtxP.mpr (Or.inl hp)
    exact ⟨{ s with buffer := s.buffer ++ [s.vec], appended := s.appended ++ [s.vec],
                    ppc := PPc.release }, by simp [pstep, hp], rfl, hm, hm, rfl⟩
  · intro t ht
    rcases cstep_buffer_change ht with h1 | ⟨hc, h1, h2⟩
    · exact Or.inl h1
    · exact Or.inr ⟨hc, by rw [h1]; exact h.lcEmpty (Or.inr (Or.inl hc)), h2⟩

theorem drain_and_append_steps_witness :
    (run exInputPar atSwap init).cpc = CPc.swap ∧
      (run exInputPar atSwap init).buffer = [[1, 2], [3, 4]] ∧
      (∃ t, cstep exInputPar (run exInputPar atSwap init) = some t ∧
        t.local_copy = (run exInputPar atSwap init).buffer ∧ t.buffer = [] ∧
        (run exInputPar atSwap init).mtx = Lock.consumer ∧ t.mtx = Lock.consumer ∧
        t.cpc = CPc.release) ∧
      (run exInputPar atPush init).ppc = PPc.push ∧
      (∃ t, pstep exInputPar (run exInputPar atPush init) = some t ∧
        t.buffer = (run exInputPar atPush init).buffer ++ [(run exInputPar atPush init).vec] ∧
        (run exInputPar atPush init).mtx = Lock.producer ∧ t.mtx = Lock.producer ∧
        t.ppc = PPc.release) :=
  ⟨by decide, by decide!,
    (drain_and_append_steps exInputPar _
      (reachable_run exInputPar atSwap init Reachable.init)).1 (by decide),
    by decide,
    (drain_and_append_steps exInputPar _
      (reachable_run exInputPar atPush init Reachable.init)).2.1 (by decide)⟩

/-- C14: no step changes the completion flag or the error flag from true to
false, and in every reachable state in which the completion flag is true the
producer has ended and has either appended all `N` records or set the error
flag. -/
theorem flags_monotonic (inp : Input) (s : State) (hr : Reachable inp s) :
    (∀ t, Step inp s t →
      (s.finished = true → t.finished = true) ∧
      (s.file_error = true → t.file_error = true)) ∧
      (s.finished = true →
        s.ppc = PPc.done ∧
        ((s.appended.length = inp.N ∧
            s.appended = readRecords inp.D inp.N (bodyOf inp) ∧ s.file_error = false) ∨
          s.file_error = true)) := by
  have h := inv_reachable hr
  refine ⟨?_, ?_⟩
  · intro t ht
    rcases ht with hp | hc
    · exact pstep_flags hp
    · obtain ⟨h1, h2⟩ := cstep_flags hc
      exact ⟨fun hf => by rw [h1]; exact hf, fun he => by rw [h2]; exact he⟩
  · intro hf
    obtain ⟨hp, hor⟩ := inv_finished h hf
    refine ⟨hp, ?_⟩
    rcases hor with h1 | h1
    · exact Or.inr h1.1
    · exact Or.inl ⟨by rw [h1.2.2, readRecords_length], h1.2.2, h1.1⟩

theorem flags_monotonic_witness :
    (run exInputPar producerFirst init).finished = true ∧
      (run exInputPar producerFirst init).appended.length = exInputPar.N ∧
      (run shortInput failRun init).finished = true ∧
      (run shortInput failRun init).file_error = true ∧
      (run shortInput failRun init).appended.length = 0 ∧
      (run shortInput failRun init).ppc = PPc.done ∧
      (run exInputPar producerFirst init).ppc = PPc.done :=
  have h1 := (flags_monotonic exInputPar _
    (reachable_run exInputPar producerFirst init Reachable.init)).2 (by decide)
  have h2 := (flags_monotonic shortInput _
    (reachable_run shortInput failRun init Reachable.init)).2 (by decide)
  ⟨by decide, by decide, by decide, by decide, by decide, h2.1, h1.1⟩

/-- C15: when the consumer, at the check of line 77, reads the error flag set,
its step is the `break`: it is out of the loop at once, without drain or
reduction; from then on it has no step, and no later step of the run changes
the accumulator, the drained batches or its batch. -/
theorem error_flag_stops_consumer (inp : Input) (s : State) (hc : s.cpc = CPc.checkError)
    (he : s.file_error = true) :
    cstep inp s = some { s with cpc := CPc.done } ∧
      ∀ u, Relation.ReflTransGen (Step inp) { s with cpc := CPc.done } u →
        u.cpc = CPc.done ∧ cstep inp u = none ∧ u.scal = s.scal ∧
          u.drained = s.drained ∧ u.local_copy = s.local_copy := by
  refine ⟨by simp [cstep, hc, he], ?_⟩
  intro u hu
  obtain ⟨h1, h2, h3, h4⟩ := consumer_done_stable hu rfl
  exact ⟨h1, by simp [cstep, h1], h2, h3, h4⟩

theorem error_flag_stops_consumer_witness :
    (run shortInput atErrorCheck init).cpc = CPc.checkError ∧
      (run shortInput atErrorCheck init).file_error = true ∧
      (run shortInput atErrorCheck init).finished = false ∧
      cstep shortInput (run shortInput atErrorCheck init)
        = some { run shortInput atErrorCheck init with cpc := CPc.done } :=
  ⟨by decide, by decide, by decide,
    (error_flag_stops_consumer shortInput (run shortInput atErrorCheck init) (by decide)
      (by decide)).1⟩

/-! ## The parallel reduction -/

theorem foldl_add_eq_sum {α : Type} (f : α → ℚ) (l : List α) (a : ℚ) :
    l.foldl (fun acc x => acc + f x) a = a + (l.map f).sum := by
  induction l generalizing a with
  | nil => simp
  | cons x rest ih =>
    simp only [List.foldl_cons, List.map_cons, List.sum_cons]
    rw [ih]
    ring

theorem sliceSum_eq_sum (D : Nat) (batch : List Record) (slice : List Nat) :
    sliceSum D batch slice = (slice.map (pairTerm D batch)).sum := by
  unfold sliceSum
  rw [foldl_add_eq_sum, zero_add]

theorem reduceParallel_eq_sum (D : Nat) (batch : List Record) (slices : List (List Nat)) :
    reduceParallel D batch slices = (slices.flatten.map (pairTerm D batch)).sum := by
  unfold reduceParallel
  rw [foldl_add_eq_sum, zero_add]
  induction slices with
  | nil => simp
  | cons sl rest ih =>
    simp only [List.map_cons, List.sum_cons, List.flatten_cons, List.map_append,
      List.sum_append]
    rw [ih, sliceSum_eq_sum]

theorem range_sum_eq_list_sum (f : Nat → ℚ) (n : Nat) :
    ∑ i in Finset.range n, f i = ((List.range n).map f).sum := by
  induction n with
  | zero => simp
  | succ n ih =>
    rw [Finset.sum_range_succ, ih, List.range_succ, List.map_append, List.sum_append]
    simp

theorem reduceBatch_eq_sum (D : Nat) (batch : List Record) :
    reduceBatch D batch = ((List.range (batch.length - 1)).map (pairTerm D batch)).sum := by
  unfold reduceBatch
  rw [pairLoop_eq_sum, zero_add, ← range_sum_eq_list_sum]
  apply Finset.sum_congr rfl
  intro j _
  simp [pairTerm]

theorem reduceParallel_eq_reduceBatch (D : Nat) (batch : List Record)
    (slices : List (List Nat)) (hs : IsSplit batch.length slices) :
    reduceParallel D batch slices = reduceBatch D batch := by
  rw [reduceParallel_eq_sum, reduceBatch_eq_sum]
  exact (hs.map (pairTerm D batch)).sum_eq

/-- C12: for a fixed batch and every split of the `M - 1` pair indices into
per-worker slices (any number of workers, any assignment, any order), adding up
the per-slice partial sums gives the value of the sequential left-to-right
loop; so any two splits give the same value. -/
theorem reduction_independent_of_split (D : Nat) (batch : List Record)
    (slices : List (List Nat)) (hs : IsSplit batch.length slices) :
    reduceParallel D batch slices = reduceBatch D batch ∧
      (∀ slices2, IsSplit batch.length slices2 →
        reduceParallel D batch slices2 = reduceParallel D batch slices) := by
  refine ⟨reduceParallel_eq_reduceBatch D batch slices hs, ?_⟩
  intro slices2 hs2
  rw [reduceParallel_eq_reduceBatch D batch slices hs,
    reduceParallel_eq_reduceBatch D batch slices2 hs2]

theorem reduction_independent_of_split_witness :
    IsSplit 4 [[2], [0, 1]] ∧
      reduceParallel 2 [[1, 2], [3, 4], [5, 6], [7, 8]] [[2], [0, 1]] = 133 ∧
      reduceParallel 2 [[1, 2], [3, 4], [5, 6], [7, 8]] [[1], [], [2], [0]] = 133 ∧
      reduceParallel 2 [[1, 2], [3, 4], [5, 6], [7, 8]] [[2], [0, 1]]
        = reduceBatch 2 [[1, 2], [3, 4], [5, 6], [7, 8]] :=
  have hs : IsSplit 4 [[2], [0, 1]] := by unfold IsSplit; decide
  ⟨hs, by decide!, by decide!,
    (reduction_independent_of_split 2 [[1, 2], [3, 4], [5, 6], [7, 8]] [[2], [0, 1]] hs).1⟩

/-! ## Calls, batch boundaries, interleavings -/

theorem pairSum_cons_cons (x y : Record) (rest : List Record) :
    pairSum (x :: y :: rest) = dot x y + pairSum (y :: rest) := by
  unfold pairSum
  simp only [List.length_cons, Nat.add_sub_cancel]
  rw [Finset.sum_range_succ']
  simp only [List.getD_cons_succ, List.getD_cons_zero]
  ring

theorem pairSum_singleton (x : Record) : pairSum [x] = 0 := by
  simp [pairSum]

theorem pairSum_append (xs ys : List Record) (hx : xs ≠ []) (hy : ys ≠ []) :
    pairSum (xs ++ ys) = pairSum xs + pairSum ys + dot (xs.getLast hx) (ys.head hy) := by
  induction xs with
  | nil => exact absurd rfl hx
  | cons x rest ih =>
    cases rest with
    | nil =>
      cases ys with
      | nil => exact absurd rfl hy
      | cons y r =>
        simp only [List.singleton_append, pairSum_cons_cons, pairSum_singleton,
          List.getLast_singleton, List.head_cons]
        ring
    | cons x2 r =>
      have hne : x2 :: r ≠ [] := List.cons_ne_nil _ _
      have h := ih hne
      simp only [List.cons_append] at h
      simp only [List.cons_append, pairSum_cons_cons, List.getLast_cons hne, h]
      ring

/-- C18 as stated is false.  The code accumulates in `double` arithmetic:
on the valid file with the records `(10^16, 1)`, `(1, 1)`, `(1, 1)`, drained as
`xs` of two records and `ys` of one, the adjacent-pair sum of `xs ++ ys` is
`10^16 + 3` and the cross-boundary term `dot(last xs, first ys)` is `2`, but the
run ends with `scal = 10^16`, not with `10^16 + 1`. -/
theorem cross_term_differs_in_double :
    Valid bigTripleInput ∧ FileFits bigTripleInput ∧
      Terminated (runD twoThreads bigTripleInput tripleRun (init, Dbl.finite 0)).1 ∧
      (runD twoThreads bigTripleInput tripleRun (init, Dbl.finite 0)).1.drained
        = [[[10000000000000000, 1], [1, 1]], [[1, 1]]] ∧
      pairSum ([[10000000000000000, 1], [1, 1]] ++ [[1, 1]]) = 10000000000000003 ∧
      dot [1, 1] [1, 1] = 2 ∧
      (runD twoThreads bigTripleInput tripleRun (init, Dbl.finite 0)).2
        = Dbl.finite 10000000000000000 ∧
      Dbl.finite 10000000000000000 ≠ Dbl.finite (10000000000000003 - 2) :=
  ⟨by decide, by decide, by decide, by decide!, by decide!, by decide!, by decide!,
    by decide!⟩

/-- C18 amended: for non-empty record sequences `xs` and `ys` of dimension
`D`, over exact arithmetic, the adjacent-pair sum of `xs ++ ys` is the sum of the
two adjacent-pair sums plus `dot (last xs) (first ys)`, for the specification's
sum and for the reduction loop alike; so a terminated run on a valid input with
header integers in the range of `int` that drained `xs` and `ys` as its two
batches has read `xs ++ ys` and ends, over exact arithmetic, with the
adjacent-pair sum of the whole sequence less exactly that cross-boundary
term. -/
theorem pairSum_across_boundary (D : Nat) (xs ys : List Record) (hx : xs ≠ [])
    (hy : ys ≠ []) (hdim : ∀ r ∈ xs ++ ys, r.length = D) :
    pairSum (xs ++ ys) = pairSum xs + pairSum ys + dot (xs.getLast hx) (ys.head hy) ∧
      reduceBatch D (xs ++ ys)
        = reduceBatch D xs + reduceBatch D ys + dot (xs.getLast hx) (ys.head hy) ∧
      (∀ (inp : Input) (s : State), FileFits inp → Valid inp → Reachable inp s →
        Terminated s → s.drained = [xs, ys] →
          (∀ f, inp.file = some f →
            validateHeader inp.N inp.D (HeaderTok.number f.total_vectors)
              (HeaderTok.number f.vector_dim) = some (Verdict.read false)) ∧
          xs ++ ys = fileRows inp.D inp.N (bodyOf inp) ∧
          s.scal = pairSum xs + pairSum ys ∧
          s.scal = pairSum (fileRows inp.D inp.N (bodyOf inp))
            - dot (xs.getLast hx) (ys.head hy)) := by
  have hp := pairSum_append xs ys hx hy
  refine ⟨hp, ?_, ?_⟩
  · rw [reduceBatch_eq_pairSum D (xs ++ ys) hdim,
      reduceBatch_eq_pairSum D xs (fun r hr => hdim r (List.mem_append_left _ hr)),
      reduceBatch_eq_pairSum D ys (fun r hr => hdim r (List.mem_append_right _ hr))]
    exact hp
  · intro inp s hfit hv hr ht hd
    have h := inv_reachable hr
    have hfl := (inv_done_valid h hv.1 ht.2).2.2.2
    rw [hd, valid_rows hv inp.N (Nat.le_refl _)] at hfl
    simp only [List.flatten_cons, List.flatten_nil, List.append_nil] at hfl
    have hs := inv_scal_done h ht.2
    rw [hd] at hs
    simp only [List.map_cons, List.map_nil, List.sum_cons, List.sum_nil, add_zero] at hs
    refine ⟨fun f hf => (validate_read_iff hf (fileFits_some hfit hf)).mpr hv.1, hfl, hs, ?_⟩
    rw [← hfl, hp, hs]
    ring

theorem pairSum_across_boundary_witness :
    pairSum [[1, 2], [3, 4], [5, 6], [7, 8]] = 133 ∧
      pairSum [[1, 2], [3, 4]] = 11 ∧ pairSum [[5, 6], [7, 8]] = 83 ∧
      dot [3, 4] [5, 6] = 39 ∧
      Terminated (run exInputPar twoBatches init) ∧
      (run exInputPar twoBatches init).drained = [[[1, 2], [3, 4]], [[5, 6], [7, 8]]] ∧
      (run exInputPar twoBatches init).scal = pairSum [[1, 2], [3, 4]] + pairSum [[5, 6], [7, 8]] :=
  have h := pairSum_across_boundary 2 [[1, 2], [3, 4]] [[5, 6], [7, 8]] (by decide) (by decide)
    (by decide)
  ⟨by decide!, by decide!, by decide!, by decide!, by decide, by decide!,
    (h.2.2 exInputPar _ (by decide) (by decide)
      (reachable_run exInputPar twoBatches init Reachable.init) (by decide) (by decide!)).2.2.1⟩

/-- C19: the final accumulator is not a function of the input alone: on the
valid input `N = 4`, `D = 2` with records `(1,2),(3,4),(5,6),(7,8)`, run with a
team of two threads, the interleaving that drains one batch of four ends with
`133` and the one that drains two batches of two ends with `11 + 83 = 94`. -/
theorem accumulator_depends_on_interleaving :
    Valid exInputPar ∧
      Reachable exInputPar (run exInputPar producerFirst init) ∧
      Terminated (run exInputPar producerFirst init) ∧
      (run exInputPar producerFirst init).drained = [[[1, 2], [3, 4], [5, 6], [7, 8]]] ∧
      (run exInputPar producerFirst init).scal = 133 ∧
      Reachable exInputPar (run exInputPar twoBatches init) ∧
      Terminated (run exInputPar twoBatches init) ∧
      (run exInputPar twoBatches init).drained = [[[1, 2], [3, 4]], [[5, 6], [7, 8]]] ∧
      (run exInputPar twoBatches init).scal = 94 ∧
      ¬ ∃ f : Input → ℚ, ∀ (inp : Input) (s : State),
          Valid inp → Reachable inp s → Terminated s → s.scal = f inp := by
  have r1 := reachable_run exInputPar producerFirst init Reachable.init
  have r2 := reachable_run exInputPar twoBatches init Reachable.init
  have s1 : (run exInputPar producerFirst init).scal = 133 := by decide!
  have s2 : (run exInputPar twoBatches init).scal = 94 := by decide!
  refine ⟨by decide, r1, by decide, by decide!, s1, r2, by decide, by decide!, s2, ?_⟩
  rintro ⟨f, hf⟩
  have h1 := hf exInputPar _ (by decide) r1 (by decide)
  have h2 := hf exInputPar _ (by decide) r2 (by decide)
  rw [s1] at h1
  rw [s2, ← h1] at h2
  exact absurd h2 (by decide!)

/-! ## The harness -/

theorem sweep_cons (w : World) (p : Nat × Nat) (rest : List (Nat × Nat)) :
    sweep w (p :: rest)
      = ((runConfig w p.1 p.2).1 ++ (sweep w rest).1,
         (runConfig w p.1 p.2).2 ++ (sweep w rest).2) := rfl

theorem mem_threadCalls {N D threads : Nat} {c : Call} (hc : c ∈ threadCalls N D threads) :
    c.N = N ∧ c.D = D := by
  unfold threadCalls at hc
  split at hc
  · simp at hc
  · have := (List.mem_replicate.mp hc).2
    rw [this]
    exact ⟨rfl, rfl⟩

theorem mem_runConfig_calls {w : World} {N D : Nat} {c : Call}
    (hc : c ∈ (runConfig w N D).2) : c.N = N ∧ c.D = D := by
  unfold runConfig at hc
  split at hc
  · simp at hc
  · split at hc
    · simp at hc
    · split at hc
      · simp at hc
      · rcases List.mem_append.mp hc with h1 | h1
        · have := (List.mem_replicate.mp h1).2
          rw [this]
          exact ⟨rfl, rfl⟩
        · obtain ⟨T, _, hT⟩ := List.mem_flatMap.mp h1
          exact mem_threadCalls hT

theorem mem_sweep_calls {w : World} {pairs : List (Nat × Nat)} {c : Call}
    (hc : c ∈ (sweep w pairs).2) : ∃ p ∈ pairs, c ∈ (runConfig w p.1 p.2).2 := by
  induction pairs with
  | nil => simp [sweep] at hc
  | cons p rest ih =>
    rw [sweep_cons] at hc
    rcases List.mem_append.mp hc with h1 | h1
    · exact ⟨p, List.mem_cons_self _ _, h1⟩
    · obtain ⟨q, hq, hqc⟩ := ih h1
      exact ⟨q, List.mem_cons_of_mem _ hq, hqc⟩

theorem totalTime_eq_sum (timings : List ℚ) : totalTime timings = timings.sum := by
  unfold totalTime
  rw [foldl_add_eq_sum (fun x => x), zero_add, List.map_id']

theorem averageTime_nonneg (k : Nat) (timings : List ℚ) (h : ∀ t ∈ timings, 0 ≤ t) :
    0 ≤ averageTime k timings := by
  unfold averageTime
  rw [totalTime_eq_sum]
  exact div_nonneg (List.sum_nonneg h) (Nat.cast_nonneg k)

theorem runConfig_ok {w : World} {N D : Nat} (hok : headerOk (configInput w N D 1) = true) :
    (runConfig w N D).1
      = [LogLine.size N D (fileName N D), LogLine.threads 1,
          LogLine.time (averageTime num_tests (measured w N D 1)) 1 1]
        ++ thread_counts.flatMap
            (threadEntry w N D (averageTime num_tests (measured w N D 1)))
        ++ [LogLine.separator] := by
  obtain ⟨f, hf, hd, hn⟩ := headerOk_true_file hok
  simp only [configInput] at hf hd hn
  simp [runConfig, hf, hd, hn]

/-- C20: for a thread count `T > 1` the figures a harness reports are
`speedup = base_time / avg_time` and `efficiency = speedup / T`, with `avg_time`
the total of the timings divided by `num_tests` and `base_time` the same average
of the one-thread timings; hence `efficiency * T = speedup`.  This is the
computation of 8.cpp, 3.cpp, 4.cpp, 5.cpp, 6.cpp, 7.cpp and sechw.cpp; that of
firsthw.cpp, which guards the division by `base_time > 0`, gives the same
figures for non-negative timings.  The one-thread entry carries speedup `1` and
efficiency `1`.  In the log of 8.cpp the entries of an accepted configuration
are these figures. -/
theorem reported_speedup_and_efficiency (k : Nat) (base_timings timings : List ℚ) (T : Nat)
    (hT : 1 < T) :
    report k (averageTime k base_timings) timings T
        = (timings.sum / k, (base_timings.sum / k) / (timings.sum / k),
            (base_timings.sum / k) / (timings.sum / k) / T) ∧
      (report k (averageTime k base_timings) timings T).2.2 * T
        = (report k (averageTime k base_timings) timings T).2.1 ∧
      ((∀ t ∈ base_timings, 0 ≤ t) →
        reportGuarded k (averageTime k base_timings) timings T
            = report k (averageTime k base_timings) timings T ∧
          baselineGuarded (averageTime k base_timings) = (1, 1)) ∧
      (∀ (w : World) (N D : Nat), headerOk (configInput w N D 1) = true →
        (runConfig w N D).1
            = [LogLine.size N D (fileName N D), LogLine.threads 1,
                LogLine.time (averageTime num_tests (measured w N D 1)) 1 1]
              ++ thread_counts.flatMap
                  (threadEntry w N D (averageTime num_tests (measured w N D 1)))
              ++ [LogLine.separator] ∧
          threadEntry w N D (averageTime num_tests (measured w N D 1)) T
            = [LogLine.threads T,
                LogLine.time (averageTime num_tests (measured w N D T))
                  (averageTime num_tests (measured w N D 1)
                    / averageTime num_tests (measured w N D T))
                  (averageTime num_tests (measured w N D 1)
                    / averageTime num_tests (measured w N D T) / T)]) := by
  have hT0 : (T : ℚ) ≠ 0 := by
    have : T ≠ 0 := by omega
    exact_mod_cast this
  refine ⟨?_, ?_, ?_, ?_⟩
  · simp [report, averageTime, totalTime_eq_sum]
  · simp only [report]
    exact div_mul_cancel₀ _ hT0
  · intro hnn
    have hb := averageTime_nonneg k base_timings hnn
    rcases lt_or_eq_of_le hb with hpos | hzero
    · refine ⟨by simp [reportGuarded, report, hpos], ?_⟩
      simp [baselineGuarded, hpos, ne_of_gt hpos]
    · refine ⟨?_, ?_⟩
      · simp [reportGuarded, report, ← hzero]
      · simp [baselineGuarded, ← hzero]
  · intro w N D hok
    refine ⟨runConfig_ok hok, ?_⟩
    have hne : T ≠ 1 := by omega
    simp [threadEntry, hne, report]

theorem reported_speedup_and_efficiency_witness :
    report 3 (averageTime 3 [12, 12, 12]) [6, 6, 6] 2 = (6, 2, 1) ∧
      reportGuarded 5 (averageTime 5 [10, 10, 10, 10, 10]) [4, 4, 4, 4, 4] 5
        = (4, 5 / 2, 1 / 2) ∧
      (report 3 (averageTime 3 [12, 12, 12]) [6, 6, 6] 2).2.2 * 2
        = (report 3 (averageTime 3 [12, 12, 12]) [6, 6, 6] 2).2.1 ∧
      (runConfig exWorld 1000 50).1
        = [LogLine.size 1000 50 "vectors_1000_50.txt", LogLine.threads 1,
            LogLine.time 12 1 1,
            LogLine.threads 2, LogLine.time 6 2 1,
            LogLine.threads 4, LogLine.time 3 4 1,
            LogLine.threads 6, LogLine.time 2 6 1,
            LogLine.threads 8, LogLine.time (3 / 2) 8 1,
            LogLine.threads 12, LogLine.time 1 12 1,
            LogLine.separator] :=
  have h := reported_speedup_and_efficiency 3 [12, 12, 12] [6, 6, 6] 2 (by decide)
  ⟨by decide!, by decide!, h.2.1, by decide!⟩

/-! ## Claims C21 to C23 -/

theorem readVec_eq_pad (D : Nat) (ifs : List ℚ) :
    readVec D ifs = ((List.range D).map (fun k => ifs.getD k 0), ifs.drop D) := by
  induction D generalizing ifs with
  | zero => simp [readVec]
  | succ d ih =>
    cases ifs with
    | nil =>
      have h := ih []
      simp only [readVec, readDouble, h, List.range_succ_eq_map, List.map_cons, List.map_map]
      simp [Function.comp_def]
    | cons x rest =>
      have h := ih rest
      simp only [readVec, readDouble, h, List.range_succ_eq_map, List.map_cons, List.map_map]
      simp [Function.comp_def]

theorem readRecords_eq_padded (D n : Nat) (body : List ℚ) :
    readRecords D n body = (List.range n).map (paddedRow D body) := by
  induction n generalizing body with
  | zero => simp [readRecords]
  | succ n ih =>
    rw [readRecords, readVec_eq_pad, ih, List.range_succ_eq_map, List.map_cons, List.map_map]
    congr 1
    · simp [paddedRow]
    · apply List.map_congr_left
      intro i _
      simp only [paddedRow, Function.comp_def]
      apply List.map_congr_left
      intro k _
      simp only [List.getD_eq_getElem?_getD, List.getElem?_drop]
      congr 2
      rw [Nat.succ_mul]
      omega

theorem paddedRow_getD (D : Nat) (body : List ℚ) (i k : Nat) (hk : k < D) :
    (paddedRow D body i).getD k 0 = body.getD (i * D + k) 0 := by
  unfold paddedRow
  rw [List.getD_eq_getElem _ _ (by simpa using hk)]
  simp

/-- C21: at every reachable state every record in the shared buffer, in every
drained batch and in the consumer's batch has length exactly `D`; so for a batch
of `M` records every index the reduction loop evaluates, `local_copy[i][k]` and
`local_copy[i+1][k]` with `i < M - 1` and `k < D`, is within bounds. -/
theorem records_have_dimension (inp : Input) (s : State) (hr : Reachable inp s) :
    (∀ r ∈ s.buffer, r.length = inp.D) ∧
      (∀ b ∈ s.drained, ∀ r ∈ b, r.length = inp.D) ∧
      (∀ r ∈ s.local_copy, r.length = inp.D) ∧
      (∀ i k, i < s.local_copy.length - 1 → k < inp.D →
        i < s.local_copy.length ∧ i + 1 < s.local_copy.length ∧
          k < (s.local_copy.getD i []).length ∧
          k < (s.local_copy.getD (i + 1) []).length) := by
  have h := inv_reachable hr
  have hbuf : ∀ r ∈ s.buffer, r.length = inp.D := by
    intro r hrb
    apply inv_appended_dim h
    rw [← h.conc]
    exact List.mem_append_right _ hrb
  have hlc : ∀ r ∈ s.local_copy, r.length = inp.D := by
    intro r hrl
    have hne : s.local_copy ≠ [] := List.ne_nil_of_mem hrl
    exact inv_drained_dim h _ (h.lcDrained hne) r hrl
  refine ⟨hbuf, inv_drained_dim h, hlc, ?_⟩
  intro i k hi hk
  have h1 : i < s.local_copy.length := by omega
  have h2 : i + 1 < s.local_copy.length := by omega
  refine ⟨h1, h2, ?_, ?_⟩
  · rw [hlc _ (getD_mem_of_lt s.local_copy [] i h1)]; exact hk
  · rw [hlc _ (getD_mem_of_lt s.local_copy [] (i + 1) h2)]; exact hk

theorem records_have_dimension_witness :
    (run exInputPar atReduce init).cpc = CPc.reduce ∧
      (run exInputPar midRun init).buffer = [[5, 6]] ∧
      (∀ r ∈ (run exInputPar midRun init).buffer, r.length = exInputPar.D) ∧
      (∀ b ∈ (run exInputPar midRun init).drained, ∀ r ∈ b, r.length = exInputPar.D) ∧
      (∀ r ∈ (run exInputPar atReduce init).local_copy, r.length = exInputPar.D) :=
  have h1 := records_have_dimension exInputPar _
    (reachable_run exInputPar midRun init Reachable.init)
  have h2 := records_have_dimension exInputPar _
    (reachable_run exInputPar atReduce init Reachable.init)
  ⟨by decide, by decide!, h1.1, h1.2.1, h2.2.2.1⟩

/-- C22: when the header passes validation and the body holds fewer than
`N * D` numbers, every state in which the completion flag is set has the error
flag clear and exactly `N` appended records of length `D`, whose component
`(i, k)` is the number at position `i * D + k` of the body when there is one and
`0` when there is none; and the producer, left to run, does set the completion
flag. -/
theorem short_body_is_zero_padded (inp : Input) (hok : headerOk inp = true)
    (hshort : (bodyOf inp).length < inp.N * inp.D) (s : State) (hr : Reachable inp s)
    (hf : s.finished = true) :
    s.file_error = false ∧ s.appended.length = inp.N ∧
      (∀ r ∈ s.appended, r.length = inp.D) ∧
      s.appended = (List.range inp.N).map (paddedRow inp.D (bodyOf inp)) ∧
      (∀ i k, i < inp.N → k < inp.D → (bodyOf inp).length ≤ i * inp.D + k →
        (s.appended.getD i []).getD k 0 = 0) ∧
      (∀ i k, i < inp.N → k < inp.D →
        (s.appended.getD i []).getD k 0 = (bodyOf inp).getD (i * inp.D + k) 0) ∧
      (∃ i k, i < inp.N ∧ k < inp.D ∧ (bodyOf inp).length ≤ i * inp.D + k) ∧
      (∃ t, psteps inp (4 * inp.N + 3) init = some t ∧ t.finished = true ∧
        t.file_error = false) := by
  have h := inv_reachable hr
  have hfin : ∀ u, Reachable inp u → u.finished = true →
      u.file_error = false ∧ u.appended = readRecords inp.D inp.N (bodyOf inp) := by
    intro u hu huf
    rcases (inv_finished (inv_reachable hu) huf).2 with h1 | h1
    · rw [hok] at h1; exact Bool.noConfusion h1.2.1
    · exact ⟨h1.1, h1.2.2⟩
  obtain ⟨he, ha⟩ := hfin s hr hf
  have hpad : s.appended = (List.range inp.N).map (paddedRow inp.D (bodyOf inp)) := by
    rw [ha, readRecords_eq_padded]
  have hcomp : ∀ i k, i < inp.N → k < inp.D →
      (s.appended.getD i []).getD k 0 = (bodyOf inp).getD (i * inp.D + k) 0 := by
    intro i k hi hk
    have hrow : ((List.range inp.N).map (paddedRow inp.D (bodyOf inp))).getD i []
        = paddedRow inp.D (bodyOf inp) i := by
      simp [List.getElem?_range hi]
    rw [hpad, hrow]
    exact paddedRow_getD _ _ _ _ hk
  refine ⟨he, by rw [ha, readRecords_length], inv_appended_dim h, hpad, ?_, hcomp, ?_, ?_⟩
  · intro i k hi hk hge
    rw [hcomp i k hi hk, List.getD_eq_default _ _ hge]
  · have hN : 0 < inp.N := Nat.pos_of_ne_zero (fun h0 => by simp [h0] at hshort)
    have hD : 0 < inp.D := Nat.pos_of_ne_zero (fun h0 => by simp [h0] at hshort)
    refine ⟨inp.N - 1, inp.D - 1, by omega, by omega, ?_⟩
    have hmul : (inp.N - 1) * inp.D + inp.D = inp.N * inp.D := by
      have : (inp.N - 1 + 1) * inp.D = inp.N * inp.D := by
        rw [Nat.sub_add_cancel hN]
      rw [Nat.succ_mul] at this
      exact this
    omega
  · obtain ⟨t, ht, htf⟩ := producer_completes inp hok
    exact ⟨t, ht, htf, (hfin t (psteps_reachable _ Reachable.init ht) htf).1⟩

theorem short_body_is_zero_padded_witness :
    headerOk shortBodyInput = true ∧
      (bodyOf shortBodyInput).length < shortBodyInput.N * shortBodyInput.D ∧
      (run shortBodyInput (List.replicate 11 Tid.P) init).finished = true ∧
      (run shortBodyInput (List.replicate 11 Tid.P) init).file_error = false ∧
      (run shortBodyInput (List.replicate 11 Tid.P) init).appended = [[1, 2], [3, 0]] ∧
      (run shortBodyInput (List.replicate 11 Tid.P) init).appended.length
        = shortBodyInput.N :=
  ⟨by decide, by decide, by decide, by decide, by decide!,
    (short_body_is_zero_padded shortBodyInput (by decide) (by decide) _
      (reachable_run shortBodyInput (List.replicate 11 Tid.P) init Reachable.init)
      (by decide)).2.1⟩

theorem preCheck_iff_headerOk (w : World) (N D T : Nat) :
    preCheckAccepts w N D = true ↔ headerOk (configInput w N D T) = true := by
  unfold preCheckAccepts headerOk configInput
  cases hf : w.files (fileName N D) with
  | none => simp
  | some f =>
    by_cases hn : f.total_vectors < (N : Int)
    · have : ¬ ((N : Int) ≤ f.total_vectors) := by omega
      simp [hn, this]
    · have : (N : Int) ≤ f.total_vectors := by omega
      by_cases hd : f.vector_dim = (D : Int) <;> simp [hn, hd, this]

theorem mem_threadCalls_filename {N D threads : Nat} {c : Call}
    (hc : c ∈ threadCalls N D threads) : c.filename = fileName N D := by
  unfold threadCalls at hc
  split at hc
  · simp at hc
  · rw [(List.mem_replicate.mp hc).2]

theorem mem_runConfig_calls_accepted {w : World} {N D : Nat} {c : Call}
    (hc : c ∈ (runConfig w N D).2) :
    c.filename = fileName N D ∧ preCheckAccepts w N D = true := by
  unfold runConfig at hc
  unfold preCheckAccepts
  split at hc
  · simp at hc
  · split at hc
    · simp at hc
    · split at hc
      · simp at hc
      · rename_i hn hd
        refine ⟨?_, by simp [hn, hd]⟩
        rcases List.mem_append.mp hc with h1 | h1
        · rw [(List.mem_replicate.mp h1).2]
        · obtain ⟨T, _, hT⟩ := List.mem_flatMap.mp h1
          exact mem_threadCalls_filename hT

theorem mem_main_calls {w : World} {c : Call} (hc : c ∈ (main w).2.2) :
    ∃ p ∈ size_pairs, c ∈ (runConfig w p.1 p.2).2 := by
  unfold main at hc
  split at hc
  · simp at hc
  · split at hc
    · simp at hc
    · exact mem_sweep_calls hc

/-- C23 as stated is false.  The file `vectors_1000_50.txt` with the header
`99999999999 50` opens, declares at least `1000` records and declares dimension
`50`, so both checks should accept it.  But in `main` as in the producer the
extraction of the count fails and that of the dimension is skipped, and each
then tests its own variable that was never written: neither outcome is defined,
and nothing makes the two agree.  On a header that is no number the pre-check
of `main` rejects on the count `0` it read, while the producer tests the
dimension, which was never written. -/
theorem header_checks_undefined_on_large_count :
    hugeCountWorld.files (fileName 1000 50)
        = some { total_vectors := 99999999999, vector_dim := 50, body := [] } ∧
      preCheckAccepts hugeCountWorld 1000 50 = true ∧
      headerOk (configInput hugeCountWorld 1000 50 4) = true ∧
      readHeader (HeaderTok.number 99999999999) (HeaderTok.number 50)
        = (some 2147483647, none, true) ∧
      preCheckHeader 1000 50 (HeaderTok.number 99999999999) (HeaderTok.number 50) = none ∧
      validateHeader 1000 50 (HeaderTok.number 99999999999) (HeaderTok.number 50) = none ∧
      preCheckHeader 1000 50 HeaderTok.junk (HeaderTok.number 50)
        = some (PreCheck.insufficient 0) ∧
      validateHeader 1000 50 HeaderTok.junk (HeaderTok.number 50) = none :=
  ⟨by decide, by decide, by decide, by decide, by decide, by decide, by decide, by decide⟩

/-- C23 amended: when the header integers of every vector file are in the
range of `int`, for every `(N, D)` both checks have a defined outcome on the
file, and the header pre-check of `main` accepts the configuration if and only
if the producer's validation passes on the same file, that is, if and only if
the file opens, declares at least `N` records and declares dimension `D`; so in
every state of every call of `test_sections` that `main` makes the error flag is
false.  The two test the conditions in opposite order: on a file that fails
both, `main` logs the record count and the producer reports the dimension. -/
theorem preCheck_agrees_with_validation (w : World) (hfit : WorldFits w) (N D T : Nat) :
    (∀ f, w.files (fileName N D) = some f →
        ∃ c v, preCheckHeader N D (HeaderTok.number f.total_vectors)
            (HeaderTok.number f.vector_dim) = some c ∧
          validateHeader N D (HeaderTok.number f.total_vectors)
            (HeaderTok.number f.vector_dim) = some v ∧
          (c = PreCheck.accepted ↔ v = Verdict.read false) ∧
          (c = PreCheck.accepted ↔ preCheckAccepts w N D = true)) ∧
      (preCheckAccepts w N D = true ↔ headerOk (configInput w N D T) = true) ∧
      (preCheckAccepts w N D = true ↔ ¬ HeaderFails (configInput w N D T)) ∧
      (preCheckAccepts w N D = true ↔
        ∃ f, w.files (fileName N D) = some f ∧ (N : Int) ≤ f.total_vectors ∧
          f.vector_dim = (D : Int)) ∧
      (preCheckAccepts w N D = true ↔ (runConfig w N D).2 ≠ []) ∧
      (∀ c ∈ (main w).2.2, ∀ s, Reachable (callInput w c) s → s.file_error = false) ∧
      (∀ f, w.files (fileName N D) = some f → f.total_vectors < (N : Int) →
        f.vector_dim ≠ (D : Int) →
          (runConfig w N D).1
            = [LogLine.insufficientData N D (fileName N D) f.total_vectors,
                LogLine.separator] ∧
          pstep (configInput w N D T) init
            = some { init with ppc := PPc.setError,
                               cerr := [ErrMsg.dimMismatch f.vector_dim D] }) := by
  have h1 := preCheck_iff_headerOk w N D T
  refine ⟨?_, h1, ?_, ?_, ?_, ?_, ?_⟩
  · intro f hf
    have hff := hfit _ f hf
    have hin : (configInput w N D T).file = some f := by simp [configInput, hf]
    have hv := validate_read_iff hin hff
    have hc := preCheck_accepted_iff w N D hf hff
    simp only [configInput] at hv
    rw [preCheckHeader_fits N D f hff] at hc ⊢
    rw [validateHeader_fits N D f hff] at hv ⊢
    refine ⟨_, _, rfl, rfl, ?_, ?_⟩
    · constructor
      · intro h
        exact Option.some.inj (hv.mpr (h1.mp (hc.mp (by rw [h]))))
      · intro h
        exact Option.some.inj (hc.mpr (h1.mpr (hv.mp (by rw [h]))))
    · constructor
      · intro h
        exact hc.mp (by rw [h])
      · intro h
        exact Option.some.inj (hc.mpr h)
  · rw [h1, ← headerOk_false_iff]
    cases headerOk (configInput w N D T) <;> simp
  · rw [h1]
    constructor
    · intro hok
      obtain ⟨f, hf, hd, hn⟩ := headerOk_true_file hok
      simp only [configInput] at hf hd hn
      exact ⟨f, hf, by omega, hd⟩
    · rintro ⟨f, hf, hn, hd⟩
      simp [headerOk, configInput, hf, hn, hd]
  · constructor
    · intro hacc
      unfold preCheckAccepts at hacc
      unfold runConfig
      split at hacc
      · exact absurd hacc (by decide)
      · split at hacc
        · exact absurd hacc (by decide)
        · split at hacc
          · exact absurd hacc (by decide)
          · rename_i hn hd
            simp [hn, hd, num_tests, List.replicate]
    · intro hne
      obtain ⟨c, hc⟩ := List.exists_mem_of_ne_nil _ hne
      exact (mem_runConfig_calls_accepted hc).2
  · intro c hc s hs
    obtain ⟨p, _, hpc⟩ := mem_main_calls hc
    obtain ⟨hN, hD⟩ := mem_runConfig_calls hpc
    obtain ⟨hname, hacc⟩ := mem_runConfig_calls_accepted hpc
    have hin : callInput w c = configInput w p.1 p.2 c.num_threads := by
      simp [callInput, configInput, hN, hD, hname]
    have hok := (preCheck_iff_headerOk w p.1 p.2 c.num_threads).mp hacc
    rw [← hin] at hok
    cases hfe : s.file_error with
    | false => rfl
    | true =>
      have := (inv_error (inv_reachable hs) hfe).1
      rw [hok] at this
      exact Bool.noConfusion this
  · intro f hf hn hd
    refine ⟨by simp [runConfig, hf, hn], ?_⟩
    simp [pstep, init, configInput, hf, hd]

theorem preCheck_agrees_with_validation_witness :
    WorldFits exWorld ∧
      preCheckAccepts exWorld 1000 50 = true ∧
      headerOk (configInput exWorld 1000 50 4) = true ∧
      preCheckHeader 1000 50 (HeaderTok.number 1000) (HeaderTok.number 50)
        = some PreCheck.accepted ∧
      validateHeader 1000 50 (HeaderTok.number 1000) (HeaderTok.number 50)
        = some (Verdict.read false) ∧
      preCheckHeader 500 100 (HeaderTok.number 3) (HeaderTok.number 7)
        = some (PreCheck.insufficient 3) ∧
      validateHeader 500 100 (HeaderTok.number 3) (HeaderTok.number 7)
        = some (Verdict.dimMismatch 7) ∧
      preCheckAccepts bothFailWorld 500 100 = false ∧
      headerOk (configInput bothFailWorld 500 100 1) = false ∧
      (runConfig bothFailWorld 500 100).1
        = [LogLine.insufficientData 500 100 "vectors_500_100.txt" 3, LogLine.separator] ∧
      (pstep (configInput bothFailWorld 500 100 1) init).map (fun t => t.cerr)
        = some [ErrMsg.dimMismatch 7 100] :=
  have h := preCheck_agrees_with_validation exWorld exWorld_fits 1000 50 4
  ⟨exWorld_fits, by decide, h.2.1.mp (by decide), by decide, by decide, by decide, by decide,
    by decide, by decide, by decide!, by decide⟩

end TestSections

/-! # The kernels: folds and reductions -/

namespace Omp

theorem foldl_max_eq_fold (f : Nat → Int) (l : List Nat) (b : Int) :
    l.foldl (fun m i => max m (f i)) b = Multiset.fold max b ((l.map f : List Int) : Multiset Int) := by
  rw [Multiset.coe_fold_l, List.foldl_map]

theorem reduce_max_slices (f : Nat → Int) (slices : List (List Nat)) (S : Multiset Int) :
    slices.foldl
        (fun acc slice => max acc (slice.foldl (fun m i => max m (f i)) INT_MIN))
        (Multiset.fold max INT_MIN S)
      = Multiset.fold max INT_MIN (S + ((slices.flatten.map f : List Int) : Multiset Int)) := by
  induction slices generalizing S with
  | nil => simp
  | cons sl rest ih =>
    simp only [List.foldl_cons, List.flatten_cons, List.map_append]
    have hstep : max (Multiset.fold max INT_MIN S) (sl.foldl (fun m i => max m (f i)) INT_MIN)
        = Multiset.fold max INT_MIN (S + ((sl.map f : List Int) : Multiset Int)) := by
      rw [foldl_max_eq_fold]
      have h := Multiset.fold_add max INT_MIN INT_MIN S ((sl.map f : List Int) : Multiset Int)
      rw [max_self] at h
      exact h.symm
    rw [hstep, ih, ← Multiset.coe_add, add_assoc]

theorem reduce_max_split (f : Nat → Int) (n : Nat) (slices : List (List Nat))
    (hs : IsSplitOf n slices) :
    slices.foldl
        (fun acc slice => max acc (slice.foldl (fun m i => max m (f i)) INT_MIN)) INT_MIN
      = ((List.range n).map f).foldl max INT_MIN := by
  have h := reduce_max_slices f slices 0
  rw [Multiset.fold_zero, zero_add] at h
  rw [h, ← Multiset.coe_fold_l]
  congr 1
  exact Multiset.coe_eq_coe.mpr (hs.map f)

theorem map_range_getD {α β : Type} (g : α → β) (l : List α) (d : α) :
    (List.range l.length).map (fun i => g (l.getD i d)) = l.map g := by
  apply List.ext_getElem
  · simp
  · intro i h1 h2
    have hi : i < l.length := by simpa using h1
    simp [List.getElem?_eq_getElem hi]

theorem foldl_min_le_init (l : List Int) (v : Int) : l.foldl min v ≤ v := by
  induction l generalizing v with
  | nil => exact le_refl _
  | cons x rest ih => exact le_trans (ih (min v x)) (min_le_left v x)

theorem foldl_min_le_mem (l : List Int) (v : Int) : ∀ x ∈ l, l.foldl min v ≤ x := by
  induction l generalizing v with
  | nil => intro x hx; exact absurd hx (List.not_mem_nil x)
  | cons y rest ih =>
    intro x hx
    rcases List.mem_cons.mp hx with h | h
    · rw [h]; exact le_trans (foldl_min_le_init rest (min v y)) (min_le_right v y)
    · exact ih (min v y) x h

theorem foldl_min_mem (l : List Int) (v : Int) : l.foldl min v = v ∨ l.foldl min v ∈ l := by
  induction l generalizing v with
  | nil => exact Or.inl rfl
  | cons y rest ih =>
    rcases ih (min v y) with h | h
    · rcases min_choice v y with hm | hm
      · exact Or.inl (by rw [List.foldl_cons, h, hm])
      · exact Or.inr (by rw [List.foldl_cons, h, hm]; exact List.mem_cons_self _ _)
    · exact Or.inr (List.mem_cons_of_mem _ h)

theorem foldl_min_ge (l : List Int) (v c : Int) (hv : c ≤ v) (hl : ∀ x ∈ l, c ≤ x) :
    c ≤ l.foldl min v := by
  rcases foldl_min_mem l v with h | h
  · rw [h]; exact hv
  · exact hl _ h

theorem le_foldl_max_init (l : List Int) (v : Int) : v ≤ l.foldl max v := by
  induction l generalizing v with
  | nil => exact le_refl _
  | cons x rest ih => exact le_trans (le_max_left v x) (ih (max v x))

theorem le_foldl_max_mem (l : List Int) (v : Int) : ∀ x ∈ l, x ≤ l.foldl max v := by
  induction l generalizing v with
  | nil => intro x hx; exact absurd hx (List.not_mem_nil x)
  | cons y rest ih =>
    intro x hx
    rcases List.mem_cons.mp hx with h | h
    · rw [h]; exact le_trans (le_max_right v y) (le_foldl_max_init rest (max v y))
    · exact ih (max v y) x h

theorem foldl_max_mem (l : List Int) (v : Int) : l.foldl max v = v ∨ l.foldl max v ∈ l := by
  induction l generalizing v with
  | nil => exact Or.inl rfl
  | cons y rest ih =>
    rcases ih (max v y) with h | h
    · rcases max_choice v y with hm | hm
      · exact Or.inl (by rw [List.foldl_cons, h, hm])
      · exact Or.inr (by rw [List.foldl_cons, h, hm]; exact List.mem_cons_self _ _)
    · exact Or.inr (List.mem_cons_of_mem _ h)

theorem foldl_max_le (l : List Int) (v c : Int) (hv : v ≤ c) (hl : ∀ x ∈ l, x ≤ c) :
    l.foldl max v ≤ c := by
  rcases foldl_max_mem l v with h | h
  · rw [h]; exact hv
  · exact hl _ h

theorem foldl_min_sentinel (vec : List Int) (h : ∀ v ∈ vec, v ≤ INT_MAX) :
    vec.foldl min INT_MAX = minOf vec := by
  cases vec with
  | nil => rfl
  | cons v rest =>
    simp only [List.foldl_cons, minOf]
    rw [min_eq_right (h v (List.mem_cons_self _ _))]

theorem foldl_max_sentinel (vec : List Int) (h : ∀ v ∈ vec, INT_MIN ≤ v) :
    vec.foldl max INT_MIN = maxOf vec := by
  cases vec with
  | nil => rfl
  | cons v rest =>
    simp only [List.foldl_cons, maxOf]
    rw [max_eq_right (h v (List.mem_cons_self _ _))]

theorem minOf_eq_minOfRow (row : List Int) : minOf row = minOfRow row := rfl

theorem maxOfMins_eq (matrix : List (List Int)) :
    maxOfMins matrix = maxOf (matrix.map minOfRow) := by
  unfold maxOfMins maxOf
  cases matrix.map minOfRow <;> rfl

theorem minOfRow_range (row : List Int) (h : ∀ v ∈ row, InIntRange v) :
    InIntRange (minOfRow row) := by
  cases row with
  | nil => exact ⟨by decide, by decide⟩
  | cons v rest =>
    have hv := h v (List.mem_cons_self _ _)
    constructor
    · exact foldl_min_ge rest v INT_MIN hv.1
        (fun x hx => (h x (List.mem_cons_of_mem _ hx)).1)
    · exact le_trans (foldl_min_le_init rest v) hv.2

end Omp

namespace Omp

theorem minOf_spec (vec : List Int) (hne : vec ≠ []) :
    minOf vec ∈ vec ∧ ∀ v ∈ vec, minOf vec ≤ v := by
  cases vec with
  | nil => exact absurd rfl hne
  | cons x rest =>
    simp only [minOf]
    constructor
    · rcases foldl_min_mem rest x with h | h
      · rw [h]; exact List.mem_cons_self _ _
      · exact List.mem_cons_of_mem _ h
    · intro v hv
      rcases List.mem_cons.mp hv with h | h
      · rw [h]; exact foldl_min_le_init rest x
      · exact foldl_min_le_mem rest x v h

theorem maxOf_spec (vec : List Int) (hne : vec ≠ []) :
    maxOf vec ∈ vec ∧ ∀ v ∈ vec, v ≤ maxOf vec := by
  cases vec with
  | nil => exact absurd rfl hne
  | cons x rest =>
    simp only [maxOf]
    constructor
    · rcases foldl_max_mem rest x with h | h
      · rw [h]; exact List.mem_cons_self _ _
      · exact List.mem_cons_of_mem _ h
    · intro v hv
      rcases List.mem_cons.mp hv with h | h
      · rw [h]; exact le_foldl_max_init rest x
      · exact le_foldl_max_mem rest x v h

theorem if_lt_eq_min (m v : Int) : (if v < m then v else m) = min m v := by
  by_cases h : v < m
  · rw [if_pos h, min_eq_right (le_of_lt h)]
  · rw [if_neg h, min_eq_left (not_lt.mp h)]

theorem if_gt_eq_max (m v : Int) : (if v > m then v else m) = max m v := by
  by_cases h : v > m
  · rw [if_pos h, max_eq_right (le_of_lt h)]
  · rw [if_neg h, max_eq_left (not_lt.mp h)]

theorem max_of_row_minima (matrix : List (List Int))
    (hrange : ∀ row ∈ matrix, ∀ v ∈ row, InIntRange v) (n : Nat) (hn : n = matrix.length)
    (slices : List (List Nat)) (hs : IsSplitOf n slices) :
    slices.foldl
        (fun acc slice =>
          max acc (slice.foldl (fun m i => max m ((matrix.getD i []).foldl min INT_MAX)) INT_MIN))
        INT_MIN
      = maxOfMins matrix := by
  rw [reduce_max_split (fun i => (matrix.getD i []).foldl min INT_MAX) n slices hs, hn,
    map_range_getD (fun row => row.foldl min INT_MAX) matrix [], maxOfMins_eq]
  have hmap : matrix.map (fun row => row.foldl min INT_MAX) = matrix.map minOfRow := by
    apply List.map_congr_left
    intro row hrow
    exact foldl_min_sentinel row (fun v hv => (hrange row hrow v hv).2)
  rw [hmap]
  apply foldl_max_sentinel
  intro m hm
  obtain ⟨row, hrow, hrm⟩ := List.mem_map.mp hm
  rw [← hrm]
  exact (minOfRow_range row (hrange row hrow)).1

end Omp

namespace Cpp4

open Omp

end Cpp4

namespace Cpp5

open Omp

theorem minInRow5_eq_foldl (row : List Int) : minInRow row = row.foldl min INT_MAX := by
  unfold minInRow
  congr 1
  funext m v
  exact if_lt_eq_min m v

theorem rowStep5_eq_max (matrix : List (List Int)) :
    rowStep matrix = fun m i => max m ((matrix.getD i []).foldl min INT_MAX) := by
  funext m i
  simp only [rowStep, minInRow5_eq_foldl]
  exact if_gt_eq_max m _

theorem compute5_eq_maxOfMins (matrix : List (List Int))
    (hrange : ∀ row ∈ matrix, ∀ v ∈ row, InIntRange v) (num_threads : Nat)
    (schedule_str : String) (omp : omp_sched_t × Nat → Nat → Nat → List (List Nat))
    (hs : IsSplitOf matrix.length (omp (scheduleOf schedule_str) num_threads matrix.length)) :
    compute_max_of_mins matrix num_threads schedule_str omp = maxOfMins matrix := by
  unfold compute_max_of_mins
  rw [rowStep5_eq_max]
  exact max_of_row_minima matrix hrange matrix.length rfl _ hs

end Cpp5

namespace Kernels

open Omp

end Kernels

namespace FirstHw

open Omp

end FirstHw

namespace Kernels

open Omp

end Kernels

namespace SecHw

open Omp

theorem accumulate_some (a b : List Int) (r : Int) (i : Nat)
    (hp : InIntRange (a.getD i 0 * b.getD i 0))
    (hr : InIntRange (r + a.getD i 0 * b.getD i 0)) :
    accumulate a b (some r) i = some (r + a.getD i 0 * b.getD i 0) := by
  unfold accumulate mulInt
  rw [if_pos hp]
  show addInt r (a.getD i 0 * b.getD i 0) = _
  unfold addInt
  rw [if_pos hr]

theorem sum_map_nonneg (f : Nat → Int) (l : List Nat) (h : ∀ i ∈ l, 0 ≤ f i) :
    0 ≤ (l.map f).sum := by
  apply List.sum_nonneg
  intro x hx
  obtain ⟨i, hi, hix⟩ := List.mem_map.mp hx
  rw [← hix]
  exact h i hi

theorem foldl_accumulate (a b : List Int) (l : List Nat) (r : Int)
    (hterm : ∀ i ∈ l, 0 ≤ a.getD i 0 * b.getD i 0) (hr : 0 ≤ r)
    (htot : r + (l.map (fun i => a.getD i 0 * b.getD i 0)).sum ≤ INT_MAX) :
    l.foldl (accumulate a b) (some r)
      = some (r + (l.map (fun i => a.getD i 0 * b.getD i 0)).sum) := by
  induction l generalizing r with
  | nil => simp
  | cons i rest ih =>
    have hi := hterm i (List.mem_cons_self _ _)
    have hrest := sum_map_nonneg (fun i => a.getD i 0 * b.getD i 0) rest
      (fun j hj => hterm j (List.mem_cons_of_mem _ hj))
    simp only [List.map_cons, List.sum_cons] at htot
    have hmin : INT_MIN ≤ 0 := by decide
    have hp : InIntRange (a.getD i 0 * b.getD i 0) := ⟨le_trans hmin hi, by omega⟩
    have hsum : InIntRange (r + a.getD i 0 * b.getD i 0) :=
      ⟨le_trans hmin (by omega), by omega⟩
    rw [List.foldl_cons, accumulate_some a b r i hp hsum,
      ih (r + a.getD i 0 * b.getD i 0) (fun j hj => hterm j (List.mem_cons_of_mem _ hj))
        (by omega) (by omega)]
    simp only [List.map_cons, List.sum_cons]
    congr 1
    ring

theorem foldl_accumulate_slices (a b : List Int) (slices : List (List Nat)) (r : Int)
    (hterm : ∀ sl ∈ slices, ∀ i ∈ sl, 0 ≤ a.getD i 0 * b.getD i 0) (hr : 0 ≤ r)
    (htot : r + (slices.flatten.map (fun i => a.getD i 0 * b.getD i 0)).sum ≤ INT_MAX) :
    slices.foldl
        (fun result slice =>
          match result, slice.foldl (accumulate a b) (some 0) with
          | some r, some p => addInt r p
          | _, _ => none)
        (some r)
      = some (r + (slices.flatten.map (fun i => a.getD i 0 * b.getD i 0)).sum) := by
  induction slices generalizing r with
  | nil => simp
  | cons sl rest ih =>
    have hsl := sum_map_nonneg (fun i => a.getD i 0 * b.getD i 0) sl
      (hterm sl (List.mem_cons_self _ _))
    have hrest := sum_map_nonneg (fun i => a.getD i 0 * b.getD i 0) rest.flatten
      (fun j hj => by
        obtain ⟨s2, hs2, hj2⟩ := List.mem_flatten.mp hj
        exact hterm s2 (List.mem_cons_of_mem _ hs2) j hj2)
    simp only [List.flatten_cons, List.map_append, List.sum_append] at htot
    have hmin : INT_MIN ≤ 0 := by decide
    have hpriv := foldl_accumulate a b sl 0 (hterm sl (List.mem_cons_self _ _))
      (le_refl 0) (by omega)
    rw [zero_add] at hpriv
    have hadd : InIntRange (r + (sl.map (fun i => a.getD i 0 * b.getD i 0)).sum) :=
      ⟨le_trans hmin (by omega), by omega⟩
    have hstep : addInt r (sl.map (fun i => a.getD i 0 * b.getD i 0)).sum
        = some (r + (sl.map (fun i => a.getD i 0 * b.getD i 0)).sum) := by
      unfold addInt
      rw [if_pos hadd]
    rw [List.foldl_cons, hpriv]
    change List.foldl _ (addInt r (sl.map (fun i => a.getD i 0 * b.getD i 0)).sum) rest = _
    rw [hstep,
      ih _ (fun s2 hs2 => hterm s2 (List.mem_cons_of_mem _ hs2)) (by omega) (by omega)]
    simp only [List.flatten_cons, List.map_append, List.sum_append]
    congr 1
    ring

theorem sum_le_length_mul (l : List Int) (c : Int) (h : ∀ x ∈ l, x ≤ c) :
    l.sum ≤ l.length * c := by
  induction l with
  | nil => simp
  | cons x rest ih =>
    have hx := h x (List.mem_cons_self _ _)
    have hr := ih (fun y hy => h y (List.mem_cons_of_mem _ hy))
    simp only [List.sum_cons, List.length_cons, Nat.cast_add, Nat.cast_one]
    linarith

theorem term_bounds (a b : List Int) (hlen : a.length ≤ b.length)
    (ha : ∀ x ∈ a, 0 ≤ x ∧ x ≤ 1000) (hb : ∀ y ∈ b, 0 ≤ y ∧ y ≤ 1000) (i : Nat)
    (hi : i < a.length) :
    0 ≤ a.getD i 0 * b.getD i 0 ∧ a.getD i 0 * b.getD i 0 ≤ 1000000 := by
  have hib : i < b.length := by omega
  have hx := ha (a.getD i 0) (by rw [List.getD_eq_getElem a 0 hi]; exact List.getElem_mem hi)
  have hy := hb (b.getD i 0) (by rw [List.getD_eq_getElem b 0 hib]; exact List.getElem_mem hib)
  constructor
  · exact mul_nonneg hx.1 hy.1
  · nlinarith [hx.1, hx.2, hy.1, hy.2]

theorem exactDot_eq_sum (a b : List Int) (hlen : a.length ≤ b.length) :
    exactDot a b = ((List.range a.length).map (fun i => a.getD i 0 * b.getD i 0)).sum := by
  unfold exactDot
  induction a generalizing b with
  | nil => simp
  | cons x rest ih =>
    cases b with
    | nil => simp at hlen
    | cons y rb =>
      have hl : rest.length ≤ rb.length := by simpa using hlen
      simp only [List.length_cons, List.take_succ_cons, List.zipWith_cons_cons, List.sum_cons,
        List.range_succ_eq_map, List.map_cons, List.map_map, ih rb hl]
      simp [Function.comp_def]

theorem foldl_accumulate_none (a b : List Int) (l : List Nat) :
    l.foldl (accumulate a b) none = none := by
  induction l with
  | nil => rfl
  | cons i rest ih => exact ih

theorem foldl_accumulate_overflow (a b : List Int) (l : List Nat) (r : Int)
    (hterm : ∀ i ∈ l, 0 ≤ a.getD i 0 * b.getD i 0 ∧ a.getD i 0 * b.getD i 0 ≤ INT_MAX)
    (hr : 0 ≤ r) (hr2 : r ≤ INT_MAX)
    (htot : INT_MAX < r + (l.map (fun i => a.getD i 0 * b.getD i 0)).sum) :
    l.foldl (accumulate a b) (some r) = none := by
  induction l generalizing r with
  | nil =>
    simp only [List.map_nil, List.sum_nil, add_zero] at htot
    exact absurd hr2 (not_le.mpr htot)
  | cons i rest ih =>
    have hi := hterm i (List.mem_cons_self _ _)
    have hmin : INT_MIN ≤ 0 := by decide
    have hp : InIntRange (a.getD i 0 * b.getD i 0) := ⟨le_trans hmin hi.1, hi.2⟩
    simp only [List.map_cons, List.sum_cons] at htot
    by_cases hfit : r + a.getD i 0 * b.getD i 0 ≤ INT_MAX
    · have hsum : InIntRange (r + a.getD i 0 * b.getD i 0) :=
        ⟨le_trans hmin (by omega), hfit⟩
      rw [List.foldl_cons, accumulate_some a b r i hp hsum]
      exact ih (r + a.getD i 0 * b.getD i 0)
        (fun j hj => hterm j (List.mem_cons_of_mem _ hj)) (by omega) hfit (by omega)
    · have hstep : accumulate a b (some r) i = none := by
        unfold accumulate mulInt
        rw [if_pos hp]
        show addInt r (a.getD i 0 * b.getD i 0) = _
        unfold addInt
        rw [if_neg (fun h => hfit h.2)]
      rw [List.foldl_cons, hstep]
      exact foldl_accumulate_none a b rest

theorem exactDot_replicate (n : Nat) (c : Int) :
    exactDot (List.replicate n c) (List.replicate n c) = n * (c * c) := by
  unfold exactDot
  simp [List.take_replicate, List.zipWith_replicate, List.sum_replicate]

theorem single_slice_overflow (a b : List Int) (num_threads : Nat)
    (h : (List.range a.length).foldl (accumulate a b) (some 0) = none) :
    scalar_production a b num_threads (fun _ n => [List.range n]) = none := by
  unfold scalar_production
  simp only [List.foldl_cons, List.foldl_nil]
  rw [h]

end SecHw

namespace Kernels

open Omp

/-- C26: in `scalar_production`, when `b` is at least as long as `a`, all
entries of `a` and `b` lie in `[0, 1000]` and `a` has at most `2147` elements,
no `int` operation overflows, for any thread count and any distribution of the
iterations, and `result` ends as the exact dot product of `a` with the first
`a.size()` entries of `b`.  The bound is tight: with `2148` elements all equal
to `1000` the exact dot product is `2148000000`, above `INT_MAX`, and the
accumulator overflows. -/
theorem scalar_production_is_exact (a b : List Int) (hlen : a.length ≤ b.length)
    (ha : ∀ x ∈ a, 0 ≤ x ∧ x ≤ 1000) (hb : ∀ y ∈ b, 0 ≤ y ∧ y ≤ 1000)
    (hsize : a.length ≤ 2147) (num_threads : Nat) (omp : Nat → Nat → List (List Nat))
    (hs : IsSplitOf a.length (omp num_threads a.length)) :
    SecHw.scalar_production a b num_threads omp = some (SecHw.exactDot a b) ∧
      InIntRange (SecHw.exactDot a b) ∧
      SecHw.exactDot (List.replicate 2148 1000) (List.replicate 2148 1000) = 2148000000 ∧
      INT_MAX < SecHw.exactDot (List.replicate 2148 1000) (List.replicate 2148 1000) ∧
      SecHw.scalar_production (List.replicate 2148 1000) (List.replicate 2148 1000) 1
        (fun _ n => [List.range n]) = none := by
  have hmem : ∀ i ∈ (omp num_threads a.length).flatten, i < a.length := by
    intro i hi
    exact List.mem_range.mp (hs.mem_iff.mp hi)
  have hterm : ∀ sl ∈ omp num_threads a.length, ∀ i ∈ sl,
      0 ≤ a.getD i 0 * b.getD i 0 := by
    intro sl hsl i hi
    exact (SecHw.term_bounds a b hlen ha hb i
      (hmem i (List.mem_flatten.mpr ⟨sl, hsl, hi⟩))).1
  have hsum : ((omp num_threads a.length).flatten.map
      (fun i => a.getD i 0 * b.getD i 0)).sum = SecHw.exactDot a b := by
    rw [SecHw.exactDot_eq_sum a b hlen]
    exact (hs.map _).sum_eq
  have hbound : SecHw.exactDot a b ≤ 2147000000 := by
    rw [SecHw.exactDot_eq_sum a b hlen]
    have h1 := SecHw.sum_le_length_mul
      ((List.range a.length).map (fun i => a.getD i 0 * b.getD i 0)) 1000000
      (by
        intro x hx
        obtain ⟨i, hi, hix⟩ := List.mem_map.mp hx
        rw [← hix]
        exact (SecHw.term_bounds a b hlen ha hb i (List.mem_range.mp hi)).2)
    simp only [List.length_map, List.length_range] at h1
    have h2 : (a.length : Int) ≤ 2147 := by exact_mod_cast hsize
    linarith
  have hnonneg : 0 ≤ SecHw.exactDot a b := by
    rw [SecHw.exactDot_eq_sum a b hlen]
    exact SecHw.sum_map_nonneg _ _
      (fun i hi => (SecHw.term_bounds a b hlen ha hb i (List.mem_range.mp hi)).1)
  have hmax : (2147000000 : Int) ≤ INT_MAX := by decide
  have hmin : INT_MIN ≤ 0 := by decide
  have hbig : SecHw.exactDot (List.replicate 2148 1000) (List.replicate 2148 1000)
      = 2148000000 := by
    rw [SecHw.exactDot_replicate]
    norm_num
  have hrep : ∀ x ∈ List.replicate 2148 (1000 : Int), 0 ≤ x ∧ x ≤ 1000 := by
    intro x hx
    rw [List.eq_of_mem_replicate hx]
    exact ⟨by decide, by decide⟩
  have hlen2 : (List.replicate 2148 (1000 : Int)).length = 2148 := List.length_replicate _ _
  have hover : (List.range 2148).foldl
      (SecHw.accumulate (List.replicate 2148 1000) (List.replicate 2148 1000)) (some 0)
        = none := by
    apply SecHw.foldl_accumulate_overflow _ _ _ 0 _ (le_refl 0) (by decide)
    · have h := SecHw.exactDot_eq_sum (List.replicate 2148 1000) (List.replicate 2148 1000)
        (le_refl _)
      rw [hlen2, hbig] at h
      rw [← h, zero_add]
      decide
    · intro i hi
      have h := SecHw.term_bounds (List.replicate 2148 1000) (List.replicate 2148 1000)
        (le_refl _) hrep hrep i (by rw [hlen2]; exact List.mem_range.mp hi)
      exact ⟨h.1, le_trans h.2 (by decide)⟩
  refine ⟨?_, ⟨le_trans hmin hnonneg, le_trans hbound hmax⟩, hbig, by rw [hbig]; decide, ?_⟩
  · unfold SecHw.scalar_production
    rw [SecHw.foldl_accumulate_slices a b _ 0 hterm (le_refl 0) (by rw [hsum]; linarith),
      hsum, zero_add]
  · apply SecHw.single_slice_overflow
    rw [hlen2]
    exact hover

theorem scalar_production_is_exact_witness :
    SecHw.scalar_production [1000, 2, 0, 7] [1000, 3, 9, 1, 5] 2 roundRobin = some 1000013 ∧
      SecHw.exactDot [1000, 2, 0, 7] [1000, 3, 9, 1, 5] = 1000013 ∧
      SecHw.scalar_production [1000, 2, 0, 7] [1000, 3, 9, 1, 5] 4 staticBlocks
        = some 1000013 :=
  have h := scalar_production_is_exact [1000, 2, 0, 7] [1000, 3, 9, 1, 5] (by decide)
    (by decide) (by decide) (by decide) 2 roundRobin (by unfold IsSplitOf; decide)
  ⟨h.1.trans (by decide), by decide, by decide⟩

end Kernels

namespace Cpp5

open Omp

theorem fillRow_succ (gen : Nat → Int) (row : List Int) (first count drawn : Nat) :
    fillRow gen row first (count + 1) drawn
      = (fillRow gen row first count drawn).set (first + count) (gen (drawn + count)) := by
  unfold fillRow
  rw [List.range_succ, List.foldl_append]
  rfl

theorem fillRow_length (gen : Nat → Int) (row : List Int) (first count drawn : Nat) :
    (fillRow gen row first count drawn).length = row.length := by
  induction count with
  | zero => rfl
  | succ c ih => rw [fillRow_succ, List.length_set, ih]

theorem fillRow_getD (gen : Nat → Int) (row : List Int) (first count drawn j : Nat)
    (hj : j < row.length) :
    (fillRow gen row first count drawn).getD j 0
      = if first ≤ j ∧ j < first + count then gen (drawn + (j - first)) else row.getD j 0 := by
  induction count with
  | zero =>
    have h : ¬ (first ≤ j ∧ j < first + 0) := by omega
    rw [if_neg h]
    rfl
  | succ c ih =>
    have hlen := fillRow_length gen row first c drawn
    rw [fillRow_succ, List.getD_eq_getElem?_getD, List.getElem?_set]
    by_cases hjc : first + c = j
    · have h : first ≤ j ∧ j < first + (c + 1) := by omega
      have hc : j - first = c := by omega
      rw [if_pos hjc, if_pos h, if_pos (by omega), hc]
      rfl
    · rw [if_neg hjc, ← List.getD_eq_getElem?_getD, ih]
      by_cases h : first ≤ j ∧ j < first + c
      · rw [if_pos h, if_pos (by omega)]
      · rw [if_neg h, if_neg (by omega)]

theorem toInt32_eq (x : Nat) (h : (x : Int) ≤ INT_MAX) : toInt32 x = x := by
  unfold toInt32
  unfold INT_MAX at h
  omega

theorem bandedRow_some (n : Nat) (k : Int) (gen : Nat → Int) (mat : List (List Int))
    (drawn i : Nat) (hi : i < n) (hn : (n : Int) ≤ INT_MAX) (hk : 0 ≤ k)
    (hfit : (n : Int) - 1 + k ≤ INT_MAX) :
    bandedRow n k gen (some (mat, drawn)) i
      = some (mat.set i
          (fillRow gen (mat.getD i []) (max 0 ((i : Int) - k)).toNat
            (min ((n : Int) - 1) (i + k) - max 0 ((i : Int) - k) + 1).toNat drawn),
        drawn + (min ((n : Int) - 1) (i + k) - max 0 ((i : Int) - k) + 1).toNat) := by
  have hi2 : (i : Int) ≤ INT_MAX := by omega
  have h1 : InIntRange ((i : Int) - k) := by
    unfold InIntRange INT_MIN; unfold INT_MAX at *; omega
  have h2 : InIntRange ((n : Int) - 1) := by
    unfold InIntRange INT_MIN; unfold INT_MAX at *; omega
  have h3 : InIntRange ((i : Int) + k) := by
    unfold InIntRange INT_MIN; unfold INT_MAX at *; omega
  have e1 : subInt (toInt32 i) k = some ((i : Int) - k) := by
    rw [toInt32_eq i hi2]
    unfold subInt
    rw [if_pos h1]
  have e2 : subInt (toInt32 n) 1 = some ((n : Int) - 1) := by
    rw [toInt32_eq n hn]
    unfold subInt
    rw [if_pos h2]
  have e3 : addInt (toInt32 i) k = some ((i : Int) + k) := by
    rw [toInt32_eq i hi2]
    unfold addInt
    rw [if_pos h3]
  unfold bandedRow
  simp only [e1, e2, e3, Option.some_bind]

theorem banded_rows (n : Nat) (k : Int) (gen : Nat → Int) (hn : (n : Int) ≤ INT_MAX)
    (hk : 0 ≤ k) (hfit : (n : Int) - 1 + k ≤ INT_MAX) (m : Nat) (hm : m ≤ n) :
    ∃ mat drawn,
      (List.range m).foldl (bandedRow n k gen)
          (some (List.replicate n (List.replicate n INT_MAX), 0)) = some (mat, drawn) ∧
        mat.length = n ∧
        ∀ i, i < n →
          (i < m → ∃ d, mat.getD i [] = fillRow gen (List.replicate n INT_MAX)
              (max 0 ((i : Int) - k)).toNat
              (min ((n : Int) - 1) (i + k) - max 0 ((i : Int) - k) + 1).toNat d) ∧
          (m ≤ i → mat.getD i [] = List.replicate n INT_MAX) := by
  induction m with
  | zero =>
    refine ⟨_, _, rfl, List.length_replicate _ _, ?_⟩
    intro i hi
    refine ⟨fun h => absurd h (Nat.not_lt_zero i), fun _ => ?_⟩
    rw [List.getD_eq_getElem _ _ (by rw [List.length_replicate]; exact hi),
      List.getElem_replicate]
  | succ m ih =>
    obtain ⟨mat, drawn, hfold, hlen, hrows⟩ := ih (by omega)
    have hmn : m < n := by omega
    rw [List.range_succ, List.foldl_append, hfold]
    rw [List.foldl_cons, List.foldl_nil]
    rw [bandedRow_some n k gen mat drawn m hmn hn hk hfit]
    refine ⟨_, _, rfl, by rw [List.length_set, hlen], ?_⟩
    intro i hi
    rw [List.getD_eq_getElem?_getD, List.getElem?_set]
    by_cases him : m = i
    · rw [if_pos him, if_pos (by rw [hlen]; exact hmn), ← him]
      refine ⟨fun _ => ⟨drawn, ?_⟩, fun h => absurd h (by omega)⟩
      rw [(hrows m hmn).2 (le_refl m)]
      rfl
    · rw [if_neg him, ← List.getD_eq_getElem?_getD]
      exact ⟨fun h => (hrows i hi).1 (by omega), fun h => (hrows i hi).2 (by omega)⟩

theorem lower_rows (n : Nat) (gen : Nat → Int) (m : Nat) (hm : m ≤ n) :
    ∃ mat drawn,
      (List.range m).foldl (lowerRow gen)
          (List.replicate n (List.replicate n INT_MAX), 0) = (mat, drawn) ∧
        mat.length = n ∧
        ∀ i, i < n →
          (i < m → ∃ d, mat.getD i [] = fillRow gen (List.replicate n INT_MAX) 0 (i + 1) d) ∧
          (m ≤ i → mat.getD i [] = List.replicate n INT_MAX) := by
  induction m with
  | zero =>
    refine ⟨_, _, rfl, List.length_replicate _ _, ?_⟩
    intro i hi
    refine ⟨fun h => absurd h (Nat.not_lt_zero i), fun _ => ?_⟩
    rw [List.getD_eq_getElem _ _ (by rw [List.length_replicate]; exact hi),
      List.getElem_replicate]
  | succ m ih =>
    obtain ⟨mat, drawn, hfold, hlen, hrows⟩ := ih (by omega)
    have hmn : m < n := by omega
    rw [List.range_succ, List.foldl_append, hfold]
    rw [List.foldl_cons, List.foldl_nil]
    unfold lowerRow
    dsimp only
    refine ⟨_, _, rfl, by rw [List.length_set, hlen], ?_⟩
    intro i hi
    rw [List.getD_eq_getElem?_getD, List.getElem?_set]
    by_cases him : m = i
    · rw [if_pos him, if_pos (by rw [hlen]; exact hmn), ← him]
      refine ⟨fun _ => ⟨drawn, ?_⟩, fun h => absurd h (by omega)⟩
      rw [(hrows m hmn).2 (le_refl m)]
      rfl
    · rw [if_neg him, ← List.getD_eq_getElem?_getD]
      exact ⟨fun h => (hrows i hi).1 (by omega), fun h => (hrows i hi).2 (by omega)⟩

theorem filled_entry (gen : Nat → Int) (n first count d j : Nat) (hj : j < n) :
    (fillRow gen (List.replicate n INT_MAX) first count d).getD j 0
      = if first ≤ j ∧ j < first + count then gen (d + (j - first)) else INT_MAX := by
  rw [fillRow_getD gen _ first count d j (by rw [List.length_replicate]; exact hj),
    List.getD_eq_getElem _ _ (by rw [List.length_replicate]; exact hj), List.getElem_replicate]

theorem filled_matrix (gen : Nat → Int) (hgen : ∀ t, -10000 ≤ gen t ∧ gen t ≤ 10000)
    (n : Nat) (hn : 1 ≤ n) (mat : List (List Int)) (hlen : mat.length = n)
    (first count : Nat → Nat)
    (hrows : ∀ i, i < n → ∃ d, mat.getD i []
      = fillRow gen (List.replicate n INT_MAX) (first i) (count i) d)
    (hdiag : ∀ i, i < n → first i ≤ i ∧ i < first i + count i) :
    (∀ row ∈ mat, row.length = n) ∧
      (∀ i j, i < n → j < n →
        (first i ≤ j ∧ j < first i + count i → ∃ t, (mat.getD i []).getD j 0 = gen t) ∧
        (¬ (first i ≤ j ∧ j < first i + count i) → (mat.getD i []).getD j 0 = INT_MAX)) ∧
      (∀ row ∈ mat, ∀ v ∈ row, InIntRange v) ∧
      (∀ row ∈ mat, -10000 ≤ minOfRow row ∧ minOfRow row ≤ 10000) ∧
      (-10000 ≤ maxOfMins mat ∧ maxOfMins mat ≤ 10000) := by
  have hrow : ∀ row ∈ mat, ∃ i, i < n ∧ mat.getD i [] = row := by
    intro row hr
    obtain ⟨i, hi, hir⟩ := List.mem_iff_getElem.mp hr
    exact ⟨i, hlen ▸ hi, by rw [List.getD_eq_getElem _ _ hi, hir]⟩
  have hrowlen : ∀ i, i < n → (mat.getD i []).length = n := by
    intro i hi
    obtain ⟨d, hd⟩ := hrows i hi
    rw [hd, fillRow_length, List.length_replicate]
  have hentry : ∀ i j, i < n → j < n →
      (first i ≤ j ∧ j < first i + count i → ∃ t, (mat.getD i []).getD j 0 = gen t) ∧
      (¬ (first i ≤ j ∧ j < first i + count i) → (mat.getD i []).getD j 0 = INT_MAX) := by
    intro i j hi hj
    obtain ⟨d, hd⟩ := hrows i hi
    rw [hd, filled_entry gen n _ _ d j hj]
    constructor
    · intro h
      exact ⟨_, by rw [if_pos h]⟩
    · intro h
      rw [if_neg h]
  have hval : ∀ i, i < n → ∀ v ∈ mat.getD i [], v = INT_MAX ∨ ∃ t, v = gen t := by
    intro i hi v hv
    obtain ⟨j, hj, hjv⟩ := List.mem_iff_getElem.mp hv
    have hjn : j < n := by rw [← hrowlen i hi]; exact hj
    have he := hentry i j hi hjn
    rw [List.getD_eq_getElem _ _ hj, hjv] at he
    by_cases h : first i ≤ j ∧ j < first i + count i
    · exact Or.inr (he.1 h)
    · exact Or.inl (he.2 h)
  have hmin : ∀ i, i < n →
      -10000 ≤ minOfRow (mat.getD i []) ∧ minOfRow (mat.getD i []) ≤ 10000 := by
    intro i hi
    have hne : mat.getD i [] ≠ [] := by
      intro h
      have h2 := hrowlen i hi
      rw [h] at h2
      have h3 : ([] : List Int).length = 0 := rfl
      omega
    obtain ⟨hmem, hle⟩ := minOf_spec (mat.getD i []) hne
    rw [minOf_eq_minOfRow] at hmem hle
    constructor
    · rcases hval i hi _ hmem with h | ⟨t, h⟩
      · rw [h]; decide
      · rw [h]; exact (hgen t).1
    · have hii : i < (mat.getD i []).length := by rw [hrowlen i hi]; exact hi
      obtain ⟨t, ht⟩ := (hentry i i hi hi).1 (hdiag i hi)
      have h1 := hle ((mat.getD i []).getD i 0)
        (by rw [List.getD_eq_getElem _ _ hii]; exact List.getElem_mem hii)
      rw [ht] at h1
      exact le_trans h1 (hgen t).2
  refine ⟨?_, hentry, ?_, ?_, ?_⟩
  · intro row hr
    obtain ⟨i, hi, hir⟩ := hrow row hr
    rw [← hir]
    exact hrowlen i hi
  · intro row hr v hv
    obtain ⟨i, hi, hir⟩ := hrow row hr
    rw [← hir] at hv
    rcases hval i hi v hv with h | ⟨t, h⟩
    · rw [h]; exact ⟨by decide, by decide⟩
    · rw [h]
      have := hgen t
      unfold InIntRange INT_MIN INT_MAX
      omega
  · intro row hr
    obtain ⟨i, hi, hir⟩ := hrow row hr
    rw [← hir]
    exact hmin i hi
  · have hne : mat.map minOfRow ≠ [] := by
      intro h
      have h2 : (mat.map minOfRow).length = 0 := by rw [h]; rfl
      rw [List.length_map] at h2
      omega
    obtain ⟨hmem, _⟩ := maxOf_spec (mat.map minOfRow) hne
    rw [← maxOfMins_eq] at hmem
    obtain ⟨row, hr, hrm⟩ := List.mem_map.mp hmem
    obtain ⟨i, hi, hir⟩ := hrow row hr
    rw [← hrm, ← hir]
    exact hmin i hi

theorem band_columns (n i j : Nat) (k : Int) (hi : i < n) (hj : j < n) :
    ((max 0 ((i : Int) - k)).toNat ≤ j ∧
        j < (max 0 ((i : Int) - k)).toNat
          + (min ((n : Int) - 1) (i + k) - max 0 ((i : Int) - k) + 1).toNat)
      ↔ |(i : Int) - j| ≤ k := by
  rw [abs_le]
  omega

theorem minima_of_kernel (mat : List (List Int)) (n : Nat) (hlen : mat.length = n)
    (hrange : ∀ row ∈ mat, ∀ v ∈ row, InIntRange v)
    (hmins : ∀ row ∈ mat, -10000 ≤ minOfRow row ∧ minOfRow row ≤ 10000)
    (hmax : -10000 ≤ maxOfMins mat ∧ maxOfMins mat ≤ 10000)
    (num_threads : Nat) (schedule_str : String)
    (omp : omp_sched_t × Nat → Nat → Nat → List (List Nat))
    (hs : IsSplitOf n (omp (scheduleOf schedule_str) num_threads n)) :
    (∀ row ∈ mat,
        -10000 ≤ minInRow row ∧ minInRow row ≤ 10000 ∧ minInRow row ≠ INT_MAX) ∧
      -10000 ≤ compute_max_of_mins mat num_threads schedule_str omp ∧
      compute_max_of_mins mat num_threads schedule_str omp ≤ 10000 ∧
      compute_max_of_mins mat num_threads schedule_str omp ≠ INT_MAX := by
  have hbig : ∀ x : Int, x ≤ 10000 → x ≠ INT_MAX := by
    intro x hx h
    rw [h] at hx
    exact absurd hx (by decide)
  constructor
  · intro row hr
    have e : minInRow row = minOfRow row := by
      rw [minInRow5_eq_foldl, foldl_min_sentinel row (fun v hv => (hrange row hr v hv).2)]
      rfl
    rw [e]
    exact ⟨(hmins row hr).1, (hmins row hr).2, hbig _ (hmins row hr).2⟩
  · rw [compute5_eq_maxOfMins mat hrange num_threads schedule_str omp (by rw [hlen]; exact hs)]
    exact ⟨hmax.1, hmax.2, hbig _ hmax.2⟩

end Cpp5

namespace Kernels

open Omp

/-- C27 as stated is false: `n = 2` and `k = INT_MAX` satisfy `n >= 1` and
`k >= 0`, and the generator outputs lie in `[-10000, 10000]`, yet
`generate_banded` returns no matrix: in row `1` the `int` addition
`static_cast<int>(i) + k` overflows. -/
theorem banded_overflows_for_large_k :
    1 ≤ 2 ∧ (0 : Int) ≤ 2147483647 ∧ InIntRange 2147483647 ∧
      (∀ t, -10000 ≤ Cpp5.exGen t ∧ Cpp5.exGen t ≤ 10000) ∧
      addInt (toInt32 1) 2147483647 = none ∧
      Cpp5.generate_banded 2 2147483647 Cpp5.exGen = none :=
  ⟨by decide, by decide, by decide, fun t => by unfold Cpp5.exGen; omega, by decide, by decide⟩

/-- C27 amended: for every `n >= 1` and `k >= 0` with `n <= INT_MAX` and
`(n - 1) + k <= INT_MAX`, and generator outputs in `[-10000, 10000]`,
`generate_banded(n, k)` returns an `n`-by-`n` matrix whose entry `(i, j)` is a
generated value when `|i - j| <= k` and `INT_MAX` otherwise, and
`generate_lower_triangular(n)` returns an `n`-by-`n` matrix whose entry
`(i, j)` is a generated value when `j <= i` and `INT_MAX` otherwise; for both
matrices every row minimum of `compute_max_of_mins` and its result, for any
thread count, schedule string and distribution of the rows, lie in
`[-10000, 10000]` and are not `INT_MAX`. -/
theorem generated_matrices_have_generated_minima (n : Nat) (k : Int) (gen : Nat → Int)
    (hgen : ∀ t, -10000 ≤ gen t ∧ gen t ≤ 10000) (hn : 1 ≤ n) (hk : 0 ≤ k)
    (hsize : (n : Int) ≤ INT_MAX) (hfit : (n : Int) - 1 + k ≤ INT_MAX)
    (num_threads : Nat) (schedule_str : String)
    (omp : Cpp5.omp_sched_t × Nat → Nat → Nat → List (List Nat))
    (hs : IsSplitOf n (omp (Cpp5.scheduleOf schedule_str) num_threads n)) :
    (∃ band, Cpp5.generate_banded n k gen = some band ∧
      band.length = n ∧ (∀ row ∈ band, row.length = n) ∧
      (∀ i j, i < n → j < n →
        (|(i : Int) - j| ≤ k → ∃ t, (band.getD i []).getD j 0 = gen t) ∧
        (¬ |(i : Int) - j| ≤ k → (band.getD i []).getD j 0 = INT_MAX)) ∧
      (∀ row ∈ band, -10000 ≤ Cpp5.minInRow row ∧ Cpp5.minInRow row ≤ 10000 ∧
        Cpp5.minInRow row ≠ INT_MAX) ∧
      -10000 ≤ Cpp5.compute_max_of_mins band num_threads schedule_str omp ∧
      Cpp5.compute_max_of_mins band num_threads schedule_str omp ≤ 10000 ∧
      Cpp5.compute_max_of_mins band num_threads schedule_str omp ≠ INT_MAX) ∧
    ((Cpp5.generate_lower_triangular n gen).length = n ∧
      (∀ row ∈ Cpp5.generate_lower_triangular n gen, row.length = n) ∧
      (∀ i j, i < n → j < n →
        (j ≤ i → ∃ t, ((Cpp5.generate_lower_triangular n gen).getD i []).getD j 0 = gen t) ∧
        (¬ j ≤ i → ((Cpp5.generate_lower_triangular n gen).getD i []).getD j 0 = INT_MAX)) ∧
      (∀ row ∈ Cpp5.generate_lower_triangular n gen,
        -10000 ≤ Cpp5.minInRow row ∧ Cpp5.minInRow row ≤ 10000 ∧
        Cpp5.minInRow row ≠ INT_MAX) ∧
      -10000 ≤ Cpp5.compute_max_of_mins (Cpp5.generate_lower_triangular n gen)
        num_threads schedule_str omp ∧
      Cpp5.compute_max_of_mins (Cpp5.generate_lower_triangular n gen)
        num_threads schedule_str omp ≤ 10000 ∧
      Cpp5.compute_max_of_mins (Cpp5.generate_lower_triangular n gen)
        num_threads schedule_str omp ≠ INT_MAX) := by
  constructor
  · obtain ⟨band, drawn, hfold, hlen, hrows⟩ :=
      Cpp5.banded_rows n k gen hsize hk hfit n (le_refl n)
    have hgenb : Cpp5.generate_banded n k gen = some band := by
      unfold Cpp5.generate_banded
      rw [hfold]
      rfl
    have hfm := Cpp5.filled_matrix gen hgen n hn band hlen
      (fun i => (max 0 ((i : Int) - k)).toNat)
      (fun i => (min ((n : Int) - 1) (i + k) - max 0 ((i : Int) - k) + 1).toNat)
      (fun i hi => (hrows i hi).1 hi)
      (fun i hi => (Cpp5.band_columns n i i k hi hi).mpr (by simpa using hk))
    obtain ⟨hrl, hent, hrange, hmins, hmax⟩ := hfm
    have hk5 := Cpp5.minima_of_kernel band n hlen hrange hmins hmax num_threads schedule_str
      omp hs
    refine ⟨band, hgenb, hlen, hrl, ?_, hk5.1, hk5.2⟩
    intro i j hi hj
    constructor
    · intro h
      exact (hent i j hi hj).1 ((Cpp5.band_columns n i j k hi hj).mpr h)
    · intro h
      exact (hent i j hi hj).2 (fun h2 => h ((Cpp5.band_columns n i j k hi hj).mp h2))
  · obtain ⟨low, drawn, hfold, hlen, hrows⟩ := Cpp5.lower_rows n gen n (le_refl n)
    have hgenl : Cpp5.generate_lower_triangular n gen = low := by
      unfold Cpp5.generate_lower_triangular
      rw [hfold]
    rw [hgenl]
    have hfm := Cpp5.filled_matrix gen hgen n hn low hlen (fun _ => 0) (fun i => i + 1)
      (fun i hi => (hrows i hi).1 hi) (fun i _ => ⟨Nat.zero_le i, by dsimp only; omega⟩)
    obtain ⟨hrl, hent, hrange, hmins, hmax⟩ := hfm
    have hk5 := Cpp5.minima_of_kernel low n hlen hrange hmins hmax num_threads schedule_str
      omp hs
    refine ⟨hlen, hrl, ?_, hk5.1, hk5.2⟩
    intro i j hi hj
    constructor
    · intro h
      exact (hent i j hi hj).1 ⟨Nat.zero_le j, by dsimp only; omega⟩
    · intro h
      refine (hent i j hi hj).2 (fun h2 => h ?_)
      have h3 : 0 ≤ j ∧ j < 0 + (i + 1) := h2
      omega

theorem generated_matrices_have_generated_minima_witness :
    Cpp5.generate_banded 4 1 Cpp5.exGen
        = some [[-10000, -2081, 2147483647, 2147483647], [5838, -6244, 1675, 2147483647],
            [2147483647, 9594, -2488, 5431], [2147483647, 2147483647, -6651, 1268]] ∧
      Cpp5.generate_lower_triangular 4 Cpp5.exGen
        = [[-10000, 2147483647, 2147483647, 2147483647],
            [-2081, 5838, 2147483647, 2147483647], [-6244, 1675, 9594, 2147483647],
            [-2488, 5431, -6651, 1268]] ∧
      Cpp5.compute_max_of_mins
          [[-10000, -2081, 2147483647, 2147483647], [5838, -6244, 1675, 2147483647],
            [2147483647, 9594, -2488, 5431], [2147483647, 2147483647, -6651, 1268]]
          2 "dynamic" (fun _ => staticBlocks) = -2488 ∧
      -10000 ≤ Cpp5.compute_max_of_mins (Cpp5.generate_lower_triangular 4 Cpp5.exGen)
          2 "dynamic" (fun _ => staticBlocks) ∧
      Cpp5.compute_max_of_mins (Cpp5.generate_lower_triangular 4 Cpp5.exGen)
          2 "dynamic" (fun _ => staticBlocks) ≤ 10000 :=
  have h := generated_matrices_have_generated_minima 4 1 Cpp5.exGen
    (fun t => by unfold Cpp5.exGen; omega) (by decide) (by decide) (by decide) (by decide)
    2 "dynamic" (fun _ => staticBlocks) (by unfold IsSplitOf; decide)
  ⟨by decide, by decide, by decide, h.2.2.2.2.2.1, h.2.2.2.2.2.2.1⟩

end Kernels
